import Mathlib

/-!
Zix: ordered B-tree container, ring buffer and status messages

A shallow embedding of the ordered associative container of the zix library
(`zix/btree.h`), together with the comparators of `test/test_btree.c`, and a
verification of its contract: ordered insertion, exact lookup, lower-bound
search, removal with rebalancing, in-order iteration and failure atomicity
under a failing allocator.

Keys are the `uintptr_t` values the tests store in the element pointers; they
are modelled as natural numbers and only ever inspected through a comparator
`cmp : Nat → Nat → Int` (negative, zero, positive).

The second part embeds the byte ring of `src/ring.c` and verifies it as a FIFO
queue of bytes with all-or-nothing reads and writes, in-bounds accesses and a
validity invariant.  The third part embeds `zix_strerror` of
`include/zix/common.h`.
-/

set_option autoImplicit false

/-! ## Status codes (`include/zix/common.h`) -/

/-- The shared status enumeration `ZixStatus` of `include/zix/common.h`. -/
inductive ZixStatus where
  | ZIX_STATUS_SUCCESS
  | ZIX_STATUS_ERROR
  | ZIX_STATUS_NO_MEM
  | ZIX_STATUS_NOT_FOUND
  | ZIX_STATUS_EXISTS
  | ZIX_STATUS_BAD_ARG
  | ZIX_STATUS_BAD_PERMS
  | ZIX_STATUS_REACHED_END
  deriving DecidableEq, Repr

open ZixStatus

/-! ## Test comparators (`test/test_btree.c`) -/

/-- The comparator `int_cmp` of `test/test_btree.c`: `ia < ib ? -1 : ia > ib ? 1 : 0`.
The two assertions `ia != 0U` and `ib != 0U` are preconditions of the C function;
the theorems that rely on them carry the non-zero hypotheses explicitly. -/
def int_cmp (a b : Nat) : Int :=
  if a < b then -1 else if a > b then 1 else 0

/-- The struct `TestContext` of `test/test_btree.c`. -/
structure TestContext where
  test_num : Nat
  n_elems : Nat

/-- The function `ith_elem` of `test/test_btree.c`.  The helper `unique_rand`
(declared in `test_data.h`) is taken as a parameter; `uintptr_t` and `size_t`
arithmetic is 64-bit and wraps. -/
def ith_elem (unique_rand : Nat → Nat) (test_num n_elems i : Nat) : Nat :=
  match test_num % 3 with
  | 0 => (i + 1) % 2 ^ 64
  | 1 => (n_elems + 2 ^ 64 - i % 2 ^ 64) % 2 ^ 64
  | _ => (1 + unique_rand i) % 2 ^ 64

/-- The function `wildcard_cut` of `test/test_btree.c`. -/
def wildcard_cut (unique_rand : Nat → Nat) (test_num n_elems : Nat) : Nat :=
  ith_elem unique_rand test_num n_elems (n_elems / 3)

/-- The comparator `wildcard_cmp` of `test/test_btree.c`: key `0` matches every
key at or above `wildcard_cut`. -/
def wildcard_cmp (unique_rand : Nat → Nat) (ctx : TestContext) (a b : Nat) : Int :=
  if a = 0 then
    if b ≥ wildcard_cut unique_rand ctx.test_num ctx.n_elems then 0 else 1
  else if b = 0 then
    if a ≥ wildcard_cut unique_rand ctx.test_num ctx.n_elems then 0 else -1
  else int_cmp a b

/-! ## Data model -/

/-- Modelled from the spec: the node type of `src/btree.c`, which is not part of
the sources at hand.  A node is a leaf holding only keys, or an internal node
holding `n` keys and `n + 1` owned children. -/
inductive ZixBTreeNode where
  | leaf (keys : List Nat)
  | internal (keys : List Nat) (children : List ZixBTreeNode)
  deriving Repr

/-- The keys stored in a node itself. -/
def ZixBTreeNode.keys : ZixBTreeNode → List Nat
  | .leaf ks => ks
  | .internal ks _ => ks

/-- The children of a node (none for a leaf). -/
def ZixBTreeNode.children : ZixBTreeNode → List ZixBTreeNode
  | .leaf _ => []
  | .internal _ cs => cs

/-- A node of the same kind as `n` with the given contents. -/
def ZixBTreeNode.with_contents (n : ZixBTreeNode) (ks : List Nat)
    (cs : List ZixBTreeNode) : ZixBTreeNode :=
  match n with
  | .leaf _ => .leaf ks
  | .internal _ _ => .internal ks cs

/-- Modelled from the spec: the tree object of `src/btree.c` (absent from the
sources): node fanout `M`, comparator, root reference (absent when the tree is
empty) and element count.  The allocator is a caller-owned resource and is
threaded through the operations that allocate. -/
structure ZixBTree where
  fanout : Nat
  cmp : Nat → Nat → Int
  root : Option ZixBTreeNode
  size : Nat

/-- Modelled from the spec: an iterator of `src/btree.c` (absent from the
sources) is the path of (node, index) frames from the root to the referenced
key.  The empty path is the `end` sentinel. -/
abbrev ZixBTreeIter := List (ZixBTreeNode × Nat)

/-- Modelled from the spec: the allocator capability (`zix/allocator.h`, absent
from the sources).  Request number `n` is granted iff `grants n`; the state
counts the requests made so far and the blocks currently outstanding. -/
structure ZixAllocator where
  grants : Nat → Bool
  n_allocations : Nat
  n_live : Nat

/-- Modelled from the spec: `allocate`, which reports failure through its
result only. -/
def zix_malloc (a : ZixAllocator) : Bool × ZixAllocator :=
  if a.grants a.n_allocations then
    (true, { a with n_allocations := a.n_allocations + 1, n_live := a.n_live + 1 })
  else
    (false, { a with n_allocations := a.n_allocations + 1 })

/-- Modelled from the spec: `deallocate`. -/
def zix_free (a : ZixAllocator) : ZixAllocator :=
  { a with n_live := a.n_live - 1 }

/-- Smallest number of keys a non-root node may hold: `ceil(M/2) - 1`. -/
def zix_btree_min_keys (M : Nat) : Nat := (M + 1) / 2 - 1

/-- Array insertion: `x` is placed at index `i`. -/
def zix_btree_ainsert {α : Type} (xs : List α) (i : Nat) (x : α) : List α :=
  xs.take i ++ x :: xs.drop i

/-- Array erasure: the element at index `i` is dropped. -/
def zix_btree_aerase {α : Type} (xs : List α) (i : Nat) : List α :=
  xs.take i ++ xs.drop (i + 1)

/-- Array update: the element at index `i` is replaced by `x`. -/
def zix_btree_aset {α : Type} (xs : List α) (i : Nat) (x : α) : List α :=
  xs.take i ++ x :: xs.drop (i + 1)

/-! ## Search -/

/-- Modelled from the spec: `src/btree.c` is absent; spec §4.1: within a node, the
smallest index `i` such that `cmp key keys[i] ≤ 0`, or the number of keys when
there is none (linear search). -/
def zix_btree_node_find (cmp : Nat → Nat → Int) (key : Nat) : List Nat → Nat
  | [] => 0
  | k :: ks => if cmp key k ≤ 0 then 0 else zix_btree_node_find cmp key ks + 1

/-- Modelled from the spec: `src/btree.c` is absent; spec §4.1: index `i` is an
exact match when `cmp key keys[i] = 0`. -/
def zix_btree_node_match (cmp : Nat → Nat → Int) (key : Nat) (ks : List Nat)
    (i : Nat) : Bool :=
  match ks[i]? with
  | some k => decide (cmp key k = 0)
  | none => false

mutual
/-- Modelled from the spec: `src/btree.c` is absent; spec §4.1: `find` below a node,
a guided descent; an exact match in an internal node is itself the result. -/
def zix_btree_find_node (cmp : Nat → Nat → Int) (key : Nat) :
    ZixBTreeNode → Option ZixBTreeIter
  | .leaf ks =>
    let i := zix_btree_node_find cmp key ks
    if zix_btree_node_match cmp key ks i then some [(.leaf ks, i)] else none
  | .internal ks cs =>
    let i := zix_btree_node_find cmp key ks
    if zix_btree_node_match cmp key ks i then some [(.internal ks cs, i)]
    else
      match zix_btree_find_child cmp key cs i with
      | some p => some ((.internal ks cs, i) :: p)
      | none => none
/-- Descent of `find` into child `i` of a child array. -/
def zix_btree_find_child (cmp : Nat → Nat → Int) (key : Nat) :
    List ZixBTreeNode → Nat → Option ZixBTreeIter
  | [], _ => none
  | c :: _, 0 => zix_btree_find_node cmp key c
  | _ :: cs, i + 1 => zix_btree_find_child cmp key cs i
end

mutual
/-- Modelled from the spec: `src/btree.c` is absent; spec §4.1: `lower_bound` below
a node. When no key of the node qualifies the descent goes into the rightmost
child; otherwise it goes into child `i`, and index `i` of this node is the
answer when the subtree yields nothing. -/
def zix_btree_lower_bound_node (cmp : Nat → Nat → Int) (key : Nat) :
    ZixBTreeNode → Option ZixBTreeIter
  | .leaf ks =>
    let i := zix_btree_node_find cmp key ks
    if i < ks.length then some [(.leaf ks, i)] else none
  | .internal ks cs =>
    let i := zix_btree_node_find cmp key ks
    match zix_btree_lower_bound_child cmp key cs i with
    | some p => some ((.internal ks cs, i) :: p)
    | none => if i < ks.length then some [(.internal ks cs, i)] else none
/-- Descent of `lower_bound` into child `i` of a child array. -/
def zix_btree_lower_bound_child (cmp : Nat → Nat → Int) (key : Nat) :
    List ZixBTreeNode → Nat → Option ZixBTreeIter
  | [], _ => none
  | c :: _, 0 => zix_btree_lower_bound_node cmp key c
  | _ :: cs, i + 1 => zix_btree_lower_bound_child cmp key cs i
end

/-! ## Iterator navigation -/

mutual
/-- Modelled from the spec: `src/btree.c` is absent; spec §4.4: the path to the
first key below a node, descending via child index 0 repeatedly to the leftmost
leaf. -/
def zix_btree_begin_node : ZixBTreeNode → ZixBTreeIter
  | .leaf ks => [(.leaf ks, 0)]
  | .internal ks cs => (.internal ks cs, 0) :: zix_btree_begin_child cs
/-- Leftmost descent into the first child of a child array. -/
def zix_btree_begin_child : List ZixBTreeNode → ZixBTreeIter
  | [] => []
  | c :: _ => zix_btree_begin_node c
end

/-- Modelled from the spec: `src/btree.c` is absent; spec §4.4: one step forward
along a path; `none` when every frame has been popped without finding a
successor. In a leaf the index advances unless it is the last key; otherwise
frames are popped until an ancestor whose index is below its key count is found.
In an internal node the successor is the leftmost key below `child[index + 1]`. -/
def zix_btree_iter_step : ZixBTreeIter → Option ZixBTreeIter
  | [] => none
  | [(n, i)] =>
    match n with
    | .leaf ks => if i + 1 < ks.length then some [(n, i + 1)] else none
    | .internal _ cs =>
      match cs[i + 1]? with
      | some c => some ((n, i + 1) :: zix_btree_begin_node c)
      | none => none
  | (n, i) :: f :: rest =>
    match zix_btree_iter_step (f :: rest) with
    | some p => some ((n, i) :: p)
    | none => if i < n.keys.length then some [(n, i)] else none

/-- Modelled from the spec: `src/btree.c` is absent; spec §4.4: the `end` sentinel. -/
def zix_btree_end_iter : ZixBTreeIter := []

/-- Modelled from the spec: `src/btree.c` is absent; spec §4.4: `increment`; the
`end` sentinel results when the root is popped without finding a successor. -/
def zix_btree_iter_increment (it : ZixBTreeIter) : ZixBTreeIter :=
  match zix_btree_iter_step it with
  | some p => p
  | none => zix_btree_end_iter

/-- Modelled from the spec: `src/btree.c` is absent; spec §4.4: the `is_end`
predicate. -/
def zix_btree_iter_is_end (it : ZixBTreeIter) : Bool := it.isEmpty

/-- Modelled from the spec: `src/btree.c` is absent; spec §4.4: `get`, the key a
path refers to; `none` on a sentinel. -/
def zix_btree_get (it : ZixBTreeIter) : Option Nat :=
  match it.getLast? with
  | some (n, i) => n.keys[i]?
  | none => none

/-- The iterator values at which the body of the loop
`for (it = start; !is_end(it); increment(&it))` runs, for at most `fuel`
rounds. -/
def zix_btree_iter_walk : Nat → ZixBTreeIter → List ZixBTreeIter
  | 0, _ => []
  | fuel + 1, it =>
    if zix_btree_iter_is_end it then []
    else it :: zix_btree_iter_walk fuel (zix_btree_iter_increment it)

/-! ## Insertion -/

/-- Outcome of inserting below a node. -/
inductive ZixBTreeInsertResult where
  | found
  | invalid
  | fits (n : ZixBTreeNode)
  | overflow (l : ZixBTreeNode) (median : Nat) (r : ZixBTreeNode)
  deriving Repr

/-- Modelled from the spec: `src/btree.c` is absent; spec §4.2: a leaf that now
holds `M` keys is split at the median index `M / 2`, the median key being
promoted. -/
def zix_btree_finish_leaf (M : Nat) (ks : List Nat) : ZixBTreeInsertResult :=
  if ks.length < M then .fits (.leaf ks)
  else
    match ks.drop (M / 2) with
    | m :: rest => .overflow (.leaf (ks.take (M / 2))) m (.leaf rest)
    | [] => .invalid

/-- Modelled from the spec: `src/btree.c` is absent; spec §4.2: an internal node
that now holds `M` keys is split at the median index, each half keeping one more
child than keys. -/
def zix_btree_finish_internal (M : Nat) (ks : List Nat) (cs : List ZixBTreeNode) :
    ZixBTreeInsertResult :=
  if ks.length < M then .fits (.internal ks cs)
  else
    match ks.drop (M / 2) with
    | m :: rest =>
      .overflow (.internal (ks.take (M / 2)) (cs.take (M / 2 + 1))) m
        (.internal rest (cs.drop (M / 2 + 1)))
    | [] => .invalid

mutual
/-- Modelled from the spec: `src/btree.c` is absent; spec §4.2: insertion below a
node. The descent is the one of search; an exact match at any level yields
`found`; otherwise the key goes into the leaf reached, and a node that overflows
is split, the median being inserted into the parent together with the new
right-hand node. -/
def zix_btree_insert_node (M : Nat) (cmp : Nat → Nat → Int) (key : Nat) :
    ZixBTreeNode → ZixBTreeInsertResult
  | .leaf ks =>
    let i := zix_btree_node_find cmp key ks
    if zix_btree_node_match cmp key ks i then .found
    else zix_btree_finish_leaf M (zix_btree_ainsert ks i key)
  | .internal ks cs =>
    let i := zix_btree_node_find cmp key ks
    if zix_btree_node_match cmp key ks i then .found
    else
      match zix_btree_insert_child M cmp key cs i with
      | .found => .found
      | .invalid => .invalid
      | .fits c => .fits (.internal ks (zix_btree_aset cs i c))
      | .overflow l m r =>
        zix_btree_finish_internal M (zix_btree_ainsert ks i m)
          (cs.take i ++ l :: r :: cs.drop (i + 1))
/-- Insertion into child `i` of a child array. -/
def zix_btree_insert_child (M : Nat) (cmp : Nat → Nat → Int) (key : Nat) :
    List ZixBTreeNode → Nat → ZixBTreeInsertResult
  | [], _ => .invalid
  | c :: _, 0 => zix_btree_insert_node M cmp key c
  | _ :: cs, i + 1 => zix_btree_insert_child M cmp key cs i
end

mutual
/-- Modelled from the spec: `src/btree.c` is absent; spec §4.2, failure atomicity by
pre-flight: the number of nodes that splitting will create on the insertion path
below a node, and whether the node itself will split. -/
def zix_btree_insert_splits (M : Nat) (cmp : Nat → Nat → Int) (key : Nat) :
    ZixBTreeNode → Nat × Bool
  | .leaf ks => if M ≤ ks.length + 1 then (1, true) else (0, false)
  | .internal ks cs =>
    match zix_btree_insert_splits_child M cmp key cs
        (zix_btree_node_find cmp key ks) with
    | (k, true) => if M ≤ ks.length + 1 then (k + 1, true) else (k, false)
    | (k, false) => (k, false)
/-- Split count for child `i` of a child array. -/
def zix_btree_insert_splits_child (M : Nat) (cmp : Nat → Nat → Int) (key : Nat) :
    List ZixBTreeNode → Nat → Nat × Bool
  | [], _ => (0, false)
  | c :: _, 0 => zix_btree_insert_splits M cmp key c
  | _ :: cs, i + 1 => zix_btree_insert_splits_child M cmp key cs i
end

/-- Modelled from the spec: `src/btree.c` is absent; spec §4.2: the number of node
allocations an insertion below the root requests: one per split, and one more
for the new root when the root itself splits. -/
def zix_btree_insert_allocs (M : Nat) (cmp : Nat → Nat → Int) (key : Nat)
    (n : ZixBTreeNode) : Nat :=
  match zix_btree_insert_splits M cmp key n with
  | (k, true) => k + 1
  | (k, false) => k

/-- Modelled from the spec: `src/btree.c` is absent; spec §4.2, §5: pre-flight of
`n` node allocations. On the first refused request every node obtained so far is
released again. -/
def zix_btree_reserve : Nat → ZixAllocator → Bool × ZixAllocator
  | 0, a => (true, a)
  | n + 1, a =>
    match zix_malloc a with
    | (false, a1) => (false, a1)
    | (true, a1) =>
      match zix_btree_reserve n a1 with
      | (true, a2) => (true, a2)
      | (false, a2) => (false, zix_free a2)

/-- Modelled from the spec: `src/btree.c` is absent; spec §6: `construct`, an empty
tree (no root). -/
def zix_btree_new (M : Nat) (cmp : Nat → Nat → Int) : ZixBTree :=
  { fanout := M, cmp := cmp, root := none, size := 0 }

/-- Modelled from the spec: `src/btree.c` is absent; spec §6: `size`. -/
def zix_btree_size (t : ZixBTree) : Nat := t.size

/-- Modelled from the spec: `src/btree.c` is absent; spec §4.2: `insert`. Status is
SUCCESS, EXISTS or NO_MEM; on EXISTS and NO_MEM the tree is returned as it was.
When the root overflows a new root holding the promoted key and the two halves
is made. -/
def zix_btree_insert (t : ZixBTree) (e : Nat) (a : ZixAllocator) :
    ZixStatus × ZixBTree × ZixAllocator :=
  match t.root with
  | none =>
    match zix_btree_reserve 1 a with
    | (false, a1) => (ZIX_STATUS_NO_MEM, t, a1)
    | (true, a1) =>
      (ZIX_STATUS_SUCCESS, { t with root := some (.leaf [e]), size := t.size + 1 }, a1)
  | some n =>
    match zix_btree_insert_node t.fanout t.cmp e n with
    | .found => (ZIX_STATUS_EXISTS, t, a)
    | .invalid => (ZIX_STATUS_ERROR, t, a)
    | .fits n1 =>
      match zix_btree_reserve (zix_btree_insert_allocs t.fanout t.cmp e n) a with
      | (false, a1) => (ZIX_STATUS_NO_MEM, t, a1)
      | (true, a1) =>
        (ZIX_STATUS_SUCCESS, { t with root := some n1, size := t.size + 1 }, a1)
    | .overflow l m r =>
      match zix_btree_reserve (zix_btree_insert_allocs t.fanout t.cmp e n) a with
      | (false, a1) => (ZIX_STATUS_NO_MEM, t, a1)
      | (true, a1) =>
        (ZIX_STATUS_SUCCESS,
          { t with root := some (.internal [m] [l, r]), size := t.size + 1 }, a1)

/-- Modelled from the spec: `src/btree.c` is absent; spec §4.1: `find`; NOT_FOUND
with the `end` sentinel when no stored key compares equal. -/
def zix_btree_find (t : ZixBTree) (e : Nat) : ZixStatus × ZixBTreeIter :=
  match t.root with
  | none => (ZIX_STATUS_NOT_FOUND, zix_btree_end_iter)
  | some n =>
    match zix_btree_find_node t.cmp e n with
    | some p => (ZIX_STATUS_SUCCESS, p)
    | none => (ZIX_STATUS_NOT_FOUND, zix_btree_end_iter)

/-- Modelled from the spec: `src/btree.c` is absent; spec §4.1: `lower_bound` with a
per-call comparator; the `end` sentinel when no stored key qualifies. -/
def zix_btree_lower_bound (t : ZixBTree) (compare_key : Nat → Nat → Int)
    (key : Nat) : ZixStatus × ZixBTreeIter :=
  match t.root with
  | none => (ZIX_STATUS_SUCCESS, zix_btree_end_iter)
  | some n =>
    match zix_btree_lower_bound_node compare_key key n with
    | some p => (ZIX_STATUS_SUCCESS, p)
    | none => (ZIX_STATUS_SUCCESS, zix_btree_end_iter)

/-- Modelled from the spec: `src/btree.c` is absent; spec §4.4: `begin`; equal to
`end` for an empty tree. -/
def zix_btree_begin (t : ZixBTree) : ZixBTreeIter :=
  match t.root with
  | none => zix_btree_end_iter
  | some n => zix_btree_begin_node n

/-- Modelled from the spec: `src/btree.c` is absent; spec §4.4: `end`. -/
def zix_btree_end (_t : ZixBTree) : ZixBTreeIter := zix_btree_end_iter

/-! ## Removal -/

/-- Whether child `j` of a child array exists and holds more than the minimum
number of keys, so that it can give one away. -/
def zix_btree_can_spare (M : Nat) (cs : List ZixBTreeNode) (j : Nat) : Bool :=
  match cs[j]? with
  | some s => decide (zix_btree_min_keys M < s.keys.length)
  | none => false

/-- Modelled from the spec: `src/btree.c` is absent; spec §4.3: rotation through the
parent from the left sibling `j` into child `j + 1`: the separator moves down in
front of the child, the last key of the sibling moves up (with its last child
following the separator). -/
def zix_btree_rotate_right (ks : List Nat) (cs : List ZixBTreeNode) (j : Nat) :
    ZixBTreeNode :=
  match cs[j]?, cs[j + 1]?, ks[j]? with
  | some l, some c, some sep =>
    match l.keys.getLast? with
    | some up =>
      .internal (zix_btree_aset ks j up)
        (cs.take j
          ++ l.with_contents l.keys.dropLast l.children.dropLast
          :: c.with_contents (sep :: c.keys) (l.children.getLast?.toList ++ c.children)
          :: cs.drop (j + 2))
    | none => .internal ks cs
  | _, _, _ => .internal ks cs

/-- Modelled from the spec: `src/btree.c` is absent; spec §4.3: rotation through the
parent from the right sibling `i + 1` into child `i`: the separator moves down
behind the child, the first key of the sibling moves up (with its first child
following the separator). -/
def zix_btree_rotate_left (ks : List Nat) (cs : List ZixBTreeNode) (i : Nat) :
    ZixBTreeNode :=
  match cs[i]?, cs[i + 1]?, ks[i]? with
  | some c, some r, some sep =>
    match r.keys with
    | up :: rest =>
      .internal (zix_btree_aset ks i up)
        (cs.take i
          ++ c.with_contents (c.keys ++ [sep]) (c.children ++ r.children.head?.toList)
          :: r.with_contents rest r.children.tail
          :: cs.drop (i + 2))
    | [] => .internal ks cs
  | _, _, _ => .internal ks cs

/-- Modelled from the spec: `src/btree.c` is absent; spec §4.3: children `j` and `j
+ 1` are merged, the separating parent key being pulled down between them. -/
def zix_btree_merge (ks : List Nat) (cs : List ZixBTreeNode) (j : Nat) :
    ZixBTreeNode :=
  match cs[j]?, cs[j + 1]?, ks[j]? with
  | some l, some r, some sep =>
    .internal (zix_btree_aerase ks j)
      (cs.take j
        ++ l.with_contents (l.keys ++ sep :: r.keys) (l.children ++ r.children)
        :: cs.drop (j + 2))
  | _, _, _ => .internal ks cs

/-- Modelled from the spec: `src/btree.c` is absent; spec §4.3: after child `i` lost
a key, if it underflows below `ceil(M/2) - 1` a key is borrowed from an
immediate sibling by rotation; if no sibling can spare one the child is merged
with a sibling. -/
def zix_btree_rebalance (M : Nat) (ks : List Nat) (cs : List ZixBTreeNode)
    (i : Nat) : ZixBTreeNode :=
  match cs[i]? with
  | none => .internal ks cs
  | some c =>
    if zix_btree_min_keys M ≤ c.keys.length then .internal ks cs
    else if 0 < i ∧ zix_btree_can_spare M cs (i - 1) = true then
      zix_btree_rotate_right ks cs (i - 1)
    else if zix_btree_can_spare M cs (i + 1) = true then
      zix_btree_rotate_left ks cs i
    else if 0 < i then zix_btree_merge ks cs (i - 1)
    else zix_btree_merge ks cs i

mutual
/-- Modelled from the spec: `src/btree.c` is absent; spec §4.3: the in-order
predecessor of a key of an internal node is the largest key below the child to
its left; it is taken out of its leaf, and the nodes on the way are rebalanced. -/
def zix_btree_remove_max (M : Nat) : ZixBTreeNode → Option (Nat × ZixBTreeNode)
  | .leaf ks =>
    match ks.getLast? with
    | some k => some (k, .leaf ks.dropLast)
    | none => none
  | .internal ks cs =>
    match zix_btree_remove_max_child M cs ks.length with
    | some (k, c) =>
      some (k, zix_btree_rebalance M ks (zix_btree_aset cs ks.length c) ks.length)
    | none => none
/-- Removal of the largest key below child `i` of a child array. -/
def zix_btree_remove_max_child (M : Nat) :
    List ZixBTreeNode → Nat → Option (Nat × ZixBTreeNode)
  | [], _ => none
  | c :: _, 0 => zix_btree_remove_max M c
  | _ :: cs, i + 1 => zix_btree_remove_max_child M cs i
end

mutual
/-- Modelled from the spec: `src/btree.c` is absent; spec §4.3: removal below a
node, yielding the removed key and the node afterwards (which may hold one key
less than the minimum, to be repaired by its parent). A key found in a leaf is
deleted from the leaf directly; a key found in an internal node is replaced by
its in-order predecessor, which is deleted from its leaf. -/
def zix_btree_remove_node (M : Nat) (cmp : Nat → Nat → Int) (key : Nat) :
    ZixBTreeNode → Option (Nat × ZixBTreeNode)
  | .leaf ks =>
    let i := zix_btree_node_find cmp key ks
    if zix_btree_node_match cmp key ks i then
      match ks[i]? with
      | some k => some (k, .leaf (zix_btree_aerase ks i))
      | none => none
    else none
  | .internal ks cs =>
    let i := zix_btree_node_find cmp key ks
    if zix_btree_node_match cmp key ks i then
      match ks[i]?, zix_btree_remove_max_child M cs i with
      | some k, some (p, c) =>
        some (k, zix_btree_rebalance M (zix_btree_aset ks i p) (zix_btree_aset cs i c) i)
      | _, _ => none
    else
      match zix_btree_remove_child M cmp key cs i with
      | some (v, c) => some (v, zix_btree_rebalance M ks (zix_btree_aset cs i c) i)
      | none => none
/-- Removal below child `i` of a child array. -/
def zix_btree_remove_child (M : Nat) (cmp : Nat → Nat → Int) (key : Nat) :
    List ZixBTreeNode → Nat → Option (Nat × ZixBTreeNode)
  | [], _ => none
  | c :: _, 0 => zix_btree_remove_node M cmp key c
  | _ :: cs, i + 1 => zix_btree_remove_child M cmp key cs i
end

/-- Modelled from the spec: `src/btree.c` is absent; spec §3, §4.3: a root left with
zero keys and exactly one child is replaced by that child; a root leaf left with
zero keys is released, the root reference being absent when the tree is empty. -/
def zix_btree_shrink_root : ZixBTreeNode → Option ZixBTreeNode
  | .leaf [] => none
  | .internal [] [c] => some c
  | n => some n

/-- Modelled from the spec: `src/btree.c` is absent; spec §4.3: the logical
successor of a stored key at the moment of its removal: the key is located by
search and the path is advanced by one step. -/
def zix_btree_successor (cmp : Nat → Nat → Int) (e : Nat) (n : ZixBTreeNode) : Option Nat :=
  match zix_btree_find_node cmp e n with
  | some p => zix_btree_get (zix_btree_iter_increment p)
  | none => none

/-- Modelled from the spec: `src/btree.c` is absent; spec §4.3: repair of the next
iterator immediately after the rebalance: the path is repositioned to the key
that was the logical successor by one descent of the new tree, or is the `end`
sentinel if there was none. -/
def zix_btree_reposition (t : ZixBTree) (successor : Option Nat) : ZixBTreeIter :=
  match successor with
  | some s => (zix_btree_find t s).2
  | none => zix_btree_end_iter

/-- Modelled from the spec: `src/btree.c` is absent; spec §4.3: `remove`, yielding
the status, the removed key, the next iterator and the tree afterwards. The next
iterator refers to the key that was the logical successor of the removed key at
the moment of removal. -/
def zix_btree_remove (t : ZixBTree) (e : Nat) :
    ZixStatus × Option Nat × ZixBTreeIter × ZixBTree :=
  match t.root with
  | none => (ZIX_STATUS_NOT_FOUND, none, zix_btree_end_iter, t)
  | some n =>
    match zix_btree_remove_node t.fanout t.cmp e n with
    | none => (ZIX_STATUS_NOT_FOUND, none, zix_btree_end_iter, t)
    | some (v, n1) =>
      let t1 : ZixBTree := { t with root := zix_btree_shrink_root n1, size := t.size - 1 }
      (ZIX_STATUS_SUCCESS, some v,
        zix_btree_reposition t1 (zix_btree_successor t.cmp e n), t1)

mutual
/-- In-order sequence of the keys below a node. -/
def zix_btree_node_inorder : ZixBTreeNode → List Nat
  | .leaf ks => ks
  | .internal ks cs => zix_btree_children_inorder ks cs
/-- In-order sequence of a key array interleaved with a child array. -/
def zix_btree_children_inorder : List Nat → List ZixBTreeNode → List Nat
  | _, [] => []
  | [], c :: _ => zix_btree_node_inorder c
  | k :: ks, c :: cs => zix_btree_node_inorder c ++ k :: zix_btree_children_inorder ks cs
end

/-- In-order sequence of the keys stored in a tree. -/
def zix_btree_inorder (t : ZixBTree) : List Nat :=
  match t.root with
  | none => []
  | some n => zix_btree_node_inorder n

/-- Modelled from the spec: `src/btree.c` is absent; spec §6: `clear`, which
destroys every node; the second component lists the keys handed to the destroy
callback, once each. -/
def zix_btree_clear (t : ZixBTree) : ZixBTree × List Nat :=
  ({ t with root := none, size := 0 }, zix_btree_inorder t)

/-! ## Specification vocabulary -/

/-- A comparator that is a strict total order: zero exactly on equal keys,
antisymmetric in sign and transitive. -/
structure ZixTotalOrder (cmp : Nat → Nat → Int) : Prop where
  eq_of_zero : ∀ a b, cmp a b = 0 → a = b
  refl : ∀ a, cmp a a = 0
  antisymm : ∀ a b, cmp a b < 0 ↔ 0 < cmp b a
  trans : ∀ a b c, cmp a b < 0 → cmp b c < 0 → cmp a c < 0

/-- A key sequence is strictly increasing under the comparator. -/
def zix_btree_sorted (cmp : Nat → Nat → Int) (l : List Nat) : Prop :=
  l.Pairwise (fun a b => cmp a b < 0)

/-- Keys first: `k0, inorder c0, k1, inorder c1, ...`. -/
def zix_btree_after : List Nat → List ZixBTreeNode → List Nat
  | k :: ks, c :: cs => k :: (zix_btree_node_inorder c ++ zix_btree_after ks cs)
  | _, _ => []

/-- Children first: `inorder c0, k0, inorder c1, k1, ...`. -/
def zix_btree_before : List Nat → List ZixBTreeNode → List Nat
  | k :: ks, c :: cs => zix_btree_node_inorder c ++ k :: zix_btree_before ks cs
  | _, _ => []

/-- Shape invariant of a subtree of height `h` whose top node holds at least
`lo` keys: every node holds at most `M - 1` keys, every node below the top at
least `ceil(M/2) - 1`, an internal node has one more child than keys, and all
leaves are `h` levels down. -/
def zix_btree_node_inv (M : Nat) : Nat → Nat → ZixBTreeNode → Prop
  | 0, lo, .leaf ks => lo ≤ ks.length ∧ ks.length ≤ M - 1
  | h + 1, lo, .internal ks cs =>
    lo ≤ ks.length ∧ ks.length ≤ M - 1 ∧ cs.length = ks.length + 1 ∧
      ∀ c ∈ cs, zix_btree_node_inv M h (zix_btree_min_keys M) c
  | 0, _, .internal _ _ => False
  | _ + 1, _, .leaf _ => False

mutual
/-- Height of a node, measured along its first children. -/
def zix_btree_node_height : ZixBTreeNode → Nat
  | .leaf _ => 0
  | .internal _ cs => zix_btree_children_height cs + 1
/-- Height of the first child of a child array. -/
def zix_btree_children_height : List ZixBTreeNode → Nat
  | [] => 0
  | c :: _ => zix_btree_node_height c
end

/-- Validity of a tree with respect to an order `cmp0` on its keys: a fanout of
at least 3, and either no root and size 0, or a root with at least one key
whose subtree has the shape invariant, holds strictly increasing keys, and as
many of them as the size says. -/
def zix_btree_valid_for (cmp0 : Nat → Nat → Int) (t : ZixBTree) : Prop :=
  3 ≤ t.fanout ∧
    match t.root with
    | none => t.size = 0
    | some n =>
      zix_btree_node_inv t.fanout (zix_btree_node_height n) 1 n ∧
        zix_btree_sorted cmp0 (zix_btree_node_inorder n) ∧
        t.size = (zix_btree_node_inorder n).length

/-- Validity of a tree with respect to its own comparator. -/
def zix_btree_valid (t : ZixBTree) : Prop := zix_btree_valid_for t.cmp t

/-- The number of node allocations `zix_btree_insert` requests when none is
refused: one for the root leaf of an empty tree, none when the key exists,
and otherwise one per split on the insertion path. -/
def zix_btree_insert_requests (t : ZixBTree) (e : Nat) : Nat :=
  match t.root with
  | none => 1
  | some n =>
    match zix_btree_insert_node t.fanout t.cmp e n with
    | .found => 0
    | .invalid => 0
    | .fits _ => zix_btree_insert_allocs t.fanout t.cmp e n
    | .overflow _ _ _ => zix_btree_insert_allocs t.fanout t.cmp e n

/-- A path lies in the subtree of a node: it starts at the node, each further
frame is the child selected by the index before it, and the last index refers
to a key. -/
def zix_btree_path_in : ZixBTreeNode → ZixBTreeIter → Prop
  | _, [] => False
  | n, [(m, i)] => m = n ∧ i < n.keys.length
  | n, (m, i) :: f :: rest =>
    m = n ∧ ∃ c, n.children[i]? = some c ∧ zix_btree_path_in c (f :: rest)

/-- The keys of a node from key index `i` on, in order. -/
def zix_btree_node_suffix (n : ZixBTreeNode) (i : Nat) : List Nat :=
  match n with
  | .leaf ks => ks.drop i
  | .internal ks cs => zix_btree_after (ks.drop i) (cs.drop (i + 1))

/-- The keys from the position of a path to the end of the traversal. -/
def zix_btree_iter_rest : ZixBTreeIter → List Nat
  | [] => []
  | (n, i) :: rest => zix_btree_iter_rest rest ++ zix_btree_node_suffix n i

/-- Insertion of a sequence of keys, threading tree and allocator; the statuses
are returned in order. -/
def zix_btree_insert_all (t : ZixBTree) (a : ZixAllocator) :
    List Nat → List ZixStatus × ZixBTree × ZixAllocator
  | [] => ([], t, a)
  | e :: es =>
    let r := zix_btree_insert t e a
    let rs := zix_btree_insert_all r.2.1 r.2.2 es
    (r.1 :: rs.1, rs.2.1, rs.2.2)

/-- Removal of a sequence of keys; the statuses and removed values are returned
in order. -/
def zix_btree_remove_all (t : ZixBTree) :
    List Nat → List (ZixStatus × Option Nat) × ZixBTree
  | [] => ([], t)
  | e :: es =>
    let r := zix_btree_remove t e
    let rs := zix_btree_remove_all r.2.2.2 es
    ((r.1, r.2.1) :: rs.1, rs.2)

/-- A mutating operation of the public interface. -/
inductive ZixBTreeOp where
  | insert (e : Nat)
  | remove (e : Nat)
  | clear

/-- Effect of one operation on the tree and the allocator. -/
def zix_btree_apply (s : ZixBTree × ZixAllocator) : ZixBTreeOp → ZixBTree × ZixAllocator
  | .insert e => ((zix_btree_insert s.1 e s.2).2.1, (zix_btree_insert s.1 e s.2).2.2)
  | .remove e => ((zix_btree_remove s.1 e).2.2.2, s.2)
  | .clear => ((zix_btree_clear s.1).1, s.2)

/-- Effect of a sequence of operations. -/
def zix_btree_run (s : ZixBTree × ZixAllocator) (ops : List ZixBTreeOp) :
    ZixBTree × ZixAllocator :=
  ops.foldl zix_btree_apply s

mutual
/-- All nodes of a subtree, the top node first. -/
def zix_btree_subnodes : ZixBTreeNode → List ZixBTreeNode
  | .leaf ks => [.leaf ks]
  | .internal ks cs => .internal ks cs :: zix_btree_subnodes_list cs
/-- All nodes of the subtrees of a child array. -/
def zix_btree_subnodes_list : List ZixBTreeNode → List ZixBTreeNode
  | [] => []
  | c :: cs => zix_btree_subnodes c ++ zix_btree_subnodes_list cs
end

mutual
/-- Depth of every leaf below a node. -/
def zix_btree_leaf_depths : ZixBTreeNode → List Nat
  | .leaf _ => [0]
  | .internal _ cs => (zix_btree_leaf_depths_list cs).map (· + 1)
/-- Depth of every leaf below the nodes of a child array. -/
def zix_btree_leaf_depths_list : List ZixBTreeNode → List Nat
  | [] => []
  | c :: cs => zix_btree_leaf_depths c ++ zix_btree_leaf_depths_list cs
end

/-- The structural invariant of §3 of the spec, stated node by node: all leaves
at the same depth; at most `M - 1` keys in the root and between
`ceil(M/2) - 1` and `M - 1` in every other node; one more child than keys in
every internal node; keys strictly increasing inside each node; key `i` of an
internal node at or above every key below child `i` and strictly below every
key below child `i + 1`. -/
def zix_btree_structural_invariant (t : ZixBTree) : Prop :=
  match t.root with
  | none => True
  | some n =>
    (∀ d1 ∈ zix_btree_leaf_depths n, ∀ d2 ∈ zix_btree_leaf_depths n, d1 = d2) ∧
    n.keys.length ≤ t.fanout - 1 ∧
    (∀ c ∈ n.children, ∀ m ∈ zix_btree_subnodes c,
      (t.fanout + 1) / 2 - 1 ≤ m.keys.length ∧ m.keys.length ≤ t.fanout - 1) ∧
    (∀ m ∈ zix_btree_subnodes n, ∀ ks cs, m = .internal ks cs →
      cs.length = ks.length + 1) ∧
    (∀ m ∈ zix_btree_subnodes n, zix_btree_sorted t.cmp m.keys) ∧
    (∀ m ∈ zix_btree_subnodes n, ∀ i k, m.keys[i]? = some k →
      (∀ c, m.children[i]? = some c →
        ∀ x ∈ zix_btree_node_inorder c, t.cmp x k ≤ 0) ∧
      (∀ c, m.children[i + 1]? = some c →
        ∀ x ∈ zix_btree_node_inorder c, t.cmp k x < 0))

/-- The sequence `new` is `old` with `key` inserted at its place in the order. -/
def zix_btree_inserted (cmp : Nat → Nat → Int) (key : Nat) (old new : List Nat) : Prop :=
  ∃ L R, old = L ++ R ∧ new = L ++ key :: R ∧
    (∀ x ∈ L, cmp x key < 0) ∧ (∀ x ∈ R, cmp key x < 0)

/-- The sequence `new` is `old` with one occurrence of `key` taken out. -/
def zix_btree_removed (key : Nat) (old new : List Nat) : Prop :=
  ∃ L R, old = L ++ key :: R ∧ new = L ++ R

/-- An allocator that grants every request, as the default allocator `NULL` of
the tests does. -/
def zix_default_allocator : ZixAllocator :=
  { grants := fun _ => true, n_allocations := 0, n_live := 0 }

/-- Modelled from the spec: `src/btree.c` is absent; spec §8: the fault-injecting
allocator, which grants `n_remaining` requests and refuses from then on. -/
def zix_failing_allocator (n_remaining : Nat) : ZixAllocator :=
  { grants := fun n => decide (n < n_remaining), n_allocations := 0, n_live := 0 }

/-- The tree that inserting 1, 2, 3, 4, 5 with fanout 4 builds: key 3 was
promoted into the root when the first leaf split. -/
def zix_btree_example : ZixBTree :=
  { fanout := 4, cmp := int_cmp,
    root := some (.internal [3] [.leaf [1, 2], .leaf [4, 5]]), size := 5 }

/-- The number of nodes of a tree. -/
def zix_btree_node_count (t : ZixBTree) : Nat :=
  match t.root with
  | none => 0
  | some n => (zix_btree_subnodes n).length

/-! ## Iterator comparison -/

mutual
/-- Modelled from the spec: `src/btree.c` is absent; a frame of a path names a node
of the tree; two frames name the same node when the nodes have the same keys and
the same children. -/
def zix_btree_node_equals : ZixBTreeNode → ZixBTreeNode → Bool
  | .leaf ks1, .leaf ks2 => ks1 == ks2
  | .internal ks1 cs1, .internal ks2 cs2 =>
    ks1 == ks2 && zix_btree_children_equals cs1 cs2
  | _, _ => false
/-- Pairwise comparison of two child arrays. -/
def zix_btree_children_equals : List ZixBTreeNode → List ZixBTreeNode → Bool
  | [], [] => true
  | c1 :: cs1, c2 :: cs2 => zix_btree_node_equals c1 c2 && zix_btree_children_equals cs1 cs2
  | _, _ => false
end

/-- Modelled from the spec: `src/btree.c` is absent; spec §4.4, §6:
`equals(PathA, PathB) -> bool`: two paths are equal when they consist of the same
(node, index) frames from the root down; the `end` sentinel equals only itself. -/
def zix_btree_iter_equals : ZixBTreeIter → ZixBTreeIter → Bool
  | [], [] => true
  | (n1, i1) :: p1, (n2, i2) :: p2 =>
    zix_btree_node_equals n1 n2 && i1 == i2 && zix_btree_iter_equals p1 p2
  | _, _ => false

/-- The iterator reached from `it` by `n` calls of `increment`. -/
def zix_btree_iter_advance : Nat → ZixBTreeIter → ZixBTreeIter
  | 0, it => it
  | n + 1, it => zix_btree_iter_advance n (zix_btree_iter_increment it)

/-! ## Ring buffer (`src/ring.c`)

The lock-free ring of `src/ring.c`, in its sequential semantics: each operation
is one atomic load of the other side's index, its work, and at most one atomic
store to its own index.  The `uint32_t` fields and locals are natural numbers
below `2 ^ 32`; every addition and subtraction of the C code is reduced modulo
`2 ^ 32` where it stands.  Buffers are lists of bytes. -/

/-- A byte (`char`) of a buffer. -/
abbrev ZixByte := Fin 256

/-- The libc routine `memcpy(dst + d, src + s, n)`: byte `s + i` of `src` is stored
at index `d + i` of `dst`, for every `i < n`.  An index outside `src` reads as 0 and
a store outside `dst` is dropped (both are undefined in C). -/
def memcpy (dst : List ZixByte) (d : Nat) (src : List ZixByte) (s : Nat) : Nat → List ZixByte
  | 0 => dst
  | n + 1 => (memcpy dst d src s n).set (d + n) (src.getD (s + n) 0)

/-- The record `struct ZixRingImpl`.  The `allocator` reference is not a field of
the model: the allocator state is passed to and returned by `zix_ring_new`. -/
structure ZixRing where
  write_head : Nat
  read_head : Nat
  size : Nat
  size_mask : Nat
  buf : List ZixByte
  deriving DecidableEq, Repr

/-- The function `next_power_of_two` of `src/ring.c` on `uint32_t`. -/
def next_power_of_two (size : Nat) : Nat :=
  let s0 := (size + 2 ^ 32 - 1) % 2 ^ 32
  let s1 := s0 ||| (s0 >>> 1)
  let s2 := s1 ||| (s1 >>> 2)
  let s3 := s2 ||| (s2 >>> 4)
  let s4 := s3 ||| (s3 >>> 8)
  let s5 := s4 ||| (s4 >>> 16)
  (s5 + 1) % 2 ^ 32

/-- The function `zix_ring_new`: the ring record is allocated, then the buffer of
`next_power_of_two(size)` bytes; when the buffer cannot be had the record is
released and the result is null.  The bytes of the fresh buffer are
indeterminate and given by `fresh`. -/
def zix_ring_new (a : ZixAllocator) (size : Nat) (fresh : Nat → ZixByte) :
    Option ZixRing × ZixAllocator :=
  match zix_malloc a with
  | (false, a1) => (none, a1)
  | (true, a1) =>
    let sz := next_power_of_two size
    match zix_malloc a1 with
    | (false, a2) => (none, zix_free a2)
    | (true, a2) =>
      (some { write_head := 0, read_head := 0, size := sz,
              size_mask := (sz + 2 ^ 32 - 1) % 2 ^ 32,
              buf := (List.range sz).map fresh }, a2)

/-- The function `zix_ring_reset`. -/
def zix_ring_reset (ring : ZixRing) : ZixRing :=
  { ring with write_head := 0, read_head := 0 }

/-- The function `read_space_internal`: `(w - r) & ring->size_mask`. -/
def read_space_internal (ring : ZixRing) (r w : Nat) : Nat :=
  ((w + 2 ^ 32 - r) % 2 ^ 32) &&& ring.size_mask

/-- The function `zix_ring_read_space`. -/
def zix_ring_read_space (ring : ZixRing) : Nat :=
  read_space_internal ring ring.read_head ring.write_head

/-- The function `write_space_internal`: `(r - w - 1U) & ring->size_mask`. -/
def write_space_internal (ring : ZixRing) (r w : Nat) : Nat :=
  (((r + 2 ^ 32 - w) % 2 ^ 32 + 2 ^ 32 - 1) % 2 ^ 32) &&& ring.size_mask

/-- The function `zix_ring_write_space`. -/
def zix_ring_write_space (ring : ZixRing) : Nat :=
  write_space_internal ring ring.read_head ring.write_head

/-- The function `zix_ring_capacity`: `ring->size - 1`. -/
def zix_ring_capacity (ring : ZixRing) : Nat :=
  (ring.size + 2 ^ 32 - 1) % 2 ^ 32

/-- The function `peek_internal`: the result and the destination afterwards. -/
def peek_internal (ring : ZixRing) (r w size : Nat) (dst : List ZixByte) :
    Nat × List ZixByte :=
  if read_space_internal ring r w < size then (0, dst)
  else if (r + size) % 2 ^ 32 < ring.size then
    (size, memcpy dst 0 ring.buf r size)
  else
    let first_size := (ring.size + 2 ^ 32 - r) % 2 ^ 32
    (size, memcpy (memcpy dst 0 ring.buf r first_size) first_size ring.buf 0
      ((size + 2 ^ 32 - first_size) % 2 ^ 32))

/-- The function `zix_ring_peek`: the result, the ring afterwards and the
destination afterwards. -/
def zix_ring_peek (ring : ZixRing) (dst : List ZixByte) (size : Nat) :
    Nat × ZixRing × List ZixByte :=
  let w := ring.write_head
  let p := peek_internal ring ring.read_head w size dst
  (p.1, ring, p.2)

/-- The function `zix_ring_read`: the result, the ring afterwards and the
destination afterwards. -/
def zix_ring_read (ring : ZixRing) (dst : List ZixByte) (size : Nat) :
    Nat × ZixRing × List ZixByte :=
  let w := ring.write_head
  let r := ring.read_head
  let p := peek_internal ring r w size dst
  if p.1 = 0 then (0, ring, p.2)
  else (size, { ring with read_head := ((r + size) % 2 ^ 32) &&& ring.size_mask }, p.2)

/-- The function `zix_ring_skip`: the result and the ring afterwards. -/
def zix_ring_skip (ring : ZixRing) (size : Nat) : Nat × ZixRing :=
  let w := ring.write_head
  let r := ring.read_head
  if read_space_internal ring r w < size then (0, ring)
  else (size, { ring with read_head := ((r + size) % 2 ^ 32) &&& ring.size_mask })

/-- The function `zix_ring_write`: the result and the ring afterwards. -/
def zix_ring_write (ring : ZixRing) (src : List ZixByte) (size : Nat) : Nat × ZixRing :=
  let r := ring.read_head
  let w := ring.write_head
  if write_space_internal ring r w < size then (0, ring)
  else
    let end_ := (w + size) % 2 ^ 32
    if end_ ≤ ring.size then
      (size, { ring with buf := memcpy ring.buf w src 0 size,
                         write_head := end_ &&& ring.size_mask })
    else
      let size1 := (ring.size + 2 ^ 32 - w) % 2 ^ 32
      let size2 := (size + 2 ^ 32 - size1) % 2 ^ 32
      (size, { ring with buf := memcpy (memcpy ring.buf w src 0 size1) 0 src size1 size2,
                         write_head := size2 })

/-- A valid ring: the size is a power of two that fits `uint32_t`, the mask is
the size minus one, both heads are below the size, and the buffer has `size`
bytes. -/
def zix_ring_valid (ring : ZixRing) : Prop :=
  (∃ k, k ≤ 31 ∧ ring.size = 2 ^ k) ∧ ring.size_mask = ring.size - 1 ∧
    ring.read_head < ring.size ∧ ring.write_head < ring.size ∧
    ring.buf.length = ring.size

/-- The queue a ring holds, oldest byte first: the `read_space` bytes
`buf[(read_head + i) mod size]` for `i < read_space`. -/
def zix_ring_contents (ring : ZixRing) : List ZixByte :=
  (List.range (zix_ring_read_space ring)).map
    (fun i => ring.buf.getD ((ring.read_head + i) % ring.size) 0)

/-- A ring of 8 bytes that holds the two bytes at offsets 5 and 6; a write of
more than one byte wraps past the end of the buffer. -/
def zix_ring_example : ZixRing :=
  { write_head := 7, read_head := 5, size := 8, size_mask := 7,
    buf := [10, 11, 12, 13, 14, 15, 16, 17] }

/-- A ring of 8 bytes whose three unread bytes, at offsets 6, 7 and 0, span the
end of the buffer. -/
def zix_ring_example_wrapped : ZixRing :=
  { write_head := 1, read_head := 6, size := 8, size_mask := 7,
    buf := [10, 11, 12, 13, 14, 15, 16, 17] }

/-- An empty ring of 8 bytes whose heads are both at offset 6. -/
def zix_ring_example_empty : ZixRing :=
  { write_head := 6, read_head := 6, size := 8, size_mask := 7,
    buf := [10, 11, 12, 13, 14, 15, 16, 17] }

/-! ## Status messages (`include/zix/common.h`) -/

/-- The numeric value of an enumerator of `ZixStatus`: the enumerators carry no
initialisers, so they count up from 0 in the order of their declaration. -/
def zix_status_value : ZixStatus → Int
  | ZIX_STATUS_SUCCESS => 0
  | ZIX_STATUS_ERROR => 1
  | ZIX_STATUS_NO_MEM => 2
  | ZIX_STATUS_NOT_FOUND => 3
  | ZIX_STATUS_EXISTS => 4
  | ZIX_STATUS_BAD_ARG => 5
  | ZIX_STATUS_BAD_PERMS => 6
  | ZIX_STATUS_REACHED_END => 7

/-- The enumerators of `ZixStatus` in the order of their declaration. -/
def zix_status_enumerators : List ZixStatus :=
  [ZIX_STATUS_SUCCESS, ZIX_STATUS_ERROR, ZIX_STATUS_NO_MEM, ZIX_STATUS_NOT_FOUND,
    ZIX_STATUS_EXISTS, ZIX_STATUS_BAD_ARG, ZIX_STATUS_BAD_PERMS, ZIX_STATUS_REACHED_END]

/-- The function `zix_strerror` of `include/zix/common.h`.  The argument is the
integer the caller passes, which a cast can take outside the enumeration; the
`switch` compares it with each enumerator in turn and control falls to the
final `return` when none matches. -/
def zix_strerror (status : Int) : String :=
  if status = zix_status_value ZIX_STATUS_SUCCESS then "Success"
  else if status = zix_status_value ZIX_STATUS_ERROR then "Unknown error"
  else if status = zix_status_value ZIX_STATUS_NO_MEM then "Out of memory"
  else if status = zix_status_value ZIX_STATUS_NOT_FOUND then "Not found"
  else if status = zix_status_value ZIX_STATUS_EXISTS then "Exists"
  else if status = zix_status_value ZIX_STATUS_BAD_ARG then "Bad argument"
  else if status = zix_status_value ZIX_STATUS_BAD_PERMS then "Bad permissions"
  else if status = zix_status_value ZIX_STATUS_REACHED_END then "Reached end"
  else "Unknown error"

/-! ## Ring buffer: the buffer indices an operation touches -/

/-- The indices of the source that `memcpy(dst + d, src + s, n)` reads:
`s, s + 1, ..., s + n - 1`, in this order. -/
def memcpy_reads (s n : Nat) : List Nat := List.range' s n

/-- The indices of the destination at which `memcpy(dst + d, src + s, n)` stores:
`d, d + 1, ..., d + n - 1`, in this order. -/
def memcpy_stores (d n : Nat) : List Nat := List.range' d n

/-- The indices of `ring->buf` that `peek_internal` reads, copy by copy: the
branches are those of `peek_internal`, each `memcpy` from the buffer
contributing the indices it reads. -/
def peek_internal_reads (ring : ZixRing) (r w size : Nat) : List Nat :=
  if read_space_internal ring r w < size then []
  else if (r + size) % 2 ^ 32 < ring.size then memcpy_reads r size
  else
    let first_size := (ring.size + 2 ^ 32 - r) % 2 ^ 32
    memcpy_reads r first_size ++ memcpy_reads 0 ((size + 2 ^ 32 - first_size) % 2 ^ 32)

/-- The indices of `ring->buf` at which `zix_ring_write` stores, copy by copy:
the branches are those of `zix_ring_write`, each `memcpy` into the buffer
contributing the indices it stores at. -/
def zix_ring_write_stores (ring : ZixRing) (size : Nat) : List Nat :=
  let r := ring.read_head
  let w := ring.write_head
  if write_space_internal ring r w < size then []
  else
    let end_ := (w + size) % 2 ^ 32
    if end_ ≤ ring.size then memcpy_stores w size
    else
      let size1 := (ring.size + 2 ^ 32 - w) % 2 ^ 32
      let size2 := (size + 2 ^ 32 - size1) % 2 ^ 32
      memcpy_stores w size1 ++ memcpy_stores 0 size2

/-- The part of ring validity that concerns the indices alone: the size is a
power of two that fits `uint32_t`, the mask is the size minus one and both
heads are below the size. -/
def zix_ring_indices_valid (ring : ZixRing) : Prop :=
  (∃ k, k ≤ 31 ∧ ring.size = 2 ^ k) ∧ ring.size_mask = ring.size - 1 ∧
    ring.read_head < ring.size ∧ ring.write_head < ring.size

/-! ## Comparators -/

theorem int_cmp_total : ZixTotalOrder int_cmp := by
  refine ⟨?_, ?_, ?_, ?_⟩
  · intro a b h
    unfold int_cmp at h
    split_ifs at h <;> omega
  · intro a
    simp [int_cmp]
  · intro a b
    unfold int_cmp
    split_ifs <;> omega
  · intro a b c h1 h2
    unfold int_cmp at *
    split_ifs at * <;> omega

theorem zix_lt_irrefl {cmp : Nat → Nat → Int} (hc : ZixTotalOrder cmp) (a : Nat) :
    ¬ cmp a a < 0 := by
  rw [hc.refl a]; decide

theorem zix_le_cases {cmp : Nat → Nat → Int} (hc : ZixTotalOrder cmp) {a b : Nat}
    (h : cmp a b ≤ 0) : a = b ∨ cmp a b < 0 := by
  by_cases h1 : cmp a b = 0
  · exact Or.inl (hc.eq_of_zero a b h1)
  · exact Or.inr (by omega)

theorem zix_le_lt_trans {cmp : Nat → Nat → Int} (hc : ZixTotalOrder cmp) {a b c : Nat}
    (h1 : cmp a b ≤ 0) (h2 : cmp b c < 0) : cmp a c < 0 := by
  rcases zix_le_cases hc h1 with h | h
  · subst h; exact h2
  · exact hc.trans a b c h h2

theorem zix_lt_le_trans {cmp : Nat → Nat → Int} (hc : ZixTotalOrder cmp) {a b c : Nat}
    (h1 : cmp a b < 0) (h2 : cmp b c ≤ 0) : cmp a c < 0 := by
  rcases zix_le_cases hc h2 with h | h
  · subst h; exact h1
  · exact hc.trans a b c h1 h

theorem zix_le_le_trans {cmp : Nat → Nat → Int} (hc : ZixTotalOrder cmp) {a b c : Nat}
    (h1 : cmp a b ≤ 0) (h2 : cmp b c ≤ 0) : cmp a c ≤ 0 := by
  rcases zix_le_cases hc h1 with h | h
  · subst h; exact h2
  · exact Int.le_of_lt (zix_lt_le_trans hc h h2)

theorem zix_lt_asymm {cmp : Nat → Nat → Int} (hc : ZixTotalOrder cmp) {a b : Nat}
    (h1 : cmp a b < 0) : ¬ cmp b a ≤ 0 := by
  have := (hc.antisymm a b).1 h1
  omega

theorem zix_not_le_iff {cmp : Nat → Nat → Int} (hc : ZixTotalOrder cmp) {a b : Nat} :
    ¬ cmp a b ≤ 0 ↔ cmp b a < 0 := by
  rw [hc.antisymm b a]; omega

theorem zix_lt_ne {cmp : Nat → Nat → Int} (hc : ZixTotalOrder cmp) {a b : Nat}
    (h : cmp a b < 0) : a ≠ b := by
  intro e; subst e; exact zix_lt_irrefl hc a h

/-! ## Arrays -/

theorem zix_split_at {α : Type} (xs : List α) (i : Nat) (x : α) (h : xs[i]? = some x) :
    xs = xs.take i ++ x :: xs.drop (i + 1) := by
  induction xs generalizing i with
  | nil => simp at h
  | cons y ys ih =>
    cases i with
    | zero => simp at h; simp [h]
    | succ i =>
      simp at h
      simp
      exact ih i h

theorem zix_getElem?_mem {α : Type} (xs : List α) (i : Nat) (x : α) (h : xs[i]? = some x) :
    x ∈ xs := by
  rw [zix_split_at xs i x h]; simp

theorem zix_getElem?_lt {α : Type} (xs : List α) (i : Nat) (x : α) (h : xs[i]? = some x) :
    i < xs.length := by
  by_contra hn
  rw [List.getElem?_eq_none (by omega)] at h
  cases h

theorem zix_getElem?_of_lt {α : Type} (xs : List α) (i : Nat) (h : i < xs.length) :
    ∃ x, xs[i]? = some x := ⟨xs[i], List.getElem?_eq_getElem h⟩

theorem zix_getElem?_append_cons {α : Type} (A B : List α) (x : α) (i : Nat)
    (h : A.length = i) : (A ++ x :: B)[i]? = some x := by
  subst h
  rw [List.getElem?_append_right (by omega)]
  simp

theorem zix_take_append_cons {α : Type} (A B : List α) (i : Nat)
    (h : A.length = i) : (A ++ B).take i = A := by
  subst h; simp

theorem zix_drop_append_cons {α : Type} (A B : List α) (i : Nat)
    (h : A.length = i) : (A ++ B).drop i = B := by
  subst h; simp

theorem zix_drop_append_succ {α : Type} (A B : List α) (x : α) (i : Nat)
    (h : A.length = i) : (A ++ x :: B).drop (i + 1) = B := by
  subst h
  rw [List.drop_append_eq_append_drop]
  simp

theorem zix_drop_append_succ2 {α : Type} (A B : List α) (x y : α) (i : Nat)
    (h : A.length = i) : (A ++ x :: y :: B).drop (i + 2) = B := by
  subst h
  rw [List.drop_append_eq_append_drop]
  simp

theorem zix_getElem?_append_succ {α : Type} (A B : List α) (x y : α) (i : Nat)
    (h : A.length = i) : (A ++ x :: y :: B)[i + 1]? = some y := by
  subst h
  rw [List.getElem?_append_right (by omega)]
  simp

/-! ## Search inside a node -/

theorem zix_btree_node_find_le (cmp : Nat → Nat → Int) (key : Nat) (ks : List Nat) :
    zix_btree_node_find cmp key ks ≤ ks.length := by
  induction ks with
  | nil => simp [zix_btree_node_find]
  | cons k ks ih =>
    simp only [zix_btree_node_find]
    split_ifs
    · simp
    · simp; omega

theorem zix_btree_node_find_before (cmp : Nat → Nat → Int) (key : Nat) (ks : List Nat) :
    ∀ k ∈ ks.take (zix_btree_node_find cmp key ks), ¬ cmp key k ≤ 0 := by
  induction ks with
  | nil => simp [zix_btree_node_find]
  | cons k ks ih =>
    simp only [zix_btree_node_find]
    split_ifs with h
    · simp
    · intro x hx
      simp only [List.take_succ_cons, List.mem_cons] at hx
      rcases hx with hx | hx
      · subst hx; exact h
      · exact ih x hx

theorem zix_btree_node_find_at (cmp : Nat → Nat → Int) (key : Nat) (ks : List Nat) (k : Nat)
    (h : ks[zix_btree_node_find cmp key ks]? = some k) : cmp key k ≤ 0 := by
  induction ks with
  | nil => simp at h
  | cons k0 ks ih =>
    simp only [zix_btree_node_find] at h
    split_ifs at h with h0
    · simp at h; subst h; exact h0
    · simp at h; exact ih h

theorem zix_btree_node_match_iff (cmp : Nat → Nat → Int) (key : Nat) (ks : List Nat) (i : Nat) :
    zix_btree_node_match cmp key ks i = true ↔ ∃ k, ks[i]? = some k ∧ cmp key k = 0 := by
  unfold zix_btree_node_match
  cases h : ks[i]? with
  | none => simp
  | some k => simp

/-! ## Descent into a child -/

theorem zix_btree_find_child_eq (cmp : Nat → Nat → Int) (key : Nat)
    (cs : List ZixBTreeNode) (i : Nat) :
    zix_btree_find_child cmp key cs i =
      match cs[i]? with
      | some c => zix_btree_find_node cmp key c
      | none => none := by
  induction cs generalizing i with
  | nil => simp [zix_btree_find_child]
  | cons c cs ih =>
    cases i with
    | zero => simp [zix_btree_find_child]
    | succ i => simp [zix_btree_find_child, ih]

theorem zix_btree_lower_bound_child_eq (cmp : Nat → Nat → Int) (key : Nat)
    (cs : List ZixBTreeNode) (i : Nat) :
    zix_btree_lower_bound_child cmp key cs i =
      match cs[i]? with
      | some c => zix_btree_lower_bound_node cmp key c
      | none => none := by
  induction cs generalizing i with
  | nil => simp [zix_btree_lower_bound_child]
  | cons c cs ih =>
    cases i with
    | zero => simp [zix_btree_lower_bound_child]
    | succ i => simp [zix_btree_lower_bound_child, ih]

theorem zix_btree_insert_child_eq (M : Nat) (cmp : Nat → Nat → Int) (key : Nat)
    (cs : List ZixBTreeNode) (i : Nat) :
    zix_btree_insert_child M cmp key cs i =
      match cs[i]? with
      | some c => zix_btree_insert_node M cmp key c
      | none => .invalid := by
  induction cs generalizing i with
  | nil => simp [zix_btree_insert_child]
  | cons c cs ih =>
    cases i with
    | zero => simp [zix_btree_insert_child]
    | succ i => simp [zix_btree_insert_child, ih]

theorem zix_btree_insert_splits_child_eq (M : Nat) (cmp : Nat → Nat → Int) (key : Nat)
    (cs : List ZixBTreeNode) (i : Nat) :
    zix_btree_insert_splits_child M cmp key cs i =
      match cs[i]? with
      | some c => zix_btree_insert_splits M cmp key c
      | none => (0, false) := by
  induction cs generalizing i with
  | nil => simp [zix_btree_insert_splits_child]
  | cons c cs ih =>
    cases i with
    | zero => simp [zix_btree_insert_splits_child]
    | succ i => simp [zix_btree_insert_splits_child, ih]

theorem zix_btree_remove_max_child_eq (M : Nat) (cs : List ZixBTreeNode) (i : Nat) :
    zix_btree_remove_max_child M cs i =
      match cs[i]? with
      | some c => zix_btree_remove_max M c
      | none => none := by
  induction cs generalizing i with
  | nil => simp [zix_btree_remove_max_child]
  | cons c cs ih =>
    cases i with
    | zero => simp [zix_btree_remove_max_child]
    | succ i => simp [zix_btree_remove_max_child, ih]

theorem zix_btree_remove_child_eq (M : Nat) (cmp : Nat → Nat → Int) (key : Nat)
    (cs : List ZixBTreeNode) (i : Nat) :
    zix_btree_remove_child M cmp key cs i =
      match cs[i]? with
      | some c => zix_btree_remove_node M cmp key c
      | none => none := by
  induction cs generalizing i with
  | nil => simp [zix_btree_remove_child]
  | cons c cs ih =>
    cases i with
    | zero => simp [zix_btree_remove_child]
    | succ i => simp [zix_btree_remove_child, ih]

theorem zix_btree_begin_child_eq (cs : List ZixBTreeNode) :
    zix_btree_begin_child cs =
      match cs[0]? with
      | some c => zix_btree_begin_node c
      | none => [] := by
  cases cs <;> simp [zix_btree_begin_child]

/-! ## In-order sequences -/

theorem zix_btree_children_inorder_cons (ks : List Nat) (c : ZixBTreeNode)
    (cs : List ZixBTreeNode) (h : cs.length = ks.length) :
    zix_btree_children_inorder ks (c :: cs) =
      zix_btree_node_inorder c ++ zix_btree_after ks cs := by
  induction ks generalizing c cs with
  | nil => simp [zix_btree_children_inorder, zix_btree_after]
  | cons k ks ih =>
    cases cs with
    | nil => simp at h
    | cons c1 cs =>
      simp at h
      simp [zix_btree_children_inorder, zix_btree_after, ih c1 cs h]

theorem zix_btree_after_append (ka kb : List Nat) (A B : List ZixBTreeNode)
    (h : A.length = ka.length) :
    zix_btree_after (ka ++ kb) (A ++ B) = zix_btree_after ka A ++ zix_btree_after kb B := by
  induction ka generalizing A with
  | nil =>
    cases A with
    | nil => simp [zix_btree_after]
    | cons a A => simp at h
  | cons k ka ih =>
    cases A with
    | nil => simp at h
    | cons a A =>
      simp at h
      simp [zix_btree_after, ih A h]

theorem zix_btree_before_append (ka kb : List Nat) (A B : List ZixBTreeNode)
    (h : A.length = ka.length) :
    zix_btree_before (ka ++ kb) (A ++ B) = zix_btree_before ka A ++ zix_btree_before kb B := by
  induction ka generalizing A with
  | nil =>
    cases A with
    | nil => simp [zix_btree_before]
    | cons a A => simp at h
  | cons k ka ih =>
    cases A with
    | nil => simp at h
    | cons a A =>
      simp at h
      simp [zix_btree_before, ih A h]

/-- Master decomposition of the in-order sequence of an internal node around
one child. -/
theorem zix_btree_children_inorder_split (ka kb : List Nat) (A B : List ZixBTreeNode)
    (c : ZixBTreeNode) (hA : A.length = ka.length) (hB : B.length = kb.length) :
    zix_btree_children_inorder (ka ++ kb) (A ++ c :: B) =
      zix_btree_before ka A ++ (zix_btree_node_inorder c ++ zix_btree_after kb B) := by
  induction ka generalizing A with
  | nil =>
    cases A with
    | nil => simp [zix_btree_before, zix_btree_children_inorder_cons kb c B hB]
    | cons a A => simp at hA
  | cons k ka ih =>
    cases A with
    | nil => simp at hA
    | cons a A =>
      simp at hA
      simp [zix_btree_children_inorder, zix_btree_before, ih A hA]

theorem zix_btree_after_length_nil (kb : List Nat) : zix_btree_after kb [] = [] := by
  cases kb <;> simp [zix_btree_after]

theorem zix_btree_after_nil (B : List ZixBTreeNode) : zix_btree_after [] B = [] := by
  simp [zix_btree_after]

/-! ## Shape invariant -/

theorem zix_btree_node_inv_leaf (M lo h : Nat) (ks : List Nat) :
    zix_btree_node_inv M h lo (.leaf ks) ↔ h = 0 ∧ lo ≤ ks.length ∧ ks.length ≤ M - 1 := by
  cases h <;> simp [zix_btree_node_inv]

theorem zix_btree_node_inv_internal (M lo h : Nat) (ks : List Nat) (cs : List ZixBTreeNode) :
    zix_btree_node_inv M h lo (.internal ks cs) ↔
      ∃ h1, h = h1 + 1 ∧ lo ≤ ks.length ∧ ks.length ≤ M - 1 ∧ cs.length = ks.length + 1 ∧
        ∀ c ∈ cs, zix_btree_node_inv M h1 (zix_btree_min_keys M) c := by
  cases h <;> simp [zix_btree_node_inv]

theorem zix_btree_node_inv_mono (M : Nat) {h lo lo1 : Nat} {n : ZixBTreeNode}
    (hlo : lo1 ≤ lo) (hn : zix_btree_node_inv M h lo n) : zix_btree_node_inv M h lo1 n := by
  cases n with
  | leaf ks =>
    rw [zix_btree_node_inv_leaf] at hn ⊢
    omega
  | internal ks cs =>
    rw [zix_btree_node_inv_internal] at hn ⊢
    obtain ⟨h1, e, a, b, c, d⟩ := hn
    exact ⟨h1, e, by omega, b, c, d⟩

theorem zix_btree_node_inv_keys (M : Nat) {h lo : Nat} {n : ZixBTreeNode}
    (hn : zix_btree_node_inv M h lo n) : lo ≤ n.keys.length ∧ n.keys.length ≤ M - 1 := by
  cases n with
  | leaf ks =>
    rw [zix_btree_node_inv_leaf] at hn
    simp [ZixBTreeNode.keys]; omega
  | internal ks cs =>
    rw [zix_btree_node_inv_internal] at hn
    obtain ⟨h1, e, a, b, c, d⟩ := hn
    simp [ZixBTreeNode.keys]; omega

theorem zix_btree_node_inv_relax (M : Nat) {h lo lo1 : Nat} {n : ZixBTreeNode}
    (hlo : lo1 ≤ n.keys.length) (hn : zix_btree_node_inv M h lo n) :
    zix_btree_node_inv M h lo1 n := by
  cases n with
  | leaf ks =>
    rw [zix_btree_node_inv_leaf] at hn ⊢
    simp [ZixBTreeNode.keys] at hlo
    omega
  | internal ks cs =>
    rw [zix_btree_node_inv_internal] at hn ⊢
    simp [ZixBTreeNode.keys] at hlo
    obtain ⟨h1, e, a, b, c, d⟩ := hn
    exact ⟨h1, e, by omega, b, c, d⟩

theorem zix_btree_node_inv_height (M : Nat) : ∀ (h lo : Nat) (n : ZixBTreeNode),
    zix_btree_node_inv M h lo n → zix_btree_node_height n = h := by
  intro h
  induction h with
  | zero =>
    intro lo n hn
    cases n with
    | leaf ks => simp [zix_btree_node_height]
    | internal ks cs => simp [zix_btree_node_inv] at hn
  | succ h ih =>
    intro lo n hn
    cases n with
    | leaf ks => simp [zix_btree_node_inv] at hn
    | internal ks cs =>
      simp only [zix_btree_node_inv] at hn
      obtain ⟨_, _, hl, hcs⟩ := hn
      cases cs with
      | nil => simp at hl
      | cons c cs =>
        simp [zix_btree_node_height, zix_btree_children_height]
        exact ih _ c (hcs c (by simp))

/-! ## The view of an internal node around child `i` -/

theorem zix_btree_view (ks : List Nat) (cs : List ZixBTreeNode)
    (hlen : cs.length = ks.length + 1) (i : Nat) (hi : i ≤ ks.length) :
    ∃ c, cs[i]? = some c ∧ c ∈ cs ∧
      zix_btree_children_inorder ks cs =
        zix_btree_before (ks.take i) (cs.take i) ++
          (zix_btree_node_inorder c ++ zix_btree_after (ks.drop i) (cs.drop (i + 1))) := by
  obtain ⟨c, hc⟩ := zix_getElem?_of_lt cs i (by omega)
  refine ⟨c, hc, zix_getElem?_mem cs i c hc, ?_⟩
  have h := zix_btree_children_inorder_split (ks.take i) (ks.drop i) (cs.take i)
    (cs.drop (i + 1)) c (by simp; omega) (by simp; omega)
  rw [List.take_append_drop, ← zix_split_at cs i c hc] at h
  exact h

theorem zix_btree_before_bound (R : Nat → Nat → Prop) (ka : List Nat) (A : List ZixBTreeNode)
    (h : (zix_btree_before ka A).Pairwise R) :
    ∀ x ∈ zix_btree_before ka A, ∃ k ∈ ka, x = k ∨ R x k := by
  induction ka generalizing A with
  | nil => simp [zix_btree_before]
  | cons k ka ih =>
    cases A with
    | nil => simp [zix_btree_before]
    | cons a A =>
      simp only [zix_btree_before] at h ⊢
      rw [List.pairwise_append] at h
      obtain ⟨_, h2, h3⟩ := h
      intro x hx
      rw [List.mem_append] at hx
      rcases hx with hx | hx
      · exact ⟨k, by simp, Or.inr (h3 x hx k (by simp))⟩
      · rw [List.mem_cons] at hx
        rcases hx with hx | hx
        · exact ⟨k, by simp, Or.inl hx⟩
        · obtain ⟨k1, hk1, hr⟩ := ih A (List.Pairwise.of_cons h2) x hx
          exact ⟨k1, by simp [hk1], hr⟩

theorem zix_btree_after_head (kb : List Nat) (B : List ZixBTreeNode) (ks : List Nat) (i : Nat)
    (hk : kb = ks.drop i) :
    zix_btree_after kb B = [] ∨
      ∃ k rest, zix_btree_after kb B = k :: rest ∧ ks[i]? = some k := by
  cases kb with
  | nil => left; simp [zix_btree_after]
  | cons k kb =>
    cases B with
    | nil => left; simp [zix_btree_after]
    | cons b B =>
      right
      refine ⟨k, _, by simp [zix_btree_after]; rfl, ?_⟩
      have : (ks.drop i)[0]? = some k := by rw [← hk]; simp
      simpa using this

theorem zix_drop_head (ks : List Nat) (i : Nat) :
    ks.drop i = [] ∨ ∃ k rest, ks.drop i = k :: rest ∧ ks[i]? = some k := by
  cases h : ks.drop i with
  | nil => left; rfl
  | cons k rest =>
    right
    refine ⟨k, rest, rfl, ?_⟩
    have : (ks.drop i)[0]? = some k := by rw [h]; simp
    simpa using this

/-- Keys in front of the selected index are below the query key. -/
theorem zix_btree_front_bound {cmp : Nat → Nat → Int} (hc : ZixTotalOrder cmp) (key : Nat)
    (ks : List Nat) (cs : List ZixBTreeNode)
    (hs : zix_btree_sorted cmp
      (zix_btree_before (ks.take (zix_btree_node_find cmp key ks))
        (cs.take (zix_btree_node_find cmp key ks)))) :
    ∀ x ∈ zix_btree_before (ks.take (zix_btree_node_find cmp key ks))
        (cs.take (zix_btree_node_find cmp key ks)), cmp x key < 0 := by
  intro x hx
  obtain ⟨k, hk, hr⟩ := zix_btree_before_bound _ _ _ hs x hx
  have h1 : cmp k key < 0 :=
    (zix_not_le_iff hc).1 (zix_btree_node_find_before cmp key ks k hk)
  rcases hr with hr | hr
  · subst hr; exact h1
  · exact hc.trans _ _ _ hr h1

/-- Keys from the selected index on are at or above the query key, and above
it when the selected index is not an exact match. -/
theorem zix_btree_back_bound {cmp : Nat → Nat → Int} (hc : ZixTotalOrder cmp) (key : Nat)
    (ks : List Nat) (L : List Nat)
    (hL : L = [] ∨ ∃ k rest, L = k :: rest ∧ ks[zix_btree_node_find cmp key ks]? = some k)
    (hs : zix_btree_sorted cmp L) :
    (∀ x ∈ L, cmp key x ≤ 0) ∧
      (zix_btree_node_match cmp key ks (zix_btree_node_find cmp key ks) = false →
        ∀ x ∈ L, cmp key x < 0) := by
  rcases hL with hL | ⟨k, rest, hL, hk⟩
  · subst hL; simp
  · subst hL
    have h0 := zix_btree_node_find_at cmp key ks k hk
    unfold zix_btree_sorted at hs
    rw [List.pairwise_cons] at hs
    constructor
    · intro x hx
      rw [List.mem_cons] at hx
      rcases hx with hx | hx
      · subst hx; exact h0
      · exact Int.le_of_lt (zix_le_lt_trans hc h0 (hs.1 x hx))
    · intro hm x hx
      have h1 : cmp key k < 0 := by
        have : cmp key k ≠ 0 := by
          intro e
          have := (zix_btree_node_match_iff cmp key ks _).2 ⟨k, hk, e⟩
          rw [hm] at this
          cases this
        omega
      rw [List.mem_cons] at hx
      rcases hx with hx | hx
      · subst hx; exact h1
      · exact hc.trans _ _ _ h1 (hs.1 x hx)

theorem zix_btree_sorted_append {cmp : Nat → Nat → Int} {l1 l2 : List Nat}
    (h : zix_btree_sorted cmp (l1 ++ l2)) :
    zix_btree_sorted cmp l1 ∧ zix_btree_sorted cmp l2 := by
  unfold zix_btree_sorted at *
  rw [List.pairwise_append] at h
  exact ⟨h.1, h.2.1⟩

theorem zix_btree_get_cons (f g : ZixBTreeNode × Nat) (rest : ZixBTreeIter) :
    zix_btree_get (f :: g :: rest) = zix_btree_get (g :: rest) := by
  simp [zix_btree_get, List.getLast?_cons_cons]

theorem zix_btree_get_single (n : ZixBTreeNode) (i : Nat) :
    zix_btree_get [(n, i)] = n.keys[i]? := by
  simp [zix_btree_get]

theorem zix_btree_path_in_ne_nil {n : ZixBTreeNode} {p : ZixBTreeIter}
    (h : zix_btree_path_in n p) : p ≠ [] := by
  intro e; subst e; simp [zix_btree_path_in] at h

theorem zix_btree_get_cons_path (f : ZixBTreeNode × Nat) {n : ZixBTreeNode} {p : ZixBTreeIter}
    (h : zix_btree_path_in n p) : zix_btree_get (f :: p) = zix_btree_get p := by
  cases p with
  | nil => exact absurd rfl (zix_btree_path_in_ne_nil h)
  | cons g rest => exact zix_btree_get_cons f g rest

theorem zix_btree_path_in_cons (ks : List Nat) (cs : List ZixBTreeNode) (i : Nat)
    (c : ZixBTreeNode) (p : ZixBTreeIter) (hc : cs[i]? = some c)
    (hp : zix_btree_path_in c p) :
    zix_btree_path_in (.internal ks cs) ((.internal ks cs, i) :: p) := by
  cases p with
  | nil => exact absurd rfl (zix_btree_path_in_ne_nil hp)
  | cons g rest =>
    simp only [zix_btree_path_in, true_and]
    exact ⟨c, by simpa [ZixBTreeNode.children] using hc, hp⟩

/-! ## Exact lookup -/

theorem zix_btree_find_node_spec {cmp : Nat → Nat → Int} (hc : ZixTotalOrder cmp) (M : Nat)
    (key : Nat) : ∀ (h lo : Nat) (n : ZixBTreeNode), zix_btree_node_inv M h lo n →
      zix_btree_sorted cmp (zix_btree_node_inorder n) →
      (key ∈ zix_btree_node_inorder n →
        ∃ p, zix_btree_find_node cmp key n = some p ∧ zix_btree_get p = some key ∧
          zix_btree_path_in n p) ∧
      (key ∉ zix_btree_node_inorder n → zix_btree_find_node cmp key n = none) := by
  intro h
  induction h with
  | zero =>
    intro lo n hn hs
    cases n with
    | internal ks cs => simp [zix_btree_node_inv] at hn
    | leaf ks =>
      simp only [zix_btree_node_inorder] at hs ⊢
      simp only [zix_btree_find_node]
      have hsplit : ks = ks.take (zix_btree_node_find cmp key ks) ++
          ks.drop (zix_btree_node_find cmp key ks) := (List.take_append_drop _ _).symm
      by_cases hm : zix_btree_node_match cmp key ks (zix_btree_node_find cmp key ks) = true
      · obtain ⟨k, hk, hk0⟩ := (zix_btree_node_match_iff _ _ _ _).1 hm
        have hkk : key = k := hc.eq_of_zero _ _ hk0
        subst hkk
        simp only [hm, if_true]
        constructor
        · intro _
          refine ⟨_, rfl, ?_, ?_⟩
          · simp [zix_btree_get_single, ZixBTreeNode.keys, hk]
          · simp [zix_btree_path_in, ZixBTreeNode.keys]
            exact zix_getElem?_lt _ _ _ hk
        · intro hnot
          exact absurd (zix_getElem?_mem _ _ _ hk) hnot
      · simp only [hm]
        simp only [Bool.not_eq_true] at hm
        constructor
        · intro hmem
          exfalso
          rw [hsplit] at hs
          have hs2 := (zix_btree_sorted_append hs).2
          have hb := (zix_btree_back_bound hc key ks _ (zix_drop_head ks _) hs2).2 hm
          rw [hsplit, List.mem_append] at hmem
          rcases hmem with hmem | hmem
          · exact zix_btree_node_find_before cmp key ks key hmem (by rw [hc.refl])
          · exact zix_lt_irrefl hc key (hb key hmem)
        · intro _; simp
  | succ h ih =>
    intro lo n hn hs
    cases n with
    | leaf ks => simp [zix_btree_node_inv] at hn
    | internal ks cs =>
      simp only [zix_btree_node_inv] at hn
      obtain ⟨_, _, hlen, hcs⟩ := hn
      simp only [zix_btree_node_inorder] at hs ⊢
      obtain ⟨c, hci, hcmem, hview⟩ := zix_btree_view ks cs hlen
        (zix_btree_node_find cmp key ks) (zix_btree_node_find_le cmp key ks)
      simp only [zix_btree_find_node]
      by_cases hm : zix_btree_node_match cmp key ks (zix_btree_node_find cmp key ks) = true
      · obtain ⟨k, hk, hk0⟩ := (zix_btree_node_match_iff _ _ _ _).1 hm
        have hkk : key = k := hc.eq_of_zero _ _ hk0
        subst hkk
        simp only [hm, if_true]
        constructor
        · intro _
          refine ⟨_, rfl, ?_, ?_⟩
          · simp [zix_btree_get_single, ZixBTreeNode.keys, hk]
          · simp [zix_btree_path_in, ZixBTreeNode.keys]
            exact zix_getElem?_lt _ _ _ hk
        · intro hnot
          exfalso
          apply hnot
          rw [hview]
          have := zix_btree_after_head (ks.drop (zix_btree_node_find cmp key ks))
            (cs.drop (zix_btree_node_find cmp key ks + 1)) ks _ rfl
          rcases this with e | ⟨k, rest, e, hk2⟩
          · exfalso
            have h1 := zix_getElem?_lt _ _ _ hk
            have : (ks.drop (zix_btree_node_find cmp key ks)).length ≠ 0 := by simp; omega
            have h2 : (cs.drop (zix_btree_node_find cmp key ks + 1)).length ≠ 0 := by
              simp; omega
            revert e
            cases hd : ks.drop (zix_btree_node_find cmp key ks) with
            | nil => simp [hd] at this
            | cons a l =>
              cases hd2 : cs.drop (zix_btree_node_find cmp key ks + 1) with
              | nil => simp [hd2] at h2
              | cons b l2 => simp [zix_btree_after]
          · rw [e]
            rw [hk] at hk2
            cases hk2
            simp
      · simp only [hm]
        simp only [Bool.not_eq_true] at hm
        rw [hview] at hs
        have hsP := (zix_btree_sorted_append hs).1
        have hsR := (zix_btree_sorted_append hs).2
        have hsC := (zix_btree_sorted_append hsR).1
        have hsQ := (zix_btree_sorted_append hsR).2
        have hP := zix_btree_front_bound hc key ks cs hsP
        have hQ := (zix_btree_back_bound hc key ks _
          (zix_btree_after_head _ _ ks _ rfl) hsQ).2 hm
        have hiff : key ∈ zix_btree_children_inorder ks cs ↔ key ∈ zix_btree_node_inorder c := by
          rw [hview]
          simp only [List.mem_append]
          constructor
          · rintro (h1 | h1 | h1)
            · exact absurd (hP key h1) (zix_lt_irrefl hc key)
            · exact h1
            · exact absurd (hQ key h1) (zix_lt_irrefl hc key)
          · intro h1; exact Or.inr (Or.inl h1)
        rw [zix_btree_find_child_eq, hci]
        obtain ⟨ih1, ih2⟩ := ih _ c (hcs c hcmem) hsC
        constructor
        · intro hmem
          obtain ⟨p, hp1, hp2, hp3⟩ := ih1 (hiff.1 hmem)
          refine ⟨_, by simp [hp1]; rfl, ?_, ?_⟩
          · rw [zix_btree_get_cons_path _ hp3]; exact hp2
          · exact zix_btree_path_in_cons ks cs _ c p hci hp3
        · intro hnot
          have := ih2 (fun h1 => hnot (hiff.2 h1))
          simp [this]

/-! ## Descent step -/

/-- When index `i` selected in an internal node is not an exact match, the
query key can only lie below child `i`: everything in front of that child is
smaller and everything behind it is greater. -/
theorem zix_btree_descend {cmp : Nat → Nat → Int} (hc : ZixTotalOrder cmp) (key : Nat)
    (ks : List Nat) (cs : List ZixBTreeNode) (hlen : cs.length = ks.length + 1)
    (hs : zix_btree_sorted cmp (zix_btree_children_inorder ks cs))
    (hm : zix_btree_node_match cmp key ks (zix_btree_node_find cmp key ks) = false) :
    ∃ c, cs[zix_btree_node_find cmp key ks]? = some c ∧ c ∈ cs ∧
      zix_btree_sorted cmp (zix_btree_node_inorder c) ∧
      zix_btree_children_inorder ks cs =
        zix_btree_before (ks.take (zix_btree_node_find cmp key ks))
            (cs.take (zix_btree_node_find cmp key ks)) ++
          (zix_btree_node_inorder c ++
            zix_btree_after (ks.drop (zix_btree_node_find cmp key ks))
              (cs.drop (zix_btree_node_find cmp key ks + 1))) ∧
      (∀ x ∈ zix_btree_before (ks.take (zix_btree_node_find cmp key ks))
            (cs.take (zix_btree_node_find cmp key ks)), cmp x key < 0) ∧
      (∀ x ∈ zix_btree_after (ks.drop (zix_btree_node_find cmp key ks))
              (cs.drop (zix_btree_node_find cmp key ks + 1)), cmp key x < 0) := by
  obtain ⟨c, hci, hcmem, hview⟩ := zix_btree_view ks cs hlen
    (zix_btree_node_find cmp key ks) (zix_btree_node_find_le cmp key ks)
  rw [hview] at hs
  have hsP := (zix_btree_sorted_append hs).1
  have hsR := (zix_btree_sorted_append hs).2
  have hsC := (zix_btree_sorted_append hsR).1
  have hsQ := (zix_btree_sorted_append hsR).2
  exact ⟨c, hci, hcmem, hsC, hview, zix_btree_front_bound hc key ks cs hsP,
    (zix_btree_back_bound hc key ks _ (zix_btree_after_head _ _ ks _ rfl) hsQ).2 hm⟩

theorem zix_btree_inserted_sorted {cmp : Nat → Nat → Int} {key : Nat}
    {old new : List Nat} (h : zix_btree_inserted cmp key old new)
    (hs : zix_btree_sorted cmp old) : zix_btree_sorted cmp new := by
  obtain ⟨L, R, e1, e2, hL, hR⟩ := h
  subst e1 e2
  unfold zix_btree_sorted at *
  rw [List.pairwise_append] at hs ⊢
  obtain ⟨h1, h2, h3⟩ := hs
  refine ⟨h1, ?_, ?_⟩
  · rw [List.pairwise_cons]
    exact ⟨hR, h2⟩
  · intro a ha b hb
    rw [List.mem_cons] at hb
    rcases hb with hb | hb
    · subst hb; exact hL a ha
    · exact h3 a ha b hb

theorem zix_btree_inserted_mem {cmp : Nat → Nat → Int} {key : Nat}
    {old new : List Nat} (h : zix_btree_inserted cmp key old new) (x : Nat) :
    x ∈ new ↔ x = key ∨ x ∈ old := by
  obtain ⟨L, R, e1, e2, _, _⟩ := h
  subst e1 e2
  simp only [List.mem_append, List.mem_cons]
  tauto

theorem zix_btree_inserted_length {cmp : Nat → Nat → Int} {key : Nat}
    {old new : List Nat} (h : zix_btree_inserted cmp key old new) :
    new.length = old.length + 1 := by
  obtain ⟨L, R, e1, e2, _, _⟩ := h
  subst e1 e2
  simp only [List.length_append, List.length_cons]
  omega

theorem zix_btree_inserted_wrap {cmp : Nat → Nat → Int} {key : Nat}
    {old new P Q : List Nat} (h : zix_btree_inserted cmp key old new)
    (hP : ∀ x ∈ P, cmp x key < 0) (hQ : ∀ x ∈ Q, cmp key x < 0) :
    zix_btree_inserted cmp key (P ++ (old ++ Q)) (P ++ (new ++ Q)) := by
  obtain ⟨L, R, e1, e2, hL, hR⟩ := h
  subst e1 e2
  refine ⟨P ++ L, R ++ Q, by simp, by simp, ?_, ?_⟩
  · intro x hx
    rw [List.mem_append] at hx
    rcases hx with hx | hx
    · exact hP x hx
    · exact hL x hx
  · intro x hx
    rw [List.mem_append] at hx
    rcases hx with hx | hx
    · exact hR x hx
    · exact hQ x hx

/-! ## Splitting -/

theorem zix_btree_children_inorder_median (ka kb : List Nat) (m : Nat)
    (A B : List ZixBTreeNode) (hA : A.length = ka.length + 1) (hB : B.length = kb.length + 1) :
    zix_btree_children_inorder (ka ++ m :: kb) (A ++ B) =
      zix_btree_children_inorder ka A ++ m :: zix_btree_children_inorder kb B := by
  cases A with
  | nil => simp at hA
  | cons a0 A0 =>
    cases B with
    | nil => simp at hB
    | cons b0 B0 =>
      simp at hA hB
      rw [List.cons_append, zix_btree_children_inorder_cons _ _ _ (by simp; omega),
        zix_btree_after_append _ _ _ _ hA, zix_btree_children_inorder_cons _ _ _ hA,
        zix_btree_children_inorder_cons _ _ _ hB]
      simp [zix_btree_after]

theorem zix_btree_finish_leaf_spec (M : Nat) (hM : 3 ≤ M) (lo : Nat) (ks : List Nat)
    (h1 : ks.length ≤ M) (h2 : lo ≤ ks.length) :
    (∃ n1, zix_btree_finish_leaf M ks = .fits n1 ∧ zix_btree_node_inv M 0 lo n1 ∧
        zix_btree_node_inorder n1 = ks) ∨
    (∃ l m r, zix_btree_finish_leaf M ks = .overflow l m r ∧
        zix_btree_node_inv M 0 (zix_btree_min_keys M) l ∧
        zix_btree_node_inv M 0 (zix_btree_min_keys M) r ∧
        zix_btree_node_inorder l ++ m :: zix_btree_node_inorder r = ks) := by
  unfold zix_btree_finish_leaf
  by_cases hlt : ks.length < M
  · left
    refine ⟨.leaf ks, by simp [hlt], ?_, by simp [zix_btree_node_inorder]⟩
    simp [zix_btree_node_inv]; omega
  · right
    simp only [hlt, if_false]
    have hlen : ks.length = M := by omega
    cases hd : ks.drop (M / 2) with
    | nil =>
      have : (ks.drop (M / 2)).length = 0 := by rw [hd]; rfl
      simp at this; omega
    | cons m rest =>
      refine ⟨_, _, _, rfl, ?_, ?_, ?_⟩
      · simp [zix_btree_node_inv, zix_btree_min_keys]; omega
      · have : (ks.drop (M / 2)).length = rest.length + 1 := by rw [hd]; rfl
        simp at this
        simp [zix_btree_node_inv, zix_btree_min_keys]; omega
      · simp only [zix_btree_node_inorder]
        rw [← hd, List.take_append_drop]

theorem zix_btree_finish_internal_spec (M : Nat) (hM : 3 ≤ M) (h lo : Nat) (ks : List Nat)
    (cs : List ZixBTreeNode) (h1 : ks.length ≤ M) (h2 : lo ≤ ks.length)
    (hlen : cs.length = ks.length + 1)
    (hcs : ∀ c ∈ cs, zix_btree_node_inv M h (zix_btree_min_keys M) c) :
    (∃ n1, zix_btree_finish_internal M ks cs = .fits n1 ∧ zix_btree_node_inv M (h + 1) lo n1 ∧
        zix_btree_node_inorder n1 = zix_btree_children_inorder ks cs) ∨
    (∃ l m r, zix_btree_finish_internal M ks cs = .overflow l m r ∧
        zix_btree_node_inv M (h + 1) (zix_btree_min_keys M) l ∧
        zix_btree_node_inv M (h + 1) (zix_btree_min_keys M) r ∧
        zix_btree_node_inorder l ++ m :: zix_btree_node_inorder r =
          zix_btree_children_inorder ks cs) := by
  unfold zix_btree_finish_internal
  by_cases hlt : ks.length < M
  · left
    refine ⟨.internal ks cs, by simp [hlt], ?_, by simp [zix_btree_node_inorder]⟩
    simp only [zix_btree_node_inv]
    exact ⟨h2, by omega, hlen, hcs⟩
  · right
    simp only [hlt, if_false]
    have hlenM : ks.length = M := by omega
    cases hd : ks.drop (M / 2) with
    | nil =>
      have : (ks.drop (M / 2)).length = 0 := by rw [hd]; rfl
      simp at this; omega
    | cons m rest =>
      have hrest : (ks.drop (M / 2)).length = rest.length + 1 := by rw [hd]; rfl
      simp at hrest
      refine ⟨_, _, _, rfl, ?_, ?_, ?_⟩
      · simp only [zix_btree_node_inv]
        refine ⟨by simp [zix_btree_min_keys]; omega, by simp; omega, by simp; omega, ?_⟩
        intro c hc
        exact hcs c (List.mem_of_mem_take hc)
      · simp only [zix_btree_node_inv]
        refine ⟨by simp [zix_btree_min_keys]; omega, by omega, by simp; omega, ?_⟩
        intro c hc
        exact hcs c (List.mem_of_mem_drop hc)
      · simp only [zix_btree_node_inorder]
        have e := zix_btree_children_inorder_median (ks.take (M / 2)) rest m
          (cs.take (M / 2 + 1)) (cs.drop (M / 2 + 1)) (by simp; omega) (by simp; omega)
        rw [← hd, List.take_append_drop, List.take_append_drop] at e
        exact e.symm

/-! ## Insertion below a node -/

theorem zix_btree_leaf_bounds {cmp : Nat → Nat → Int} (hc : ZixTotalOrder cmp) (key : Nat)
    (ks : List Nat) (hs : zix_btree_sorted cmp ks)
    (hm : zix_btree_node_match cmp key ks (zix_btree_node_find cmp key ks) = false) :
    (∀ x ∈ ks.take (zix_btree_node_find cmp key ks), cmp x key < 0) ∧
      (∀ x ∈ ks.drop (zix_btree_node_find cmp key ks), cmp key x < 0) := by
  constructor
  · intro x hx
    exact (zix_not_le_iff hc).1 (zix_btree_node_find_before cmp key ks x hx)
  · have hs2 : zix_btree_sorted cmp (ks.drop (zix_btree_node_find cmp key ks)) := by
      have := hs
      rw [← List.take_append_drop (zix_btree_node_find cmp key ks) ks] at this
      exact (zix_btree_sorted_append this).2
    exact (zix_btree_back_bound hc key ks _ (zix_drop_head ks _) hs2).2 hm

theorem zix_btree_match_mem {cmp : Nat → Nat → Int} (hc : ZixTotalOrder cmp) (key : Nat)
    (ks : List Nat) (i : Nat) (hm : zix_btree_node_match cmp key ks i = true) :
    ks[i]? = some key := by
  obtain ⟨k, hk, hk0⟩ := (zix_btree_node_match_iff _ _ _ _).1 hm
  have hkk : key = k := hc.eq_of_zero _ _ hk0
  subst hkk
  exact hk

theorem zix_btree_keys_subset (ks : List Nat) (cs : List ZixBTreeNode)
    (hlen : cs.length = ks.length + 1) : ∀ k ∈ ks, k ∈ zix_btree_children_inorder ks cs := by
  induction ks generalizing cs with
  | nil => simp
  | cons k ks ih =>
    cases cs with
    | nil => simp at hlen
    | cons c cs =>
      simp at hlen
      intro x hx
      simp only [zix_btree_children_inorder, List.mem_append, List.mem_cons]
      rw [List.mem_cons] at hx
      rcases hx with hx | hx
      · exact Or.inr (Or.inl hx)
      · exact Or.inr (Or.inr (ih cs hlen x hx))

theorem zix_btree_insert_node_spec {cmp : Nat → Nat → Int} (hc : ZixTotalOrder cmp) (M : Nat)
    (hM : 3 ≤ M) (key : Nat) : ∀ (h lo : Nat) (n : ZixBTreeNode),
      zix_btree_node_inv M h lo n →
      zix_btree_sorted cmp (zix_btree_node_inorder n) →
      (key ∈ zix_btree_node_inorder n → zix_btree_insert_node M cmp key n = .found) ∧
      (key ∉ zix_btree_node_inorder n →
        (∃ n1, zix_btree_insert_node M cmp key n = .fits n1 ∧ zix_btree_node_inv M h lo n1 ∧
          zix_btree_inserted cmp key (zix_btree_node_inorder n) (zix_btree_node_inorder n1)) ∨
        (∃ l m r, zix_btree_insert_node M cmp key n = .overflow l m r ∧
          zix_btree_node_inv M h (zix_btree_min_keys M) l ∧
          zix_btree_node_inv M h (zix_btree_min_keys M) r ∧
          zix_btree_inserted cmp key (zix_btree_node_inorder n)
            (zix_btree_node_inorder l ++ m :: zix_btree_node_inorder r))) := by
  intro h
  induction h with
  | zero =>
    intro lo n hn hs
    cases n with
    | internal ks cs => simp [zix_btree_node_inv] at hn
    | leaf ks =>
      simp only [zix_btree_node_inv] at hn
      simp only [zix_btree_node_inorder] at hs ⊢
      simp only [zix_btree_insert_node]
      by_cases hm : zix_btree_node_match cmp key ks (zix_btree_node_find cmp key ks) = true
      · simp only [hm, if_true]
        refine ⟨fun _ => trivial, fun hnot => ?_⟩
        exact absurd (zix_getElem?_mem _ _ _ (zix_btree_match_mem hc key ks _ hm)) hnot
      · simp only [hm]
        simp only [Bool.not_eq_true] at hm
        obtain ⟨hb1, hb2⟩ := zix_btree_leaf_bounds hc key ks hs hm
        have hins : zix_btree_inserted cmp key ks
            (zix_btree_ainsert ks (zix_btree_node_find cmp key ks) key) :=
          ⟨_, _, (List.take_append_drop _ _).symm, rfl, hb1, hb2⟩
        constructor
        · intro hmem
          exfalso
          rw [← List.take_append_drop (zix_btree_node_find cmp key ks) ks,
            List.mem_append] at hmem
          rcases hmem with hmem | hmem
          · exact zix_lt_irrefl hc key (hb1 key hmem)
          · exact zix_lt_irrefl hc key (hb2 key hmem)
        · intro _
          have hl := zix_btree_inserted_length hins
          rcases zix_btree_finish_leaf_spec M hM lo
              (zix_btree_ainsert ks (zix_btree_node_find cmp key ks) key)
              (by omega) (by omega) with ⟨n1, e1, e2, e3⟩ | ⟨l, m, r, e1, e2, e3, e4⟩
          · left
            exact ⟨n1, e1, e2, by rw [e3]; exact hins⟩
          · right
            exact ⟨l, m, r, e1, e2, e3, by rw [e4]; exact hins⟩
  | succ h ih =>
    intro lo n hn hs
    cases n with
    | leaf ks => simp [zix_btree_node_inv] at hn
    | internal ks cs =>
      simp only [zix_btree_node_inv] at hn
      obtain ⟨hlo, hmax, hlen, hcs⟩ := hn
      simp only [zix_btree_node_inorder] at hs ⊢
      simp only [zix_btree_insert_node]
      by_cases hm : zix_btree_node_match cmp key ks (zix_btree_node_find cmp key ks) = true
      · simp only [hm, if_true]
        refine ⟨fun _ => trivial, fun hnot => ?_⟩
        exact absurd (zix_btree_keys_subset ks cs hlen key
          (zix_getElem?_mem _ _ _ (zix_btree_match_mem hc key ks _ hm))) hnot
      · simp only [hm]
        simp only [Bool.not_eq_true] at hm
        obtain ⟨c, hci, hcmem, hsC, hview, hP, hQ⟩ := zix_btree_descend hc key ks cs hlen hs hm
        have hiff : key ∈ zix_btree_children_inorder ks cs ↔ key ∈ zix_btree_node_inorder c := by
          rw [hview]
          simp only [List.mem_append]
          constructor
          · rintro (h1 | h1 | h1)
            · exact absurd (hP key h1) (zix_lt_irrefl hc key)
            · exact h1
            · exact absurd (hQ key h1) (zix_lt_irrefl hc key)
          · intro h1; exact Or.inr (Or.inl h1)
        rw [zix_btree_insert_child_eq, hci]
        obtain ⟨ih1, ih2⟩ := ih _ c (hcs c hcmem) hsC
        have hile := zix_btree_node_find_le cmp key ks
        constructor
        · intro hmem
          simp [ih1 (hiff.1 hmem)]
        · intro hnot
          rcases ih2 (fun h1 => hnot (hiff.2 h1)) with
            ⟨c1, e1, e2, e3⟩ | ⟨l, m, r, e1, e2, e3, e4⟩
          · left
            refine ⟨.internal ks (zix_btree_aset cs (zix_btree_node_find cmp key ks) c1),
              by simp [e1], ?_, ?_⟩
            · simp only [zix_btree_node_inv]
              refine ⟨hlo, hmax, ?_, ?_⟩
              · simp [zix_btree_aset]; omega
              · intro x hx
                simp only [zix_btree_aset, List.mem_append, List.mem_cons] at hx
                rcases hx with hx | hx | hx
                · exact hcs x (List.mem_of_mem_take hx)
                · subst hx; exact e2
                · exact hcs x (List.mem_of_mem_drop hx)
            · simp only [zix_btree_node_inorder]
              have e := zix_btree_children_inorder_split
                (ks.take (zix_btree_node_find cmp key ks))
                (ks.drop (zix_btree_node_find cmp key ks))
                (cs.take (zix_btree_node_find cmp key ks))
                (cs.drop (zix_btree_node_find cmp key ks + 1)) c1
                (by simp; omega) (by simp; omega)
              rw [List.take_append_drop] at e
              rw [zix_btree_aset, e, hview]
              exact zix_btree_inserted_wrap e3 hP hQ
          · simp only [e1]
            have hnew : zix_btree_children_inorder
                (zix_btree_ainsert ks (zix_btree_node_find cmp key ks) m)
                (cs.take (zix_btree_node_find cmp key ks) ++
                  l :: r :: cs.drop (zix_btree_node_find cmp key ks + 1)) =
                zix_btree_before (ks.take (zix_btree_node_find cmp key ks))
                    (cs.take (zix_btree_node_find cmp key ks)) ++
                  ((zix_btree_node_inorder l ++ m :: zix_btree_node_inorder r) ++
                    zix_btree_after (ks.drop (zix_btree_node_find cmp key ks))
                      (cs.drop (zix_btree_node_find cmp key ks + 1))) := by
              have e := zix_btree_children_inorder_split
                (ks.take (zix_btree_node_find cmp key ks))
                (m :: ks.drop (zix_btree_node_find cmp key ks))
                (cs.take (zix_btree_node_find cmp key ks))
                (r :: cs.drop (zix_btree_node_find cmp key ks + 1)) l
                (by simp; omega) (by simp; omega)
              rw [zix_btree_ainsert, e]
              simp [zix_btree_after]
            rcases zix_btree_finish_internal_spec M hM h lo
                (zix_btree_ainsert ks (zix_btree_node_find cmp key ks) m)
                (cs.take (zix_btree_node_find cmp key ks) ++
                  l :: r :: cs.drop (zix_btree_node_find cmp key ks + 1))
                (by simp [zix_btree_ainsert]; omega) (by simp [zix_btree_ainsert]; omega)
                (by simp [zix_btree_ainsert]; omega)
                (by
                  intro x hx
                  simp only [List.mem_append, List.mem_cons] at hx
                  rcases hx with hx | hx | hx | hx
                  · exact hcs x (List.mem_of_mem_take hx)
                  · subst hx; exact e2
                  · subst hx; exact e3
                  · exact hcs x (List.mem_of_mem_drop hx)) with
              ⟨n1, f1, f2, f3⟩ | ⟨l1, m1, r1, f1, f2, f3, f4⟩
            · left
              refine ⟨n1, f1, f2, ?_⟩
              rw [f3, hnew, hview]
              exact zix_btree_inserted_wrap e4 hP hQ
            · right
              refine ⟨l1, m1, r1, f1, f2, f3, ?_⟩
              rw [f4, hnew, hview]
              exact zix_btree_inserted_wrap e4 hP hQ

/-! ## Rebalancing: pairs of siblings -/

theorem zix_min_keys_pos (M : Nat) (hM : 3 ≤ M) : 1 ≤ zix_btree_min_keys M := by
  unfold zix_btree_min_keys; omega

theorem zix_min_keys_double (M : Nat) (hM : 3 ≤ M) :
    2 * zix_btree_min_keys M ≤ M - 1 := by
  unfold zix_btree_min_keys; omega

theorem zix_btree_children_inorder_single (c : ZixBTreeNode) :
    zix_btree_children_inorder [] [c] = zix_btree_node_inorder c := by
  simp [zix_btree_children_inorder]

theorem zix_btree_children_inorder_snoc (ks : List Nat) (cs : List ZixBTreeNode) (k : Nat)
    (c : ZixBTreeNode) (h : cs.length = ks.length + 1) :
    zix_btree_children_inorder (ks ++ [k]) (cs ++ [c]) =
      zix_btree_children_inorder ks cs ++ k :: zix_btree_node_inorder c := by
  rw [zix_btree_children_inorder_median ks [] k cs [c] h (by simp),
    zix_btree_children_inorder_single]

theorem zix_list_snoc {α : Type} (xs : List α) (x : α) (h : xs.getLast? = some x) :
    xs = xs.dropLast ++ [x] := by
  induction xs with
  | nil => simp at h
  | cons y ys ih =>
    cases ys with
    | nil => simp at h; simp [h]
    | cons z zs =>
      rw [List.getLast?_cons_cons] at h
      simp only [List.dropLast_cons₂, List.cons_append]
      rw [← ih h]

theorem zix_list_getLast?_of_pos {α : Type} (xs : List α) (h : 0 < xs.length) :
    ∃ x, xs.getLast? = some x := by
  cases hx : xs.getLast? with
  | none => simp at hx; subst hx; simp at h
  | some x => exact ⟨x, rfl⟩

/-- Rotation from the left sibling keeps the shape and the order of keys. -/
theorem zix_btree_rotate_right_pair (M : Nat) (hM : 3 ≤ M) (h : Nat) (l c : ZixBTreeNode)
    (sep up : Nat)
    (hl : zix_btree_node_inv M h (zix_btree_min_keys M) l)
    (hc : zix_btree_node_inv M h (zix_btree_min_keys M - 1) c)
    (hspare : zix_btree_min_keys M < l.keys.length)
    (hunder : c.keys.length < zix_btree_min_keys M)
    (hup : l.keys.getLast? = some up) :
    zix_btree_node_inv M h (zix_btree_min_keys M)
        (l.with_contents l.keys.dropLast l.children.dropLast) ∧
      zix_btree_node_inv M h (zix_btree_min_keys M)
        (c.with_contents (sep :: c.keys) (l.children.getLast?.toList ++ c.children)) ∧
      zix_btree_node_inorder (l.with_contents l.keys.dropLast l.children.dropLast) ++
          up :: zix_btree_node_inorder
            (c.with_contents (sep :: c.keys) (l.children.getLast?.toList ++ c.children)) =
        zix_btree_node_inorder l ++ sep :: zix_btree_node_inorder c := by
  have hmin := zix_min_keys_double M hM
  cases l with
  | leaf lk =>
    cases c with
    | internal ck cc =>
      rw [zix_btree_node_inv_leaf] at hl
      rw [zix_btree_node_inv_internal] at hc
      obtain ⟨h1, e, _⟩ := hc
      omega
    | leaf ck =>
      rw [zix_btree_node_inv_leaf] at hl hc
      simp only [ZixBTreeNode.keys] at hspare hunder hup
      simp only [ZixBTreeNode.with_contents, ZixBTreeNode.keys, zix_btree_node_inorder]
      refine ⟨?_, ?_, ?_⟩
      · rw [zix_btree_node_inv_leaf]; simp; omega
      · rw [zix_btree_node_inv_leaf]; simp; omega
      · conv_rhs => rw [zix_list_snoc lk up hup]
        simp
  | internal lk lc =>
    cases c with
    | leaf ck =>
      rw [zix_btree_node_inv_leaf] at hc
      rw [zix_btree_node_inv_internal] at hl
      obtain ⟨h1, e, _⟩ := hl
      omega
    | internal ck cc =>
      rw [zix_btree_node_inv_internal] at hl hc
      obtain ⟨h1, e1, l1, l2, l3, l4⟩ := hl
      obtain ⟨h2, e2, c1, c2, c3, c4⟩ := hc
      have e12 : h1 = h2 := by omega
      subst e12
      simp only [ZixBTreeNode.keys] at hspare hunder hup
      obtain ⟨x, hx⟩ := zix_list_getLast?_of_pos lc (by omega)
      have elc := zix_list_snoc lc x hx
      have elk := zix_list_snoc lk up hup
      simp only [ZixBTreeNode.with_contents, ZixBTreeNode.keys, ZixBTreeNode.children,
        zix_btree_node_inorder, hx, Option.toList]
      refine ⟨?_, ?_, ?_⟩
      · rw [zix_btree_node_inv_internal]
        refine ⟨h1, e1, by simp; omega, by simp; omega, by simp; omega, ?_⟩
        intro y hy
        exact l4 y (List.mem_of_mem_dropLast hy)
      · rw [zix_btree_node_inv_internal]
        refine ⟨h1, e1, by simp; omega, by simp; omega, by simp; omega, ?_⟩
        intro y hy
        simp only [List.singleton_append, List.mem_cons] at hy
        rcases hy with hy | hy
        · subst hy
          exact l4 y (by rw [elc]; simp)
        · exact c4 y hy
      · conv_rhs => rw [elc, elk]
        rw [zix_btree_children_inorder_snoc _ _ _ _ (by simp; omega)]
        simp [zix_btree_children_inorder]

/-- Rotation from the right sibling keeps the shape and the order of keys. -/
theorem zix_btree_rotate_left_pair (M : Nat) (hM : 3 ≤ M) (h : Nat) (c r : ZixBTreeNode)
    (sep up : Nat) (rest : List Nat)
    (hc : zix_btree_node_inv M h (zix_btree_min_keys M - 1) c)
    (hr : zix_btree_node_inv M h (zix_btree_min_keys M) r)
    (hspare : zix_btree_min_keys M < r.keys.length)
    (hunder : c.keys.length < zix_btree_min_keys M)
    (hup : r.keys = up :: rest) :
    zix_btree_node_inv M h (zix_btree_min_keys M)
        (c.with_contents (c.keys ++ [sep]) (c.children ++ r.children.head?.toList)) ∧
      zix_btree_node_inv M h (zix_btree_min_keys M)
        (r.with_contents rest r.children.tail) ∧
      zix_btree_node_inorder
          (c.with_contents (c.keys ++ [sep]) (c.children ++ r.children.head?.toList)) ++
          up :: zix_btree_node_inorder (r.with_contents rest r.children.tail) =
        zix_btree_node_inorder c ++ sep :: zix_btree_node_inorder r := by
  have hmin := zix_min_keys_double M hM
  cases c with
  | leaf ck =>
    cases r with
    | internal rk rc =>
      rw [zix_btree_node_inv_leaf] at hc
      rw [zix_btree_node_inv_internal] at hr
      obtain ⟨h1, e, _⟩ := hr
      omega
    | leaf rk =>
      rw [zix_btree_node_inv_leaf] at hr hc
      simp only [ZixBTreeNode.keys] at hspare hunder hup
      subst hup
      simp only [ZixBTreeNode.with_contents, ZixBTreeNode.keys, zix_btree_node_inorder]
      simp only [List.length_cons] at hr hspare
      refine ⟨?_, ?_, ?_⟩
      · rw [zix_btree_node_inv_leaf]; simp; omega
      · rw [zix_btree_node_inv_leaf]; omega
      · simp
  | internal ck cc =>
    cases r with
    | leaf rk =>
      rw [zix_btree_node_inv_leaf] at hr
      rw [zix_btree_node_inv_internal] at hc
      obtain ⟨h1, e, _⟩ := hc
      omega
    | internal rk rc =>
      rw [zix_btree_node_inv_internal] at hr hc
      obtain ⟨h1, e1, r1, r2, r3, r4⟩ := hr
      obtain ⟨h2, e2, c1, c2, c3, c4⟩ := hc
      have e12 : h1 = h2 := by omega
      subst e12
      simp only [ZixBTreeNode.keys] at hspare hunder hup
      subst hup
      simp only [List.length_cons] at r1 r2 r3 hspare
      cases rc with
      | nil => simp at r3
      | cons x rc =>
        simp only [List.length_cons] at r3
        simp only [ZixBTreeNode.with_contents, ZixBTreeNode.keys, ZixBTreeNode.children,
          zix_btree_node_inorder, List.head?_cons, Option.toList, List.tail_cons]
        refine ⟨?_, ?_, ?_⟩
        · rw [zix_btree_node_inv_internal]
          refine ⟨h1, e1, by simp; omega, by simp; omega, by simp; omega, ?_⟩
          intro y hy
          simp only [List.mem_append, List.mem_singleton] at hy
          rcases hy with hy | hy
          · exact c4 y hy
          · subst hy; exact r4 y (by simp)
        · rw [zix_btree_node_inv_internal]
          refine ⟨h1, e1, by omega, by omega, by omega, ?_⟩
          intro y hy
          exact r4 y (by simp [hy])
        · rw [zix_btree_children_inorder_snoc _ _ _ _ c3]
          simp [zix_btree_children_inorder]

/-- Merging two siblings around their separator keeps the shape and the order
of keys. -/
theorem zix_btree_merge_pair (M : Nat) (h lo1 lo2 : Nat) (l r : ZixBTreeNode)
    (sep : Nat)
    (hl : zix_btree_node_inv M h lo1 l)
    (hr : zix_btree_node_inv M h lo2 r)
    (hlo : zix_btree_min_keys M ≤ l.keys.length + r.keys.length + 1)
    (hhi : l.keys.length + r.keys.length + 1 ≤ M - 1) :
    zix_btree_node_inv M h (zix_btree_min_keys M)
        (l.with_contents (l.keys ++ sep :: r.keys) (l.children ++ r.children)) ∧
      zix_btree_node_inorder
          (l.with_contents (l.keys ++ sep :: r.keys) (l.children ++ r.children)) =
        zix_btree_node_inorder l ++ sep :: zix_btree_node_inorder r := by
  cases l with
  | leaf lk =>
    cases r with
    | internal rk rc =>
      rw [zix_btree_node_inv_leaf] at hl
      rw [zix_btree_node_inv_internal] at hr
      obtain ⟨h1, e, _⟩ := hr
      omega
    | leaf rk =>
      rw [zix_btree_node_inv_leaf] at hl hr
      simp only [ZixBTreeNode.keys] at hlo hhi
      simp only [ZixBTreeNode.with_contents, ZixBTreeNode.keys, zix_btree_node_inorder]
      refine ⟨?_, trivial⟩
      rw [zix_btree_node_inv_leaf]; simp; omega
  | internal lk lc =>
    cases r with
    | leaf rk =>
      rw [zix_btree_node_inv_leaf] at hr
      rw [zix_btree_node_inv_internal] at hl
      obtain ⟨h1, e, _⟩ := hl
      omega
    | internal rk rc =>
      rw [zix_btree_node_inv_internal] at hl hr
      obtain ⟨h1, e1, l1, l2, l3, l4⟩ := hl
      obtain ⟨h2, e2, r1, r2, r3, r4⟩ := hr
      have e12 : h1 = h2 := by omega
      subst e12
      simp only [ZixBTreeNode.keys] at hlo hhi
      simp only [ZixBTreeNode.with_contents, ZixBTreeNode.keys, ZixBTreeNode.children,
        zix_btree_node_inorder]
      refine ⟨?_, ?_⟩
      · rw [zix_btree_node_inv_internal]
        refine ⟨h1, e1, by simp; omega, by simp; omega, by simp; omega, ?_⟩
        intro y hy
        rw [List.mem_append] at hy
        rcases hy with hy | hy
        · exact l4 y hy
        · exact r4 y hy
      · exact zix_btree_children_inorder_median lk rk sep lc rc l3 r3

/-! ## Rebalancing: the parent -/

theorem zix_list_split_len {α : Type} (ks : List α) (j : Nat) (h : j < ks.length) :
    ∃ ka sep kb, ks = ka ++ sep :: kb ∧ ka.length = j := by
  refine ⟨ks.take j, ks[j], ks.drop (j + 1), ?_, by simp; omega⟩
  exact zix_split_at ks j ks[j] (List.getElem?_eq_getElem h)

theorem zix_list_snoc_len {α : Type} (A : List α) (j : Nat) (h : A.length = j + 1) :
    ∃ A1 l, A = A1 ++ [l] ∧ A1.length = j := by
  obtain ⟨x, hx⟩ := zix_list_getLast?_of_pos A (by omega)
  refine ⟨A.dropLast, x, zix_list_snoc A x hx, by simp; omega⟩

theorem zix_btree_rotate_right_eq (ka kb : List Nat) (A B : List ZixBTreeNode)
    (l c : ZixBTreeNode) (sep up : Nat) (j : Nat) (hA : A.length = j) (hka : ka.length = j)
    (hup : l.keys.getLast? = some up) :
    zix_btree_rotate_right (ka ++ sep :: kb) (A ++ l :: c :: B) j =
      .internal (ka ++ up :: kb)
        (A ++ l.with_contents l.keys.dropLast l.children.dropLast
          :: c.with_contents (sep :: c.keys) (l.children.getLast?.toList ++ c.children)
          :: B) := by
  unfold zix_btree_rotate_right
  rw [zix_getElem?_append_cons A _ l j hA, zix_getElem?_append_succ A B l c j hA,
    zix_getElem?_append_cons ka kb sep j hka]
  simp only [hup, zix_btree_aset]
  rw [zix_take_append_cons A _ j hA, zix_drop_append_succ2 A B l c j hA,
    zix_take_append_cons ka _ j hka, zix_drop_append_succ ka kb sep j hka]

theorem zix_btree_rotate_left_eq (ka kb : List Nat) (A B : List ZixBTreeNode)
    (c r : ZixBTreeNode) (sep up : Nat) (rest : List Nat) (i : Nat) (hA : A.length = i)
    (hka : ka.length = i) (hup : r.keys = up :: rest) :
    zix_btree_rotate_left (ka ++ sep :: kb) (A ++ c :: r :: B) i =
      .internal (ka ++ up :: kb)
        (A ++ c.with_contents (c.keys ++ [sep]) (c.children ++ r.children.head?.toList)
          :: r.with_contents rest r.children.tail
          :: B) := by
  unfold zix_btree_rotate_left
  rw [zix_getElem?_append_cons A _ c i hA, zix_getElem?_append_succ A B c r i hA,
    zix_getElem?_append_cons ka kb sep i hka]
  simp only [hup, zix_btree_aset]
  rw [zix_take_append_cons A _ i hA, zix_drop_append_succ2 A B c r i hA,
    zix_take_append_cons ka _ i hka, zix_drop_append_succ ka kb sep i hka]

theorem zix_btree_merge_eq (ka kb : List Nat) (A B : List ZixBTreeNode)
    (l r : ZixBTreeNode) (sep : Nat) (j : Nat) (hA : A.length = j) (hka : ka.length = j) :
    zix_btree_merge (ka ++ sep :: kb) (A ++ l :: r :: B) j =
      .internal (ka ++ kb)
        (A ++ l.with_contents (l.keys ++ sep :: r.keys) (l.children ++ r.children) :: B) := by
  unfold zix_btree_merge
  rw [zix_getElem?_append_cons A _ l j hA, zix_getElem?_append_succ A B l r j hA,
    zix_getElem?_append_cons ka kb sep j hka]
  simp only [zix_btree_aerase]
  rw [zix_take_append_cons A _ j hA, zix_drop_append_succ2 A B l r j hA,
    zix_take_append_cons ka _ j hka, zix_drop_append_succ ka kb sep j hka]

theorem zix_btree_children_inorder_pair (ka kb : List Nat) (A B : List ZixBTreeNode)
    (l c : ZixBTreeNode) (sep : Nat) (hA : A.length = ka.length) (hB : B.length = kb.length) :
    zix_btree_children_inorder (ka ++ sep :: kb) (A ++ l :: c :: B) =
      zix_btree_before ka A ++
        ((zix_btree_node_inorder l ++ sep :: zix_btree_node_inorder c) ++
          zix_btree_after kb B) := by
  rw [zix_btree_children_inorder_split ka (sep :: kb) A (c :: B) l hA (by simp; omega)]
  simp [zix_btree_after]

theorem zix_btree_can_spare_at (M : Nat) (A B : List ZixBTreeNode) (s : ZixBTreeNode) (j : Nat)
    (hA : A.length = j) :
    zix_btree_can_spare M (A ++ s :: B) j = decide (zix_btree_min_keys M < s.keys.length) := by
  unfold zix_btree_can_spare
  rw [zix_getElem?_append_cons A B s j hA]

theorem zix_btree_can_spare_none (M : Nat) (cs : List ZixBTreeNode) (j : Nat)
    (h : cs.length ≤ j) : zix_btree_can_spare M cs j = false := by
  unfold zix_btree_can_spare
  rw [List.getElem?_eq_none h]

/-- Repairing child `i` after it lost a key keeps the order of keys and restores
the shape of all children; the parent loses at most one key. -/
theorem zix_btree_rebalance_spec (M : Nat) (hM : 3 ≤ M) (h : Nat) (ks : List Nat)
    (A B : List ZixBTreeNode) (c : ZixBTreeNode) (i : Nat) (hi : A.length = i)
    (hlen : A.length + B.length = ks.length) (hk1 : 1 ≤ ks.length)
    (hA : ∀ x ∈ A, zix_btree_node_inv M h (zix_btree_min_keys M) x)
    (hB : ∀ x ∈ B, zix_btree_node_inv M h (zix_btree_min_keys M) x)
    (hc : zix_btree_node_inv M h (zix_btree_min_keys M - 1) c) :
    ∃ ks1 cs1, zix_btree_rebalance M ks (A ++ c :: B) i = .internal ks1 cs1 ∧
      cs1.length = ks1.length + 1 ∧ ks.length ≤ ks1.length + 1 ∧ ks1.length ≤ ks.length ∧
      (∀ x ∈ cs1, zix_btree_node_inv M h (zix_btree_min_keys M) x) ∧
      zix_btree_children_inorder ks1 cs1 = zix_btree_children_inorder ks (A ++ c :: B) := by
  have hmin1 := zix_min_keys_pos M hM
  have hmin2 := zix_min_keys_double M hM
  unfold zix_btree_rebalance
  rw [zix_getElem?_append_cons A B c i hi]
  simp only
  by_cases hunder : zix_btree_min_keys M ≤ c.keys.length
  · simp only [hunder, if_true]
    refine ⟨ks, A ++ c :: B, rfl, by simp; omega, by omega, le_refl _, ?_, rfl⟩
    intro x hx
    simp only [List.mem_append, List.mem_cons] at hx
    rcases hx with hx | hx | hx
    · exact hA x hx
    · subst hx; exact zix_btree_node_inv_relax M hunder hc
    · exact hB x hx
  · simp only [hunder, if_false]
    have hckeys := zix_btree_node_inv_keys M hc
    by_cases hleft : 0 < i ∧ zix_btree_can_spare M (A ++ c :: B) (i - 1) = true
    · simp only [hleft, and_self, if_true]
      obtain ⟨hipos, hsp⟩ := hleft
      obtain ⟨A1, l, eA, hA1⟩ := zix_list_snoc_len A (i - 1) (by omega)
      subst eA
      obtain ⟨ka, sep, kb, eks, hka⟩ := zix_list_split_len ks (i - 1) (by simp at hlen; omega)
      subst eks
      have ecs : A1 ++ [l] ++ c :: B = A1 ++ l :: c :: B := by simp
      rw [ecs] at hsp ⊢
      rw [zix_btree_can_spare_at M A1 _ l (i - 1) hA1] at hsp
      simp only [decide_eq_true_eq] at hsp
      obtain ⟨up, hup⟩ := zix_list_getLast?_of_pos l.keys (by omega)
      have hl := hA l (by simp)
      obtain ⟨p1, p2, p3⟩ := zix_btree_rotate_right_pair M hM h l c sep up hl hc hsp
        (by omega) hup
      rw [zix_btree_rotate_right_eq ka kb A1 B l c sep up (i - 1) hA1 hka hup]
      simp only [List.length_append, List.length_cons, List.length_nil] at hlen
      refine ⟨_, _, rfl, by simp; omega, by simp, by simp, ?_, ?_⟩
      · intro x hx
        simp only [List.mem_append, List.mem_cons] at hx
        rcases hx with hx | hx | hx | hx
        · exact hA x (by simp [hx])
        · subst hx; exact p1
        · subst hx; exact p2
        · exact hB x hx
      · rw [zix_btree_children_inorder_pair _ _ _ _ _ _ _ (by omega) (by omega),
          zix_btree_children_inorder_pair _ _ _ _ _ _ _ (by omega) (by omega), p3]
    · simp only [hleft, if_false]
      by_cases hright : zix_btree_can_spare M (A ++ c :: B) (i + 1) = true
      · simp only [hright, if_true]
        cases B with
        | nil =>
          rw [zix_btree_can_spare_none M _ _ (by simp; omega)] at hright
          cases hright
        | cons r B =>
          have hget : (A ++ c :: r :: B)[i + 1]? = some r :=
            zix_getElem?_append_succ A B c r i hi
          have hsp : zix_btree_min_keys M < r.keys.length := by
            unfold zix_btree_can_spare at hright
            rw [hget] at hright
            simpa using hright
          simp only [List.length_cons] at hlen
          obtain ⟨ka, sep, kb, eks, hka⟩ := zix_list_split_len ks i (by omega)
          subst eks
          cases hrk : r.keys with
          | nil => rw [hrk] at hsp; simp at hsp
          | cons up rest =>
            have hr := hB r (by simp)
            obtain ⟨p1, p2, p3⟩ := zix_btree_rotate_left_pair M hM h c r sep up rest hc hr hsp
              (by omega) hrk
            rw [zix_btree_rotate_left_eq ka kb A B c r sep up rest i hi hka hrk]
            simp only [List.length_append, List.length_cons] at hlen
            refine ⟨_, _, rfl, by simp; omega, by simp, by simp, ?_, ?_⟩
            · intro x hx
              simp only [List.mem_append, List.mem_cons] at hx
              rcases hx with hx | hx | hx | hx
              · exact hA x hx
              · subst hx; exact p1
              · subst hx; exact p2
              · exact hB x (by simp [hx])
            · rw [zix_btree_children_inorder_pair _ _ _ _ _ _ _ (by omega) (by omega),
                zix_btree_children_inorder_pair _ _ _ _ _ _ _ (by omega) (by omega), p3]
      · simp only [hright, if_false]
        by_cases hipos : 0 < i
        · simp only [hipos, if_true]
          obtain ⟨A1, l, eA, hA1⟩ := zix_list_snoc_len A (i - 1) (by omega)
          subst eA
          obtain ⟨ka, sep, kb, eks, hka⟩ := zix_list_split_len ks (i - 1)
            (by simp at hlen; omega)
          subst eks
          have ecs : A1 ++ [l] ++ c :: B = A1 ++ l :: c :: B := by simp
          rw [ecs] at hleft ⊢
          rw [zix_btree_can_spare_at M A1 _ l (i - 1) hA1] at hleft
          simp only [decide_eq_true_eq, not_and, not_lt] at hleft
          have hlk := hleft hipos
          have hl := hA l (by simp)
          have hlkeys := zix_btree_node_inv_keys M hl
          obtain ⟨p1, p2⟩ := zix_btree_merge_pair M h _ _ l c sep hl hc (by omega) (by omega)
          rw [zix_btree_merge_eq ka kb A1 B l c sep (i - 1) hA1 hka]
          simp only [List.length_append, List.length_cons, List.length_nil] at hlen
          refine ⟨_, _, rfl, by simp; omega, by simp; omega, by simp, ?_, ?_⟩
          · intro x hx
            simp only [List.mem_append, List.mem_cons] at hx
            rcases hx with hx | hx | hx
            · exact hA x (by simp [hx])
            · subst hx; exact p1
            · exact hB x hx
          · rw [zix_btree_children_inorder_pair _ _ _ _ _ _ _ (by omega) (by omega),
              zix_btree_children_inorder_split _ _ _ _ _ (by omega) (by omega), p2]
        · simp only [hipos, if_false]
          cases B with
          | nil => simp at hlen; omega
          | cons r B =>
            have hget : (A ++ c :: r :: B)[i + 1]? = some r :=
              zix_getElem?_append_succ A B c r i hi
            have hsp : r.keys.length ≤ zix_btree_min_keys M := by
              unfold zix_btree_can_spare at hright
              rw [hget] at hright
              simpa using hright
            simp only [List.length_cons] at hlen
            obtain ⟨ka, sep, kb, eks, hka⟩ := zix_list_split_len ks i (by omega)
            subst eks
            have hr := hB r (by simp)
            have hrkeys := zix_btree_node_inv_keys M hr
            obtain ⟨p1, p2⟩ := zix_btree_merge_pair M h _ _ c r sep hc hr (by omega) (by omega)
            rw [zix_btree_merge_eq ka kb A B c r sep i hi hka]
            simp only [List.length_append, List.length_cons] at hlen
            refine ⟨_, _, rfl, by simp; omega, by simp; omega, by simp, ?_, ?_⟩
            · intro x hx
              simp only [List.mem_append, List.mem_cons] at hx
              rcases hx with hx | hx | hx
              · exact hA x hx
              · subst hx; exact p1
              · exact hB x (by simp [hx])
            · rw [zix_btree_children_inorder_pair _ _ _ _ _ _ _ (by omega) (by omega),
                zix_btree_children_inorder_split _ _ _ _ _ (by omega) (by omega), p2]

/-! ## Removal below a node -/

theorem zix_drop_of_getElem? {α : Type} (xs : List α) (i : Nat) (x : α)
    (h : xs[i]? = some x) : xs.drop i = x :: xs.drop (i + 1) := by
  induction xs generalizing i with
  | nil => simp at h
  | cons y ys ih =>
    cases i with
    | zero => simp at h; simp [h]
    | succ i =>
      simp at h
      simp
      exact ih i h

/-- Replacing child `i` by a node that may be one key short and rebalancing
yields a well-shaped parent with the expected in-order sequence. -/
theorem zix_btree_rebalance_child (M : Nat) (hM : 3 ≤ M) (h lo : Nat) (ks : List Nat)
    (cs : List ZixBTreeNode) (c1 : ZixBTreeNode) (i : Nat)
    (hlen : cs.length = ks.length + 1) (hi : i ≤ ks.length) (hlo : lo ≤ ks.length)
    (hk1 : 1 ≤ ks.length) (hmax : ks.length ≤ M - 1)
    (hcs : ∀ c ∈ cs, zix_btree_node_inv M h (zix_btree_min_keys M) c)
    (hc1 : zix_btree_node_inv M h (zix_btree_min_keys M - 1) c1) :
    zix_btree_node_inv M (h + 1) (lo - 1) (zix_btree_rebalance M ks (zix_btree_aset cs i c1) i) ∧
      zix_btree_node_inorder (zix_btree_rebalance M ks (zix_btree_aset cs i c1) i) =
        zix_btree_before (ks.take i) (cs.take i) ++
          (zix_btree_node_inorder c1 ++ zix_btree_after (ks.drop i) (cs.drop (i + 1))) := by
  obtain ⟨ks1, cs1, e1, e2, e3, e4, e5, e6⟩ := zix_btree_rebalance_spec M hM h ks
    (cs.take i) (cs.drop (i + 1)) c1 i (by simp; omega) (by simp; omega) hk1
    (fun x hx => hcs x (List.mem_of_mem_take hx))
    (fun x hx => hcs x (List.mem_of_mem_drop hx)) hc1
  unfold zix_btree_aset
  rw [e1]
  constructor
  · simp only [zix_btree_node_inv]
    exact ⟨by omega, by omega, e2, e5⟩
  · simp only [zix_btree_node_inorder]
    rw [e6]
    have e := zix_btree_children_inorder_split (ks.take i) (ks.drop i) (cs.take i)
      (cs.drop (i + 1)) c1 (by simp; omega) (by simp; omega)
    rw [List.take_append_drop] at e
    exact e

theorem zix_btree_remove_max_spec (M : Nat) (hM : 3 ≤ M) : ∀ (h lo : Nat) (n : ZixBTreeNode),
    zix_btree_node_inv M h lo n → 1 ≤ lo →
    ∃ m n1, zix_btree_remove_max M n = some (m, n1) ∧ zix_btree_node_inv M h (lo - 1) n1 ∧
      zix_btree_node_inorder n = zix_btree_node_inorder n1 ++ [m] := by
  intro h
  induction h with
  | zero =>
    intro lo n hn hlo
    cases n with
    | internal ks cs => simp [zix_btree_node_inv] at hn
    | leaf ks =>
      simp only [zix_btree_node_inv] at hn
      obtain ⟨m, hm⟩ := zix_list_getLast?_of_pos ks (by omega)
      refine ⟨m, .leaf ks.dropLast, by simp [zix_btree_remove_max, hm], ?_, ?_⟩
      · simp [zix_btree_node_inv]; omega
      · simp only [zix_btree_node_inorder]
        exact zix_list_snoc ks m hm
  | succ h ih =>
    intro lo n hn hlo
    cases n with
    | leaf ks => simp [zix_btree_node_inv] at hn
    | internal ks cs =>
      simp only [zix_btree_node_inv] at hn
      obtain ⟨hlo1, hmax, hlen, hcs⟩ := hn
      obtain ⟨c, hci, hcmem, hview⟩ := zix_btree_view ks cs hlen ks.length (le_refl _)
      obtain ⟨m, c1, e1, e2, e3⟩ := ih _ c (hcs c hcmem) (zix_min_keys_pos M hM)
      obtain ⟨r1, r2⟩ := zix_btree_rebalance_child M hM h lo ks cs c1 ks.length hlen
        (le_refl _) hlo1 (by omega) hmax hcs e2
      refine ⟨m, _, ?_, r1, ?_⟩
      · simp only [zix_btree_remove_max]
        rw [zix_btree_remove_max_child_eq, hci]
        simp only [e1]
      · simp only [zix_btree_node_inorder]
        rw [r2, hview, e3]
        simp [zix_btree_after]

theorem zix_btree_removed_wrap {key : Nat} {old new P Q : List Nat}
    (h : zix_btree_removed key old new) :
    zix_btree_removed key (P ++ (old ++ Q)) (P ++ (new ++ Q)) := by
  obtain ⟨L, R, e1, e2⟩ := h
  subst e1 e2
  exact ⟨P ++ L, R ++ Q, by simp, by simp⟩

theorem zix_btree_removed_sublist {key : Nat} {old new : List Nat}
    (h : zix_btree_removed key old new) : new.Sublist old := by
  obtain ⟨L, R, e1, e2⟩ := h
  subst e1 e2
  exact List.Sublist.append_left (List.sublist_cons_self key R) L

theorem zix_btree_removed_sorted {cmp : Nat → Nat → Int} {key : Nat} {old new : List Nat}
    (h : zix_btree_removed key old new) (hs : zix_btree_sorted cmp old) :
    zix_btree_sorted cmp new :=
  List.Pairwise.sublist (zix_btree_removed_sublist h) hs

theorem zix_btree_removed_length {key : Nat} {old new : List Nat}
    (h : zix_btree_removed key old new) : old.length = new.length + 1 := by
  obtain ⟨L, R, e1, e2⟩ := h
  subst e1 e2
  simp only [List.length_append, List.length_cons]
  omega

theorem zix_btree_removed_mem {cmp : Nat → Nat → Int} (hc : ZixTotalOrder cmp) {key : Nat}
    {old new : List Nat} (h : zix_btree_removed key old new) (hs : zix_btree_sorted cmp old)
    (x : Nat) : x ∈ new ↔ x ∈ old ∧ x ≠ key := by
  obtain ⟨L, R, e1, e2⟩ := h
  subst e1 e2
  unfold zix_btree_sorted at hs
  rw [List.pairwise_append, List.pairwise_cons] at hs
  obtain ⟨_, ⟨h2, _⟩, h3⟩ := hs
  simp only [List.mem_append, List.mem_cons]
  constructor
  · rintro (hx | hx)
    · exact ⟨Or.inl hx, zix_lt_ne hc (h3 x hx key (by simp))⟩
    · exact ⟨Or.inr (Or.inr hx), fun e => zix_lt_ne hc (h2 x hx) e.symm⟩
  · rintro ⟨hx | hx | hx, hne⟩
    · exact Or.inl hx
    · exact absurd hx hne
    · exact Or.inr hx

theorem zix_btree_remove_node_spec {cmp : Nat → Nat → Int} (hc : ZixTotalOrder cmp) (M : Nat)
    (hM : 3 ≤ M) (key : Nat) : ∀ (h lo : Nat) (n : ZixBTreeNode),
      zix_btree_node_inv M h lo n → 1 ≤ lo →
      zix_btree_sorted cmp (zix_btree_node_inorder n) →
      (key ∉ zix_btree_node_inorder n → zix_btree_remove_node M cmp key n = none) ∧
      (key ∈ zix_btree_node_inorder n →
        ∃ n1, zix_btree_remove_node M cmp key n = some (key, n1) ∧
          zix_btree_node_inv M h (lo - 1) n1 ∧
          zix_btree_removed key (zix_btree_node_inorder n) (zix_btree_node_inorder n1)) := by
  intro h
  induction h with
  | zero =>
    intro lo n hn hlo hs
    cases n with
    | internal ks cs => simp [zix_btree_node_inv] at hn
    | leaf ks =>
      simp only [zix_btree_node_inv] at hn
      simp only [zix_btree_node_inorder] at hs ⊢
      simp only [zix_btree_remove_node]
      by_cases hm : zix_btree_node_match cmp key ks (zix_btree_node_find cmp key ks) = true
      · have hk := zix_btree_match_mem hc key ks _ hm
        simp only [hm, if_true, hk]
        refine ⟨fun hnot => absurd (zix_getElem?_mem _ _ _ hk) hnot, fun _ => ?_⟩
        refine ⟨_, rfl, ?_, ?_⟩
        · have := zix_getElem?_lt _ _ _ hk
          simp [zix_btree_node_inv, zix_btree_aerase]
          omega
        · exact ⟨_, _, zix_split_at ks _ key hk, rfl⟩
      · simp only [hm]
        simp only [Bool.not_eq_true] at hm
        obtain ⟨hb1, hb2⟩ := zix_btree_leaf_bounds hc key ks hs hm
        refine ⟨fun _ => by simp, fun hmem => ?_⟩
        exfalso
        rw [← List.take_append_drop (zix_btree_node_find cmp key ks) ks,
          List.mem_append] at hmem
        rcases hmem with hmem | hmem
        · exact zix_lt_irrefl hc key (hb1 key hmem)
        · exact zix_lt_irrefl hc key (hb2 key hmem)
  | succ h ih =>
    intro lo n hn hlo hs
    cases n with
    | leaf ks => simp [zix_btree_node_inv] at hn
    | internal ks cs =>
      simp only [zix_btree_node_inv] at hn
      obtain ⟨hlo1, hmax, hlen, hcs⟩ := hn
      simp only [zix_btree_node_inorder] at hs ⊢
      simp only [zix_btree_remove_node]
      have hile := zix_btree_node_find_le cmp key ks
      by_cases hm : zix_btree_node_match cmp key ks (zix_btree_node_find cmp key ks) = true
      · have hk := zix_btree_match_mem hc key ks _ hm
        have hlt := zix_getElem?_lt _ _ _ hk
        simp only [hm, if_true, hk]
        have hkmem := zix_btree_keys_subset ks cs hlen key (zix_getElem?_mem _ _ _ hk)
        refine ⟨fun hnot => absurd hkmem hnot, fun _ => ?_⟩
        obtain ⟨c, hci, hcmem, hview⟩ := zix_btree_view ks cs hlen
          (zix_btree_node_find cmp key ks) hile
        obtain ⟨p, c1, e1, e2, e3⟩ := zix_btree_remove_max_spec M hM h _ c (hcs c hcmem)
          (zix_min_keys_pos M hM)
        rw [zix_btree_remove_max_child_eq, hci]
        simp only [e1]
        obtain ⟨r1, r2⟩ := zix_btree_rebalance_child M hM h lo
          (zix_btree_aset ks (zix_btree_node_find cmp key ks) p) cs c1
          (zix_btree_node_find cmp key ks)
          (by simp [zix_btree_aset]; omega) (by simp [zix_btree_aset]; omega)
          (by simp [zix_btree_aset]; omega) (by simp [zix_btree_aset]; omega)
          (by simp [zix_btree_aset]; omega) hcs e2
        refine ⟨_, rfl, r1, ?_⟩
        rw [r2, hview, e3]
        have ek := zix_split_at ks _ key hk
        have et : (zix_btree_aset ks (zix_btree_node_find cmp key ks) p).take
            (zix_btree_node_find cmp key ks) = ks.take (zix_btree_node_find cmp key ks) :=
          zix_take_append_cons _ _ _ (by simp; omega)
        have ed : (zix_btree_aset ks (zix_btree_node_find cmp key ks) p).drop
            (zix_btree_node_find cmp key ks) =
              p :: ks.drop (zix_btree_node_find cmp key ks + 1) :=
          zix_drop_append_cons _ _ _ (by simp; omega)
        have ed2 : ks.drop (zix_btree_node_find cmp key ks) =
              key :: ks.drop (zix_btree_node_find cmp key ks + 1) := by
          exact zix_drop_of_getElem? ks _ key hk
        rw [et, ed, ed2]
        cases hB : cs.drop (zix_btree_node_find cmp key ks + 1) with
        | nil =>
          have : (cs.drop (zix_btree_node_find cmp key ks + 1)).length = 0 := by rw [hB]; rfl
          simp at this; omega
        | cons b B =>
          simp only [zix_btree_after]
          refine ⟨zix_btree_before (ks.take (zix_btree_node_find cmp key ks))
              (cs.take (zix_btree_node_find cmp key ks)) ++ (zix_btree_node_inorder c1 ++ [p]),
            zix_btree_node_inorder b ++
              zix_btree_after (ks.drop (zix_btree_node_find cmp key ks + 1)) B, ?_, ?_⟩
          · simp
          · simp
      · simp only [hm]
        simp only [Bool.not_eq_true] at hm
        obtain ⟨c, hci, hcmem, hsC, hview, hP, hQ⟩ := zix_btree_descend hc key ks cs hlen hs hm
        have hiff : key ∈ zix_btree_children_inorder ks cs ↔ key ∈ zix_btree_node_inorder c := by
          rw [hview]
          simp only [List.mem_append]
          constructor
          · rintro (h1 | h1 | h1)
            · exact absurd (hP key h1) (zix_lt_irrefl hc key)
            · exact h1
            · exact absurd (hQ key h1) (zix_lt_irrefl hc key)
          · intro h1; exact Or.inr (Or.inl h1)
        rw [zix_btree_remove_child_eq, hci]
        obtain ⟨ih1, ih2⟩ := ih _ c (hcs c hcmem) (zix_min_keys_pos M hM) hsC
        constructor
        · intro hnot
          simp [ih1 (fun h1 => hnot (hiff.2 h1))]
        · intro hmem
          obtain ⟨c1, e1, e2, e3⟩ := ih2 (hiff.1 hmem)
          simp only [e1]
          obtain ⟨r1, r2⟩ := zix_btree_rebalance_child M hM h lo ks cs c1
            (zix_btree_node_find cmp key ks) hlen hile hlo1 (by omega) hmax hcs e2
          refine ⟨_, rfl, r1, ?_⟩
          rw [r2, hview]
          exact zix_btree_removed_wrap e3

/-! ## Iteration -/

theorem zix_btree_begin_node_spec (M : Nat) (hM : 3 ≤ M) : ∀ (h lo : Nat) (n : ZixBTreeNode),
    zix_btree_node_inv M h lo n → 1 ≤ lo →
    zix_btree_path_in n (zix_btree_begin_node n) ∧
      zix_btree_iter_rest (zix_btree_begin_node n) = zix_btree_node_inorder n := by
  intro h
  induction h with
  | zero =>
    intro lo n hn hlo
    cases n with
    | internal ks cs => simp [zix_btree_node_inv] at hn
    | leaf ks =>
      simp only [zix_btree_node_inv] at hn
      simp [zix_btree_begin_node, zix_btree_path_in, zix_btree_iter_rest,
        zix_btree_node_suffix, zix_btree_node_inorder, ZixBTreeNode.keys]
      omega
  | succ h ih =>
    intro lo n hn hlo
    cases n with
    | leaf ks => simp [zix_btree_node_inv] at hn
    | internal ks cs =>
      simp only [zix_btree_node_inv] at hn
      obtain ⟨hlo1, hmax, hlen, hcs⟩ := hn
      cases cs with
      | nil => simp at hlen
      | cons c cs =>
        simp only [List.length_cons, add_left_inj] at hlen
        obtain ⟨i1, i2⟩ := ih _ c (hcs c (by simp)) (zix_min_keys_pos M hM)
        simp only [zix_btree_begin_node, zix_btree_begin_child]
        constructor
        · exact zix_btree_path_in_cons ks (c :: cs) 0 c _ (by simp) i1
        · simp only [zix_btree_iter_rest, zix_btree_node_suffix, zix_btree_node_inorder, i2]
          rw [zix_btree_children_inorder_cons ks c cs hlen]
          simp

theorem zix_btree_iter_step_spec (M : Nat) (hM : 3 ≤ M) : ∀ (h lo : Nat) (n : ZixBTreeNode)
    (p : ZixBTreeIter), zix_btree_node_inv M h lo n → zix_btree_path_in n p →
    ∃ k, zix_btree_get p = some k ∧
      zix_btree_iter_rest p = k ::
        (match zix_btree_iter_step p with
          | some q => zix_btree_iter_rest q
          | none => []) ∧
      ∀ q, zix_btree_iter_step p = some q → zix_btree_path_in n q := by
  intro h
  induction h with
  | zero =>
    intro lo n p hn hp
    cases n with
    | internal ks cs => simp [zix_btree_node_inv] at hn
    | leaf ks =>
      cases p with
      | nil => simp [zix_btree_path_in] at hp
      | cons f rest =>
        cases rest with
        | cons g rest =>
          obtain ⟨m, i⟩ := f
          simp [zix_btree_path_in, ZixBTreeNode.children] at hp
        | nil =>
          obtain ⟨m, i⟩ := f
          simp only [zix_btree_path_in, ZixBTreeNode.keys] at hp
          obtain ⟨e, hi⟩ := hp
          subst e
          refine ⟨ks[i], ?_, ?_, ?_⟩
          · simp [zix_btree_get_single, ZixBTreeNode.keys, List.getElem?_eq_getElem hi]
          · simp only [zix_btree_iter_step, zix_btree_iter_rest, zix_btree_node_suffix,
              List.nil_append]
            rw [zix_drop_of_getElem? ks i ks[i] (List.getElem?_eq_getElem hi)]
            by_cases h1 : i + 1 < ks.length
            · simp [h1, zix_btree_iter_rest, zix_btree_node_suffix]
            · simp only [h1, if_false]
              rw [List.drop_eq_nil_of_le (by omega)]
          · intro q hq
            simp only [zix_btree_iter_step] at hq
            by_cases h1 : i + 1 < ks.length
            · simp only [h1, if_true, Option.some.injEq] at hq
              subst hq
              simp [zix_btree_path_in, ZixBTreeNode.keys, h1]
            · simp [h1] at hq
  | succ h ih =>
    intro lo n p hn hp
    cases n with
    | leaf ks => simp [zix_btree_node_inv] at hn
    | internal ks cs =>
      simp only [zix_btree_node_inv] at hn
      obtain ⟨hlo1, hmax, hlen, hcs⟩ := hn
      cases p with
      | nil => simp [zix_btree_path_in] at hp
      | cons f rest =>
        obtain ⟨m, i⟩ := f
        cases rest with
        | nil =>
          simp only [zix_btree_path_in, ZixBTreeNode.keys] at hp
          obtain ⟨e, hi⟩ := hp
          subst e
          obtain ⟨c, hc⟩ := zix_getElem?_of_lt cs (i + 1) (by omega)
          have hcinv := hcs c (zix_getElem?_mem _ _ _ hc)
          obtain ⟨b1, b2⟩ := zix_btree_begin_node_spec M hM h _ c hcinv (zix_min_keys_pos M hM)
          refine ⟨ks[i], ?_, ?_, ?_⟩
          · simp [zix_btree_get_single, ZixBTreeNode.keys, List.getElem?_eq_getElem hi]
          · simp only [zix_btree_iter_step, hc, zix_btree_iter_rest, zix_btree_node_suffix,
              List.nil_append, b2]
            rw [zix_drop_of_getElem? ks i ks[i] (List.getElem?_eq_getElem hi),
              zix_drop_of_getElem? cs (i + 1) c hc]
            simp [zix_btree_after]
          · intro q hq
            simp only [zix_btree_iter_step, hc, Option.some.injEq] at hq
            subst hq
            exact zix_btree_path_in_cons ks cs (i + 1) c _ hc b1
        | cons g rest =>
          simp only [zix_btree_path_in, ZixBTreeNode.children] at hp
          obtain ⟨e, c, hc, hpc⟩ := hp
          subst e
          have hcinv := hcs c (zix_getElem?_mem _ _ _ hc)
          obtain ⟨k, k1, k2, k3⟩ := ih _ c (g :: rest) hcinv hpc
          refine ⟨k, ?_, ?_, ?_⟩
          · rw [zix_btree_get_cons]; exact k1
          · simp only [zix_btree_iter_step]
            cases hstep : zix_btree_iter_step (g :: rest) with
            | some q1 =>
              rw [hstep] at k2
              simp only [zix_btree_iter_rest] at k2 ⊢
              rw [k2]
              simp
            | none =>
              rw [hstep] at k2
              simp only [zix_btree_iter_rest] at k2 ⊢
              rw [k2]
              by_cases h1 : i < ks.length
              · simp [ZixBTreeNode.keys, h1, zix_btree_iter_rest]
              · simp only [ZixBTreeNode.keys, h1, if_false]
                simp only [zix_btree_node_suffix]
                rw [List.drop_eq_nil_of_le (by omega)]
                simp [zix_btree_after]
          · intro q hq
            simp only [zix_btree_iter_step] at hq
            cases hstep : zix_btree_iter_step (g :: rest) with
            | some q1 =>
              rw [hstep] at hq
              simp only [Option.some.injEq] at hq
              subst hq
              exact zix_btree_path_in_cons ks cs i c q1 hc (k3 q1 hstep)
            | none =>
              rw [hstep] at hq
              by_cases h1 : i < ks.length
              · simp only [ZixBTreeNode.keys, h1, if_true, Option.some.injEq] at hq
                subst hq
                simp [zix_btree_path_in, ZixBTreeNode.keys, h1]
              · simp [ZixBTreeNode.keys, h1] at hq

/-- The traversal loop started at a path runs once for each key from that
position on, and `get` yields these keys in order, provided the fuel covers
them. -/
theorem zix_btree_iter_walk_spec (M : Nat) (hM : 3 ≤ M) (h lo : Nat) (n : ZixBTreeNode)
    (hn : zix_btree_node_inv M h lo n) : ∀ (fuel : Nat) (p : ZixBTreeIter),
    (p = [] ∨ zix_btree_path_in n p) → (zix_btree_iter_rest p).length ≤ fuel →
    (zix_btree_iter_walk fuel p).map zix_btree_get = (zix_btree_iter_rest p).map some := by
  intro fuel
  induction fuel with
  | zero =>
    intro p hp hlen
    simp only [zix_btree_iter_walk]
    rcases hp with hp | hp
    · subst hp; rfl
    · obtain ⟨k, _, k2, _⟩ := zix_btree_iter_step_spec M hM h lo n p hn hp
      rw [k2] at hlen
      simp at hlen
  | succ fuel ih =>
    intro p hp hlen
    rcases hp with hp | hp
    · subst hp
      simp [zix_btree_iter_walk, zix_btree_iter_is_end, zix_btree_iter_rest]
    · obtain ⟨k, k1, k2, k3⟩ := zix_btree_iter_step_spec M hM h lo n p hn hp
      have hne := zix_btree_path_in_ne_nil hp
      have hend : zix_btree_iter_is_end p = false := by
        cases p with
        | nil => exact absurd rfl hne
        | cons a b => rfl
      simp only [zix_btree_iter_walk, hend]
      rw [k2] at hlen ⊢
      simp only [List.length_cons, add_le_add_iff_right] at hlen
      simp only [Bool.false_eq_true, if_false, List.map_cons, k1, List.cons.injEq, true_and]
      unfold zix_btree_iter_increment
      cases hstep : zix_btree_iter_step p with
      | some q =>
        rw [hstep] at hlen
        exact ih q (Or.inr (k3 q hstep)) hlen
      | none =>
        exact ih [] (Or.inl rfl) (by simp [zix_btree_end_iter, zix_btree_iter_rest])

/-! ## Lower bound below a node -/

/-- The lower-bound descent for a comparator whose sign is monotone along the
in-order sequence: the path found splits the sequence into the keys that do
not qualify and the keys from the path position on, the first of which
qualifies. -/
theorem zix_btree_lower_bound_node_spec (M : Nat) (cmpq : Nat → Nat → Int) (key : Nat) :
    ∀ (h lo : Nat) (n : ZixBTreeNode), zix_btree_node_inv M h lo n →
    (zix_btree_node_inorder n).Pairwise (fun a b => cmpq key a ≤ 0 → cmpq key b ≤ 0) →
    (zix_btree_lower_bound_node cmpq key n = none →
      ∀ x ∈ zix_btree_node_inorder n, ¬ cmpq key x ≤ 0) ∧
    (∀ p, zix_btree_lower_bound_node cmpq key n = some p →
      zix_btree_path_in n p ∧
      ∃ A k, zix_btree_node_inorder n = A ++ zix_btree_iter_rest p ∧
        (∀ a ∈ A, ¬ cmpq key a ≤ 0) ∧ zix_btree_get p = some k ∧ cmpq key k ≤ 0) := by
  intro h
  induction h with
  | zero =>
    intro lo n hn hs
    cases n with
    | internal ks cs => simp [zix_btree_node_inv] at hn
    | leaf ks =>
      simp only [zix_btree_node_inorder] at hs ⊢
      have e : zix_btree_lower_bound_node cmpq key (.leaf ks) =
          if zix_btree_node_find cmpq key ks < ks.length then
            some [(.leaf ks, zix_btree_node_find cmpq key ks)] else none := by
        simp only [zix_btree_lower_bound_node]
      have hle := zix_btree_node_find_le cmpq key ks
      have hbefore := zix_btree_node_find_before cmpq key ks
      by_cases hi : zix_btree_node_find cmpq key ks < ks.length
      · rw [e, if_pos hi]
        refine ⟨fun hh => (nomatch hh), ?_⟩
        intro p hp
        simp only [Option.some.injEq] at hp
        subst hp
        refine ⟨by simp [zix_btree_path_in, ZixBTreeNode.keys, hi], ?_⟩
        refine ⟨ks.take (zix_btree_node_find cmpq key ks),
          ks[zix_btree_node_find cmpq key ks], ?_, hbefore, ?_, ?_⟩
        · simp [zix_btree_iter_rest, zix_btree_node_suffix]
        · simp [zix_btree_get_single, ZixBTreeNode.keys, List.getElem?_eq_getElem hi]
        · exact zix_btree_node_find_at cmpq key ks _ (List.getElem?_eq_getElem hi)
      · rw [e, if_neg hi]
        refine ⟨fun _ => ?_, fun p hp => (nomatch hp)⟩
        intro x hx
        apply hbefore x
        rw [List.take_of_length_le (by omega)]
        exact hx
  | succ h ih =>
    intro lo n hn hs
    cases n with
    | leaf ks => simp [zix_btree_node_inv] at hn
    | internal ks cs =>
      simp only [zix_btree_node_inv] at hn
      obtain ⟨hlo1, hmax, hlen, hcs⟩ := hn
      simp only [zix_btree_node_inorder] at hs ⊢
      have hle := zix_btree_node_find_le cmpq key ks
      obtain ⟨c, hci, hcmem, hview⟩ := zix_btree_view ks cs hlen
        (zix_btree_node_find cmpq key ks) hle
      rw [hview] at hs ⊢
      rw [List.pairwise_append] at hs
      obtain ⟨hsP, hsR, _⟩ := hs
      rw [List.pairwise_append] at hsR
      obtain ⟨hsC, _, _⟩ := hsR
      have hP : ∀ x ∈ zix_btree_before (ks.take (zix_btree_node_find cmpq key ks))
          (cs.take (zix_btree_node_find cmpq key ks)), ¬ cmpq key x ≤ 0 := by
        intro x hx
        obtain ⟨k, hk, hr⟩ := zix_btree_before_bound _ _ _ hsP x hx
        have hnk := zix_btree_node_find_before cmpq key ks k hk
        rcases hr with hr | hr
        · subst hr; exact hnk
        · exact fun hxx => hnk (hr hxx)
      have e_some : ∀ q, zix_btree_lower_bound_node cmpq key c = some q →
          zix_btree_lower_bound_node cmpq key (.internal ks cs) =
            some ((.internal ks cs, zix_btree_node_find cmpq key ks) :: q) := by
        intro q hq
        simp only [zix_btree_lower_bound_node]
        rw [zix_btree_lower_bound_child_eq]
        simp only [hci, hq]
      have e_none : zix_btree_lower_bound_node cmpq key c = none →
          zix_btree_lower_bound_node cmpq key (.internal ks cs) =
            if zix_btree_node_find cmpq key ks < ks.length then
              some [(.internal ks cs, zix_btree_node_find cmpq key ks)] else none := by
        intro hq
        simp only [zix_btree_lower_bound_node]
        rw [zix_btree_lower_bound_child_eq]
        simp only [hci, hq]
      obtain ⟨ih1, ih2⟩ := ih _ c (hcs c hcmem) hsC
      cases hlb : zix_btree_lower_bound_node cmpq key c with
      | some q =>
        obtain ⟨q1, A, k, q2, q3, q4, q5⟩ := ih2 q hlb
        rw [e_some q hlb]
        refine ⟨fun hh => (nomatch hh), ?_⟩
        intro p hp
        simp only [Option.some.injEq] at hp
        subst hp
        refine ⟨zix_btree_path_in_cons ks cs _ c q hci q1, ?_⟩
        refine ⟨zix_btree_before (ks.take (zix_btree_node_find cmpq key ks))
          (cs.take (zix_btree_node_find cmpq key ks)) ++ A, k, ?_, ?_, ?_, q5⟩
        · simp only [zix_btree_iter_rest, zix_btree_node_suffix]
          rw [q2]
          simp
        · intro a ha
          rw [List.mem_append] at ha
          rcases ha with ha | ha
          · exact hP a ha
          · exact q3 a ha
        · rw [zix_btree_get_cons_path _ q1]; exact q4
      | none =>
        have hC := ih1 hlb
        rw [e_none hlb]
        by_cases hi : zix_btree_node_find cmpq key ks < ks.length
        · rw [if_pos hi]
          refine ⟨fun hh => (nomatch hh), ?_⟩
          intro p hp
          simp only [Option.some.injEq] at hp
          subst hp
          refine ⟨by simp [zix_btree_path_in, ZixBTreeNode.keys, hi], ?_⟩
          refine ⟨zix_btree_before (ks.take (zix_btree_node_find cmpq key ks))
            (cs.take (zix_btree_node_find cmpq key ks)) ++ zix_btree_node_inorder c,
            ks[zix_btree_node_find cmpq key ks], ?_, ?_, ?_, ?_⟩
          · simp [zix_btree_iter_rest, zix_btree_node_suffix]
          · intro a ha
            rw [List.mem_append] at ha
            rcases ha with ha | ha
            · exact hP a ha
            · exact hC a ha
          · simp [zix_btree_get_single, ZixBTreeNode.keys, List.getElem?_eq_getElem hi]
          · exact zix_btree_node_find_at cmpq key ks _ (List.getElem?_eq_getElem hi)
        · rw [if_neg hi]
          refine ⟨fun _ => ?_, fun p hp => (nomatch hp)⟩
          intro x hx
          rw [List.drop_eq_nil_of_le (by omega)] at hx
          simp only [zix_btree_after, List.append_nil, List.mem_append] at hx
          rcases hx with hx | hx
          · exact hP x hx
          · exact hC x hx

/-- Under a total order the sign of `cmp key ·` is monotone along a strictly
increasing sequence. -/
theorem zix_btree_sorted_monotone {cmp : Nat → Nat → Int} (hc : ZixTotalOrder cmp) (key : Nat)
    (l : List Nat) (hs : zix_btree_sorted cmp l) :
    l.Pairwise (fun a b => cmp key a ≤ 0 → cmp key b ≤ 0) := by
  unfold zix_btree_sorted at hs
  exact hs.imp (fun hab hka => Int.le_of_lt (zix_le_lt_trans hc hka hab))

/-! ## Comparators that agree on the stored keys -/

theorem zix_btree_node_find_congr (cmp1 cmp2 : Nat → Nat → Int) (key : Nat) (ks : List Nat)
    (h : ∀ x ∈ ks, cmp1 key x = cmp2 key x) :
    zix_btree_node_find cmp1 key ks = zix_btree_node_find cmp2 key ks := by
  induction ks with
  | nil => rfl
  | cons k ks ih =>
    simp only [zix_btree_node_find]
    rw [h k (by simp), ih (fun x hx => h x (by simp [hx]))]

theorem zix_btree_node_match_congr (cmp1 cmp2 : Nat → Nat → Int) (key : Nat) (ks : List Nat)
    (i : Nat) (h : ∀ x ∈ ks, cmp1 key x = cmp2 key x) :
    zix_btree_node_match cmp1 key ks i = zix_btree_node_match cmp2 key ks i := by
  unfold zix_btree_node_match
  cases hk : ks[i]? with
  | none => rfl
  | some k => simp only [h k (zix_getElem?_mem _ _ _ hk)]

theorem zix_btree_child_subset (ks : List Nat) (cs : List ZixBTreeNode)
    (hlen : cs.length = ks.length + 1) (c : ZixBTreeNode) (hc : c ∈ cs) :
    ∀ x ∈ zix_btree_node_inorder c, x ∈ zix_btree_children_inorder ks cs := by
  obtain ⟨i, hi, e⟩ := List.getElem_of_mem hc
  obtain ⟨c1, hc1, _, hview⟩ := zix_btree_view ks cs hlen i (by omega)
  rw [List.getElem?_eq_getElem hi, e] at hc1
  cases hc1
  intro x hx
  rw [hview]
  simp [hx]

theorem zix_btree_insert_node_congr (M : Nat) (cmp1 cmp2 : Nat → Nat → Int) (key : Nat) :
    ∀ (h lo : Nat) (n : ZixBTreeNode), zix_btree_node_inv M h lo n →
    (∀ x ∈ zix_btree_node_inorder n, cmp1 key x = cmp2 key x) →
    zix_btree_insert_node M cmp1 key n = zix_btree_insert_node M cmp2 key n := by
  intro h
  induction h with
  | zero =>
    intro lo n hn hag
    cases n with
    | internal ks cs => simp [zix_btree_node_inv] at hn
    | leaf ks =>
      simp only [zix_btree_node_inorder] at hag
      simp only [zix_btree_insert_node]
      rw [zix_btree_node_find_congr cmp1 cmp2 key ks hag,
        zix_btree_node_match_congr cmp1 cmp2 key ks _ hag]
  | succ h ih =>
    intro lo n hn hag
    cases n with
    | leaf ks => simp [zix_btree_node_inv] at hn
    | internal ks cs =>
      simp only [zix_btree_node_inv] at hn
      obtain ⟨hlo1, hmax, hlen, hcs⟩ := hn
      simp only [zix_btree_node_inorder] at hag
      have hagk : ∀ x ∈ ks, cmp1 key x = cmp2 key x :=
        fun x hx => hag x (zix_btree_keys_subset ks cs hlen x hx)
      simp only [zix_btree_insert_node]
      rw [zix_btree_node_find_congr cmp1 cmp2 key ks hagk,
        zix_btree_node_match_congr cmp1 cmp2 key ks _ hagk,
        zix_btree_insert_child_eq, zix_btree_insert_child_eq]
      cases hci : cs[zix_btree_node_find cmp2 key ks]? with
      | none => rfl
      | some c =>
        have hcmem := zix_getElem?_mem _ _ _ hci
        simp only
        rw [ih _ c (hcs c hcmem)
          (fun x hx => hag x (zix_btree_child_subset ks cs hlen c hcmem x hx))]

/-! ## The allocator -/

theorem zix_btree_reserve_grants : ∀ (n : Nat) (a : ZixAllocator),
    (zix_btree_reserve n a).2.grants = a.grants := by
  intro n
  induction n with
  | zero => intro a; rfl
  | succ n ih =>
    intro a
    simp only [zix_btree_reserve, zix_malloc]
    by_cases hg : a.grants a.n_allocations = true
    · simp only [hg, if_true]
      have := ih { a with n_allocations := a.n_allocations + 1, n_live := a.n_live + 1 }
      cases hr : zix_btree_reserve n
          { a with n_allocations := a.n_allocations + 1, n_live := a.n_live + 1 } with
      | mk b a2 =>
        rw [hr] at this
        cases b
        · simpa [zix_free] using this
        · simpa using this
    · simp [hg]

theorem zix_btree_reserve_ok : ∀ (n : Nat) (a : ZixAllocator),
    (∀ j, j < n → a.grants (a.n_allocations + j) = true) →
    zix_btree_reserve n a =
      (true, { a with n_allocations := a.n_allocations + n, n_live := a.n_live + n }) := by
  intro n
  induction n with
  | zero => intro a _; rfl
  | succ n ih =>
    intro a hg
    have h0 : a.grants a.n_allocations = true := by simpa using hg 0 (by omega)
    simp only [zix_btree_reserve, zix_malloc, h0, if_true]
    rw [ih _ (by
      intro j hj
      have := hg (j + 1) (by omega)
      simpa [Nat.add_assoc, Nat.add_comm 1 j] using this)]
    simp only [Prod.mk.injEq, true_and]
    congr 1 <;> omega

theorem zix_btree_reserve_fail : ∀ (n : Nat) (a : ZixAllocator),
    (∃ j, j < n ∧ a.grants (a.n_allocations + j) = false) →
    (zix_btree_reserve n a).1 = false ∧ (zix_btree_reserve n a).2.n_live = a.n_live := by
  intro n
  induction n with
  | zero => intro a ⟨j, hj, _⟩; omega
  | succ n ih =>
    intro a ⟨j, hj, hg⟩
    simp only [zix_btree_reserve, zix_malloc]
    by_cases h0 : a.grants a.n_allocations = true
    · simp only [h0, if_true]
      have hj0 : j ≠ 0 := by
        intro e; subst e; simp [h0] at hg
      obtain ⟨i1, i2⟩ := ih { a with n_allocations := a.n_allocations + 1, n_live := a.n_live + 1 }
        ⟨j - 1, by omega, by
          have e : a.n_allocations + 1 + (j - 1) = a.n_allocations + j := by omega
          simp only [e]; exact hg⟩
      cases hr : zix_btree_reserve n
          { a with n_allocations := a.n_allocations + 1, n_live := a.n_live + 1 } with
      | mk b a2 =>
        rw [hr] at i1 i2
        simp only at i1 i2
        subst i1
        simp [zix_free, i2]
    · simp [h0]

theorem zix_btree_reserve_true_iff (n : Nat) (a : ZixAllocator) :
    (zix_btree_reserve n a).1 = true ↔ ∀ j, j < n → a.grants (a.n_allocations + j) = true := by
  constructor
  · intro h j hj
    by_contra hg
    have := (zix_btree_reserve_fail n a ⟨j, hj, by simpa using hg⟩).1
    rw [this] at h
    cases h
  · intro h
    rw [zix_btree_reserve_ok n a h]

/-! ## Tree-level operations -/

theorem zix_btree_valid_for_new (cmp0 : Nat → Nat → Int) (M : Nat) (cmp : Nat → Nat → Int)
    (hM : 3 ≤ M) : zix_btree_valid_for cmp0 (zix_btree_new M cmp) := by
  simp [zix_btree_valid_for, zix_btree_new, hM]

theorem zix_btree_valid_for_root {cmp0 : Nat → Nat → Int} {t : ZixBTree} {n : ZixBTreeNode}
    (hv : zix_btree_valid_for cmp0 t) (hr : t.root = some n) :
    3 ≤ t.fanout ∧ zix_btree_node_inv t.fanout (zix_btree_node_height n) 1 n ∧
      zix_btree_sorted cmp0 (zix_btree_node_inorder n) ∧
      t.size = (zix_btree_node_inorder n).length := by
  unfold zix_btree_valid_for at hv
  rw [hr] at hv
  exact hv

theorem zix_btree_valid_for_mk {cmp0 : Nat → Nat → Int} (M : Nat) (cmp : Nat → Nat → Int)
    (n : ZixBTreeNode) (sz h : Nat) (hM : 3 ≤ M)
    (hn : zix_btree_node_inv M h 1 n)
    (hs : zix_btree_sorted cmp0 (zix_btree_node_inorder n))
    (hsz : sz = (zix_btree_node_inorder n).length) :
    zix_btree_valid_for cmp0 { fanout := M, cmp := cmp, root := some n, size := sz } := by
  unfold zix_btree_valid_for
  refine ⟨hM, ?_, hs, hsz⟩
  rw [zix_btree_node_inv_height M h 1 n hn]
  exact hn

theorem zix_btree_insert_spec {cmp0 : Nat → Nat → Int} (hc : ZixTotalOrder cmp0)
    (t : ZixBTree) (e : Nat) (a : ZixAllocator) (hv : zix_btree_valid_for cmp0 t)
    (hag : ∀ x ∈ zix_btree_inorder t, t.cmp e x = cmp0 e x) :
    (e ∈ zix_btree_inorder t → zix_btree_insert t e a = (ZIX_STATUS_EXISTS, t, a)) ∧
    (e ∉ zix_btree_inorder t →
      ((zix_btree_reserve (zix_btree_insert_requests t e) a).1 = true →
        ∃ t1, zix_btree_insert t e a =
            (ZIX_STATUS_SUCCESS, t1, (zix_btree_reserve (zix_btree_insert_requests t e) a).2) ∧
          zix_btree_valid_for cmp0 t1 ∧ t1.cmp = t.cmp ∧ t1.fanout = t.fanout ∧
          t1.size = t.size + 1 ∧
          zix_btree_inserted cmp0 e (zix_btree_inorder t) (zix_btree_inorder t1)) ∧
      ((zix_btree_reserve (zix_btree_insert_requests t e) a).1 = false →
        zix_btree_insert t e a =
          (ZIX_STATUS_NO_MEM, t, (zix_btree_reserve (zix_btree_insert_requests t e) a).2))) := by
  obtain ⟨M, cmp, root, sz⟩ := t
  cases root with
  | none =>
    have hM : 3 ≤ M := hv.1
    simp only [zix_btree_inorder, zix_btree_insert, zix_btree_insert_requests]
    refine ⟨fun hmem => by simp at hmem, fun _ => ?_⟩
    cases hr : zix_btree_reserve 1 a with
    | mk b a1 =>
      cases b
      · simp
      · simp only [true_implies, Bool.true_eq_false, false_implies, and_true]
        refine ⟨_, rfl, ?_, rfl, rfl, rfl, ?_⟩
        · exact zix_btree_valid_for_mk M cmp _ _ 0 hv.1
            (by simp [zix_btree_node_inv]; omega)
            (by simp [zix_btree_sorted, zix_btree_node_inorder])
            (by
              have := hv.2
              simp only at this
              simp [zix_btree_node_inorder, this])
        · exact ⟨[], [], by simp [zix_btree_node_inorder], by simp [zix_btree_node_inorder],
            by simp, by simp⟩
  | some n =>
    obtain ⟨hM, hn, hs, hsz⟩ := zix_btree_valid_for_root hv rfl
    simp only at hM hn hsz
    simp only [zix_btree_inorder] at hag ⊢
    have hcongr := zix_btree_insert_node_congr M cmp cmp0 e _ 1 n hn hag
    obtain ⟨s1, s2⟩ := zix_btree_insert_node_spec hc M hM e _ 1 n hn hs
    simp only [zix_btree_insert, zix_btree_insert_requests]
    rw [hcongr]
    constructor
    · intro hmem
      rw [s1 hmem]
    · intro hnot
      rcases s2 hnot with ⟨n1, e1, e2, e3⟩ | ⟨l, m, r, e1, e2, e3, e4⟩
      · rw [e1]
        simp only
        cases hr : zix_btree_reserve (zix_btree_insert_allocs M cmp e n) a with
        | mk b a1 =>
          cases b
          · simp
          · simp only [true_implies, Bool.true_eq_false, false_implies, and_true]
            refine ⟨_, rfl, ?_, rfl, rfl, rfl, e3⟩
            exact zix_btree_valid_for_mk M cmp n1 _ _ hM e2
              (zix_btree_inserted_sorted e3 hs)
              (by rw [zix_btree_inserted_length e3, hsz])
      · rw [e1]
        simp only
        have hino : zix_btree_node_inorder (.internal [m] [l, r]) =
            zix_btree_node_inorder l ++ m :: zix_btree_node_inorder r := by
          simp [zix_btree_node_inorder, zix_btree_children_inorder]
        cases hr : zix_btree_reserve (zix_btree_insert_allocs M cmp e n) a with
        | mk b a1 =>
          cases b
          · simp
          · simp only [true_implies, Bool.true_eq_false, false_implies, and_true]
            refine ⟨_, rfl, ?_, rfl, rfl, rfl, ?_⟩
            swap
            · show zix_btree_inserted cmp0 e _ (zix_btree_node_inorder (.internal [m] [l, r]))
              rw [hino]; exact e4
            refine zix_btree_valid_for_mk M cmp _ _ (zix_btree_node_height n + 1) hM ?_ ?_ ?_
            · simp only [zix_btree_node_inv]
              refine ⟨by simp, by simp; omega, by simp, ?_⟩
              intro c hcm
              simp only [List.mem_cons, List.mem_singleton, List.not_mem_nil, or_false] at hcm
              rcases hcm with hcm | hcm
              · subst hcm; exact e2
              · subst hcm; exact e3
            · rw [hino]; exact zix_btree_inserted_sorted e4 hs
            · rw [hino, zix_btree_inserted_length e4, hsz]

/-! ## The successor of a removed key -/

/-- The keys from a path position on are a final segment of the in-order
sequence of the subtree. -/
theorem zix_btree_path_suffix (M : Nat) : ∀ (h lo : Nat) (n : ZixBTreeNode)
    (p : ZixBTreeIter), zix_btree_node_inv M h lo n → zix_btree_path_in n p →
    ∃ A, zix_btree_node_inorder n = A ++ zix_btree_iter_rest p := by
  intro h
  induction h with
  | zero =>
    intro lo n p hn hp
    cases n with
    | internal ks cs => simp [zix_btree_node_inv] at hn
    | leaf ks =>
      cases p with
      | nil => simp [zix_btree_path_in] at hp
      | cons f rest =>
        obtain ⟨m, i⟩ := f
        cases rest with
        | cons g rest => simp [zix_btree_path_in, ZixBTreeNode.children] at hp
        | nil =>
          simp only [zix_btree_path_in] at hp
          obtain ⟨e, _⟩ := hp
          subst e
          exact ⟨ks.take i, by
            simp [zix_btree_iter_rest, zix_btree_node_suffix, zix_btree_node_inorder]⟩
  | succ h ih =>
    intro lo n p hn hp
    cases n with
    | leaf ks => simp [zix_btree_node_inv] at hn
    | internal ks cs =>
      simp only [zix_btree_node_inv] at hn
      obtain ⟨_, _, hlen, hcs⟩ := hn
      cases p with
      | nil => simp [zix_btree_path_in] at hp
      | cons f rest =>
        obtain ⟨m, i⟩ := f
        cases rest with
        | nil =>
          simp only [zix_btree_path_in, ZixBTreeNode.keys] at hp
          obtain ⟨e, hi⟩ := hp
          subst e
          obtain ⟨c, _, _, hview⟩ := zix_btree_view ks cs hlen i (by omega)
          refine ⟨zix_btree_before (ks.take i) (cs.take i) ++ zix_btree_node_inorder c, ?_⟩
          simp only [zix_btree_node_inorder, zix_btree_iter_rest, zix_btree_node_suffix]
          rw [hview]
          simp
        | cons g rest =>
          simp only [zix_btree_path_in, ZixBTreeNode.children] at hp
          obtain ⟨e, c, hc, hpc⟩ := hp
          subst e
          have hi := zix_getElem?_lt _ _ _ hc
          obtain ⟨c1, hc1, _, hview⟩ := zix_btree_view ks cs hlen i (by omega)
          rw [hc] at hc1
          cases hc1
          obtain ⟨A, hA⟩ := ih _ c (g :: rest) (hcs c (zix_getElem?_mem _ _ _ hc)) hpc
          refine ⟨zix_btree_before (ks.take i) (cs.take i) ++ A, ?_⟩
          simp only [zix_btree_node_inorder]
          rw [hview, hA]
          simp only [zix_btree_iter_rest, zix_btree_node_suffix]
          simp

theorem zix_btree_node_separates (M : Nat) (cmp : Nat → Nat → Int) (h lo : Nat)
    (m : ZixBTreeNode) (hm : zix_btree_node_inv M h lo m)
    (hs : zix_btree_sorted cmp (zix_btree_node_inorder m)) (i k : Nat)
    (hk : m.keys[i]? = some k) :
    (∀ c, m.children[i]? = some c → ∀ x ∈ zix_btree_node_inorder c, cmp x k < 0) ∧
    (∀ c, m.children[i + 1]? = some c → ∀ x ∈ zix_btree_node_inorder c, cmp k x < 0) := by
  cases m with
  | leaf ks => simp [ZixBTreeNode.children]
  | internal ks cs =>
    rw [zix_btree_node_inv_internal] at hm
    obtain ⟨_, _, _, _, hlen, _⟩ := hm
    simp only [ZixBTreeNode.keys, ZixBTreeNode.children] at hk ⊢
    have hi := zix_getElem?_lt _ _ _ hk
    obtain ⟨c1, hc1, _, hview⟩ := zix_btree_view ks cs hlen i (by omega)
    obtain ⟨c2, hc2⟩ := zix_getElem?_of_lt cs (i + 1) (by omega)
    simp only [zix_btree_node_inorder] at hs
    rw [hview, zix_drop_of_getElem? ks i k hk, zix_drop_of_getElem? cs (i + 1) c2 hc2] at hs
    simp only [zix_btree_after] at hs
    unfold zix_btree_sorted at hs
    rw [List.pairwise_append] at hs
    obtain ⟨_, hs2, _⟩ := hs
    rw [List.pairwise_append] at hs2
    obtain ⟨_, hs3, hs4⟩ := hs2
    rw [List.pairwise_cons] at hs3
    constructor
    · intro c hc x hx
      rw [hc1] at hc
      cases hc
      exact hs4 x hx k (by simp)
    · intro c hc x hx
      rw [hc2] at hc
      cases hc
      exact hs3.1 x (by simp [hx])

theorem zix_btree_node_find_sign (cmp : Nat → Nat → Int) (s k : Nat) (ks : List Nat)
    (h : ∀ x ∈ ks, (cmp s x ≤ 0 ↔ cmp k x ≤ 0)) :
    zix_btree_node_find cmp s ks = zix_btree_node_find cmp k ks := by
  induction ks with
  | nil => rfl
  | cons x ks ih =>
    simp only [zix_btree_node_find]
    rw [ih (fun y hy => h y (by simp [hy]))]
    by_cases hx : cmp k x ≤ 0
    · simp [hx, (h x (by simp)).2 hx]
    · have : ¬ cmp s x ≤ 0 := fun hh => hx ((h x (by simp)).1 hh)
      simp [hx, this]

/-- When `s` is the least stored key above the absent key `k`, the search for
`s` and the lower-bound descent for `k` yield the same path. -/
theorem zix_btree_find_eq_lower_bound {cmp : Nat → Nat → Int} (hc : ZixTotalOrder cmp)
    (M : Nat) (hM : 3 ≤ M) (k s : Nat) : ∀ (h lo : Nat) (n : ZixBTreeNode),
    zix_btree_node_inv M h lo n →
    zix_btree_sorted cmp (zix_btree_node_inorder n) →
    (∀ x ∈ zix_btree_node_inorder n, (cmp s x ≤ 0 ↔ cmp k x ≤ 0)) →
    s ∈ zix_btree_node_inorder n →
    zix_btree_find_node cmp s n = zix_btree_lower_bound_node cmp k n := by
  intro h
  induction h with
  | zero =>
    intro lo n hn hs hsign hmem
    cases n with
    | internal ks cs => simp [zix_btree_node_inv] at hn
    | leaf ks =>
      simp only [zix_btree_node_inorder] at hs hsign hmem
      simp only [zix_btree_find_node, zix_btree_lower_bound_node]
      rw [← zix_btree_node_find_sign cmp s k ks hsign]
      have hm : zix_btree_node_match cmp s ks (zix_btree_node_find cmp s ks) = true := by
        by_contra hm
        simp only [Bool.not_eq_true] at hm
        obtain ⟨hb1, hb2⟩ := zix_btree_leaf_bounds hc s ks hs hm
        rw [← List.take_append_drop (zix_btree_node_find cmp s ks) ks,
          List.mem_append] at hmem
        rcases hmem with hmem | hmem
        · exact zix_lt_irrefl hc s (hb1 s hmem)
        · exact zix_lt_irrefl hc s (hb2 s hmem)
      have hlt := zix_getElem?_lt _ _ _ (zix_btree_match_mem hc s ks _ hm)
      simp [hm, hlt]
  | succ h ih =>
    intro lo n hn hs hsign hmem
    cases n with
    | leaf ks => simp [zix_btree_node_inv] at hn
    | internal ks cs =>
      have hn0 := hn
      simp only [zix_btree_node_inv] at hn
      obtain ⟨_, _, hlen, hcs⟩ := hn
      simp only [zix_btree_node_inorder] at hs hsign hmem
      have hsignk : ∀ x ∈ ks, (cmp s x ≤ 0 ↔ cmp k x ≤ 0) :=
        fun x hx => hsign x (zix_btree_keys_subset ks cs hlen x hx)
      have hfind := zix_btree_node_find_sign cmp s k ks hsignk
      have hile := zix_btree_node_find_le cmp s ks
      simp only [zix_btree_find_node, zix_btree_lower_bound_node]
      rw [← hfind, zix_btree_find_child_eq, zix_btree_lower_bound_child_eq]
      by_cases hm : zix_btree_node_match cmp s ks (zix_btree_node_find cmp s ks) = true
      · have hk := zix_btree_match_mem hc s ks _ hm
        have hlt := zix_getElem?_lt _ _ _ hk
        obtain ⟨c, hci, hcmem, _⟩ := zix_btree_view ks cs hlen
          (zix_btree_node_find cmp s ks) hile
        have hsep := (zix_btree_node_separates M cmp _ lo (.internal ks cs) hn0
          (by simpa [zix_btree_node_inorder] using hs) (zix_btree_node_find cmp s ks) s
          (by simpa [ZixBTreeNode.keys] using hk)).1 c
          (by simpa [ZixBTreeNode.children] using hci)
        have hsC : zix_btree_sorted cmp (zix_btree_node_inorder c) := by
          obtain ⟨c1, hc1, _, hview⟩ := zix_btree_view ks cs hlen
            (zix_btree_node_find cmp s ks) hile
          rw [hci] at hc1
          cases hc1
          rw [hview] at hs
          exact (zix_btree_sorted_append (zix_btree_sorted_append hs).2).1
        have hnone : zix_btree_lower_bound_node cmp k c = none := by
          cases hlb : zix_btree_lower_bound_node cmp k c with
          | none => rfl
          | some q =>
            exfalso
            obtain ⟨q1, A, x, q2, _, q4, q5⟩ :=
              (zix_btree_lower_bound_node_spec M cmp k _ _ c (hcs c hcmem)
                (zix_btree_sorted_monotone hc k _ hsC)).2 q hlb
            obtain ⟨x1, r1, r2, _⟩ := zix_btree_iter_step_spec M hM _ _ c q (hcs c hcmem) q1
            rw [q4] at r1
            cases r1
            have hxc : x ∈ zix_btree_node_inorder c := by rw [q2, r2]; simp
            have hxs := hsep x hxc
            have := (hsign x (zix_btree_child_subset ks cs hlen c hcmem x hxc)).2 q5
            exact zix_lt_asymm hc hxs this
        simp [hm, hci, hnone, hlt]
      · simp only [hm]
        simp only [Bool.not_eq_true] at hm
        obtain ⟨c, hci, hcmem, hsC, hview, hP, hQ⟩ := zix_btree_descend hc s ks cs hlen hs hm
        have hsc : s ∈ zix_btree_node_inorder c := by
          rw [hview] at hmem
          simp only [List.mem_append] at hmem
          rcases hmem with h1 | h1 | h1
          · exact absurd (hP s h1) (zix_lt_irrefl hc s)
          · exact h1
          · exact absurd (hQ s h1) (zix_lt_irrefl hc s)
        have hih := ih _ c (hcs c hcmem) hsC
          (fun x hx => hsign x (zix_btree_child_subset ks cs hlen c hcmem x hx)) hsc
        obtain ⟨p, hp, _⟩ := (zix_btree_find_node_spec hc M s _ _ c (hcs c hcmem) hsC).1 hsc
        rw [hci]
        simp only [Bool.false_eq_true, if_false]
        rw [← hih, hp]

theorem zix_btree_sorted_split_unique {cmp : Nat → Nat → Int} (hc : ZixTotalOrder cmp)
    (e : Nat) : ∀ (A L R1 R2 : List Nat), zix_btree_sorted cmp (A ++ e :: R1) →
    A ++ e :: R1 = L ++ e :: R2 → A = L ∧ R1 = R2 := by
  intro A
  induction A with
  | nil =>
    intro L R1 R2 hs heq
    cases L with
    | nil => simpa using heq
    | cons l L =>
      exfalso
      simp only [List.nil_append, List.cons_append, List.cons.injEq] at heq
      obtain ⟨e1, e2⟩ := heq
      subst e1
      unfold zix_btree_sorted at hs
      simp only [List.nil_append, List.pairwise_cons] at hs
      exact zix_lt_irrefl hc e (hs.1 e (by rw [e2]; simp))
  | cons a A ih =>
    intro L R1 R2 hs heq
    cases L with
    | nil =>
      exfalso
      simp only [List.nil_append, List.cons_append, List.cons.injEq] at heq
      obtain ⟨e1, e2⟩ := heq
      subst e1
      unfold zix_btree_sorted at hs
      simp only [List.cons_append, List.pairwise_cons] at hs
      exact zix_lt_irrefl hc a (hs.1 a (by simp))
    | cons l L =>
      simp only [List.cons_append, List.cons.injEq] at heq
      obtain ⟨e1, e2⟩ := heq
      subst e1
      unfold zix_btree_sorted at hs
      simp only [List.cons_append, List.pairwise_cons] at hs
      obtain ⟨i1, i2⟩ := ih L R1 R2 hs.2 e2
      exact ⟨by rw [i1], i2⟩

theorem zix_btree_shrink_root_spec (M : Nat) (hM : 3 ≤ M) (h : Nat) (n1 : ZixBTreeNode)
    (hn : zix_btree_node_inv M h 0 n1) :
    (zix_btree_shrink_root n1 = none ∧ zix_btree_node_inorder n1 = []) ∨
    (∃ r hr, zix_btree_shrink_root n1 = some r ∧ zix_btree_node_inv M hr 1 r ∧
      zix_btree_node_inorder r = zix_btree_node_inorder n1) := by
  cases n1 with
  | leaf ks =>
    cases ks with
    | nil => left; simp [zix_btree_shrink_root, zix_btree_node_inorder]
    | cons k ks =>
      right
      refine ⟨_, h, rfl, ?_, rfl⟩
      exact zix_btree_node_inv_relax M (by simp [ZixBTreeNode.keys]) hn
  | internal ks cs =>
    cases ks with
    | cons k ks =>
      right
      refine ⟨_, h, rfl, ?_, rfl⟩
      exact zix_btree_node_inv_relax M (by simp [ZixBTreeNode.keys]) hn
    | nil =>
      rw [zix_btree_node_inv_internal] at hn
      obtain ⟨h1, e, _, _, hlen, hcs⟩ := hn
      cases cs with
      | nil => simp at hlen
      | cons c cs =>
        cases cs with
        | cons d cs => simp at hlen
        | nil =>
          right
          refine ⟨c, h1, rfl, ?_, ?_⟩
          · exact zix_btree_node_inv_mono M (zix_min_keys_pos M hM) (hcs c (by simp))
          · simp [zix_btree_node_inorder, zix_btree_children_inorder]

theorem zix_btree_find_spec (t : ZixBTree) (e : Nat) (hc : ZixTotalOrder t.cmp)
    (hv : zix_btree_valid t) :
    (e ∈ zix_btree_inorder t →
      ∃ it, zix_btree_find t e = (ZIX_STATUS_SUCCESS, it) ∧ zix_btree_get it = some e) ∧
    (e ∉ zix_btree_inorder t →
      zix_btree_find t e = (ZIX_STATUS_NOT_FOUND, zix_btree_end_iter)) := by
  obtain ⟨M, cmp, root, sz⟩ := t
  simp only at hc
  cases root with
  | none => simp [zix_btree_inorder, zix_btree_find]
  | some n =>
    obtain ⟨hM, hn, hs, hsz⟩ := zix_btree_valid_for_root hv rfl
    simp only at hM hn hsz hs
    simp only [zix_btree_inorder]
    obtain ⟨s1, s2⟩ := zix_btree_find_node_spec hc M e _ 1 n hn hs
    constructor
    · intro hmem
      obtain ⟨p, p1, p2, _⟩ := s1 hmem
      exact ⟨p, by simp [zix_btree_find, p1], p2⟩
    · intro hnot
      simp [zix_btree_find, s2 hnot]

/-- The iterator returned by `lower_bound` splits the stored key sequence into
the keys that do not qualify and the keys from the iterator on; it is the
`end` sentinel, or refers to a qualifying key. -/
theorem zix_btree_lower_bound_spec {cmp0 : Nat → Nat → Int} (t : ZixBTree)
    (hv : zix_btree_valid_for cmp0 t) (cmpq : Nat → Nat → Int) (key : Nat)
    (hmono : (zix_btree_inorder t).Pairwise (fun a b => cmpq key a ≤ 0 → cmpq key b ≤ 0)) :
    ∃ it, zix_btree_lower_bound t cmpq key = (ZIX_STATUS_SUCCESS, it) ∧
      ∃ A, zix_btree_inorder t = A ++ zix_btree_iter_rest it ∧
        (∀ a ∈ A, ¬ cmpq key a ≤ 0) ∧
        ((it = [] ∧ zix_btree_iter_rest it = []) ∨
          ∃ k rest, zix_btree_get it = some k ∧ cmpq key k ≤ 0 ∧
            zix_btree_iter_rest it = k :: rest ∧
            ∃ n, t.root = some n ∧ zix_btree_path_in n it) := by
  obtain ⟨M, cmp, root, sz⟩ := t
  cases root with
  | none =>
    refine ⟨[], by simp [zix_btree_lower_bound, zix_btree_end_iter], [], ?_, by simp, ?_⟩
    · simp [zix_btree_inorder, zix_btree_iter_rest]
    · left; simp [zix_btree_iter_rest]
  | some n =>
    obtain ⟨hM, hn, hs, hsz⟩ := zix_btree_valid_for_root hv rfl
    simp only at hM hn hsz hs
    simp only [zix_btree_inorder] at hmono ⊢
    obtain ⟨s1, s2⟩ := zix_btree_lower_bound_node_spec M cmpq key _ 1 n hn hmono
    cases hlb : zix_btree_lower_bound_node cmpq key n with
    | none =>
      refine ⟨[], by simp [zix_btree_lower_bound, zix_btree_end_iter, hlb],
        zix_btree_node_inorder n, by simp [zix_btree_iter_rest], s1 hlb, ?_⟩
      left; simp [zix_btree_iter_rest]
    | some p =>
      obtain ⟨p1, A, k, p2, p3, p4, p5⟩ := s2 p hlb
      obtain ⟨k1, q1, q2, _⟩ := zix_btree_iter_step_spec M hM _ 1 n p hn p1
      rw [p4] at q1
      cases q1
      refine ⟨p, by simp [zix_btree_lower_bound, hlb], A, p2, p3, ?_⟩
      right
      exact ⟨k, _, p4, p5, q2, n, rfl, p1⟩

theorem zix_btree_walk_spec {cmp0 : Nat → Nat → Int} (t : ZixBTree)
    (hv : zix_btree_valid_for cmp0 t) (fuel : Nat) (hf : t.size ≤ fuel) :
    (zix_btree_iter_walk fuel (zix_btree_begin t)).map zix_btree_get =
      (zix_btree_inorder t).map some := by
  obtain ⟨M, cmp, root, sz⟩ := t
  cases root with
  | none =>
    cases fuel <;>
      simp [zix_btree_begin, zix_btree_inorder, zix_btree_iter_walk, zix_btree_end_iter,
        zix_btree_iter_is_end]
  | some n =>
    obtain ⟨hM, hn, hs, hsz⟩ := zix_btree_valid_for_root hv rfl
    simp only at hM hn hsz hs hf
    simp only [zix_btree_begin, zix_btree_inorder]
    obtain ⟨b1, b2⟩ := zix_btree_begin_node_spec M hM _ 1 n hn (le_refl _)
    rw [← b2]
    exact zix_btree_iter_walk_spec M hM _ 1 n hn fuel _ (Or.inr b1) (by rw [b2]; omega)

theorem zix_btree_iter_spec {cmp0 : Nat → Nat → Int} (t : ZixBTree)
    (hv : zix_btree_valid_for cmp0 t) (fuel : Nat) (it : ZixBTreeIter)
    (hit : it = [] ∨ ∃ n, t.root = some n ∧ zix_btree_path_in n it)
    (hf : (zix_btree_iter_rest it).length ≤ fuel) :
    (zix_btree_iter_walk fuel it).map zix_btree_get = (zix_btree_iter_rest it).map some := by
  rcases hit with hit | ⟨n, hr, hp⟩
  · subst hit
    cases fuel <;> simp [zix_btree_iter_walk, zix_btree_iter_is_end, zix_btree_iter_rest]
  · obtain ⟨hM, hn, hs, hsz⟩ := zix_btree_valid_for_root hv hr
    exact zix_btree_iter_walk_spec _ hM _ 1 n hn fuel _ (Or.inr hp) hf

/-- The iterator repositioned to the successor recorded before the removal is
the lower bound of the removed key in the tree after the removal. -/
theorem zix_btree_reposition_spec {cmp : Nat → Nat → Int} (hc : ZixTotalOrder cmp)
    (M : Nat) (hM : 3 ≤ M) (h : Nat) (n : ZixBTreeNode) (e : Nat) (t1 : ZixBTree)
    (hn : zix_btree_node_inv M h 1 n)
    (hs : zix_btree_sorted cmp (zix_btree_node_inorder n))
    (hmem : e ∈ zix_btree_node_inorder n)
    (hv1 : zix_btree_valid_for cmp t1) (hcmp : t1.cmp = cmp)
    (hrem : zix_btree_removed e (zix_btree_node_inorder n) (zix_btree_inorder t1)) :
    zix_btree_reposition t1 (zix_btree_successor cmp e n) =
      (zix_btree_lower_bound t1 cmp e).2 := by
  obtain ⟨p, hp1, hp2, hp3⟩ := (zix_btree_find_node_spec hc M e _ 1 n hn hs).1 hmem
  obtain ⟨k, k1, k2, k3⟩ := zix_btree_iter_step_spec M hM _ 1 n p hn hp3
  rw [hp2] at k1
  cases k1
  obtain ⟨A, hA⟩ := zix_btree_path_suffix M _ 1 n p hn hp3
  obtain ⟨L, R, hL, hR⟩ := hrem
  have hs1 : zix_btree_sorted cmp (zix_btree_inorder t1) := by
    rw [hR]
    exact List.Pairwise.sublist
      (List.Sublist.append_left (List.sublist_cons_self e R) L) (by rw [← hL]; exact hs)
  obtain ⟨it, g1, B, g2, g3, g4⟩ := zix_btree_lower_bound_spec t1 hv1 cmp e
    (zix_btree_sorted_monotone hc e _ hs1)
  simp only [zix_btree_successor, hp1, zix_btree_iter_increment]
  cases hstep : zix_btree_iter_step p with
  | none =>
    rw [hstep] at k2
    simp only at k2
    rw [k2] at hA
    rw [hA] at hs
    obtain ⟨u1, u2⟩ := zix_btree_sorted_split_unique hc e A L [] R hs (by rw [← hA, hL])
    subst u1 u2
    simp only [zix_btree_end_iter, zix_btree_get, List.getLast?_nil, zix_btree_reposition]
    rw [g1]
    simp only
    rcases g4 with ⟨e7, _⟩ | ⟨ki, rest, _, f2, f3, _⟩
    · exact e7.symm
    · exfalso
      have hki : ki ∈ A := by
        have : ki ∈ zix_btree_inorder t1 := by rw [g2, f3]; simp
        rw [hR] at this
        simpa using this
      unfold zix_btree_sorted at hs
      rw [List.pairwise_append] at hs
      exact zix_lt_asymm hc (hs.2.2 ki hki e (by simp)) f2
  | some q =>
    rw [hstep] at k2
    simp only at k2
    obtain ⟨s, s1, s2, _⟩ := zix_btree_iter_step_spec M hM _ 1 n q hn (k3 q hstep)
    rw [s2] at k2
    rw [k2] at hA
    rw [hA] at hs
    obtain ⟨u1, u2⟩ := zix_btree_sorted_split_unique hc e A L _ R hs (by rw [← hA, hL])
    subst u1 u2
    simp only [s1, zix_btree_reposition]
    unfold zix_btree_sorted at hs
    rw [List.pairwise_append, List.pairwise_cons, List.pairwise_cons] at hs
    obtain ⟨_, ⟨hs2, hs3, _⟩, hs4⟩ := hs
    have hes : cmp e s < 0 := hs2 s (by simp)
    obtain ⟨M1, cmp1, root1, sz1⟩ := t1
    simp only at hcmp
    subst hcmp
    cases root1 with
    | none => simp [zix_btree_inorder] at hR
    | some n1 =>
      obtain ⟨hM1, hn1, hso1, _⟩ := zix_btree_valid_for_root hv1 rfl
      simp only at hM1 hn1 hso1
      simp only [zix_btree_inorder] at hR
      have hsign : ∀ x ∈ zix_btree_node_inorder n1, (cmp1 s x ≤ 0 ↔ cmp1 e x ≤ 0) := by
        intro x hx
        rw [hR, List.mem_append, List.mem_cons] at hx
        rcases hx with hx | hx | hx
        · have hxe : cmp1 x e < 0 := hs4 x hx e (by simp)
          have hxs : cmp1 x s < 0 := hc.trans _ _ _ hxe hes
          constructor
          · intro hh; exact absurd hh (zix_lt_asymm hc hxs)
          · intro hh; exact absurd hh (zix_lt_asymm hc hxe)
        · subst hx
          constructor
          · intro _; exact Int.le_of_lt hes
          · intro _; rw [hc.refl]
        · have hsx : cmp1 s x < 0 := hs3 x hx
          constructor
          · intro _; exact Int.le_of_lt (hc.trans _ _ _ hes hsx)
          · intro _; exact Int.le_of_lt hsx
      have heq := zix_btree_find_eq_lower_bound hc M1 hM1 e s _ 1 n1 hn1 hso1 hsign
        (by rw [hR]; simp)
      simp only [zix_btree_find, zix_btree_lower_bound]
      rw [heq]
      cases zix_btree_lower_bound_node cmp1 e n1 <;> rfl

theorem zix_btree_remove_spec (t : ZixBTree) (e : Nat) (hc : ZixTotalOrder t.cmp)
    (hv : zix_btree_valid t) :
    (e ∉ zix_btree_inorder t →
      zix_btree_remove t e = (ZIX_STATUS_NOT_FOUND, none, zix_btree_end_iter, t)) ∧
    (e ∈ zix_btree_inorder t →
      ∃ t1, zix_btree_remove t e =
          (ZIX_STATUS_SUCCESS, some e, (zix_btree_lower_bound t1 t.cmp e).2, t1) ∧
        zix_btree_valid t1 ∧ t1.cmp = t.cmp ∧ t1.fanout = t.fanout ∧
        t1.size + 1 = t.size ∧
        zix_btree_removed e (zix_btree_inorder t) (zix_btree_inorder t1)) := by
  obtain ⟨M, cmp, root, sz⟩ := t
  simp only at hc
  cases root with
  | none =>
    simp [zix_btree_inorder, zix_btree_remove]
  | some n =>
    obtain ⟨hM, hn, hs, hsz⟩ := zix_btree_valid_for_root hv rfl
    simp only at hM hn hsz hs
    simp only [zix_btree_inorder]
    obtain ⟨s1, s2⟩ := zix_btree_remove_node_spec hc M hM e _ 1 n hn (le_refl _) hs
    constructor
    · intro hnot
      simp [zix_btree_remove, s1 hnot]
    · intro hmem
      obtain ⟨n1, e1, e2, e3⟩ := s2 hmem
      have hvalid : zix_btree_valid
          { fanout := M, cmp := cmp, root := zix_btree_shrink_root n1, size := sz - 1 } ∧
          zix_btree_removed e (zix_btree_node_inorder n)
            (zix_btree_inorder
              { fanout := M, cmp := cmp, root := zix_btree_shrink_root n1, size := sz - 1 }) := by
        refine ⟨?_, ?_⟩
        · rcases zix_btree_shrink_root_spec M hM _ n1 e2 with ⟨r1, r2⟩ | ⟨r, hr, r1, r2, r3⟩
          · rw [r1]
            refine ⟨hM, ?_⟩
            simp only
            have := zix_btree_removed_length e3
            rw [r2] at this
            simp at this
            omega
          · rw [r1]
            exact zix_btree_valid_for_mk M cmp r _ hr hM r2
              (by rw [r3]; exact zix_btree_removed_sorted e3 hs)
              (by
                rw [r3]
                have := zix_btree_removed_length e3
                omega)
        · rcases zix_btree_shrink_root_spec M hM _ n1 e2 with ⟨r1, r2⟩ | ⟨r, hr, r1, r2, r3⟩
          · rw [r1]
            simp only [zix_btree_inorder]
            rw [← r2]
            exact e3
          · rw [r1]
            simp only [zix_btree_inorder]
            rw [r3]
            exact e3
      have hrep := zix_btree_reposition_spec hc M hM _ n e _ hn hs hmem hvalid.1 rfl hvalid.2
      simp only [zix_btree_remove, e1]
      rw [hrep]
      refine ⟨_, rfl, hvalid.1, rfl, rfl, ?_, hvalid.2⟩
      have := zix_btree_removed_length e3
      simp only
      omega

/-! ## Sequences of insertions -/

theorem zix_btree_insert_never_fails {cmp0 : Nat → Nat → Int} (hc : ZixTotalOrder cmp0)
    (t : ZixBTree) (e : Nat) (a : ZixAllocator) (hv : zix_btree_valid_for cmp0 t)
    (hag : ∀ x ∈ zix_btree_inorder t, t.cmp e x = cmp0 e x)
    (ha : ∀ n, a.grants n = true) :
    zix_btree_valid_for cmp0 (zix_btree_insert t e a).2.1 ∧
    (zix_btree_insert t e a).2.1.cmp = t.cmp ∧
    (zix_btree_insert t e a).2.1.fanout = t.fanout ∧
    (∀ n, (zix_btree_insert t e a).2.2.grants n = true) ∧
    (∀ x, x ∈ zix_btree_inorder (zix_btree_insert t e a).2.1 ↔ x = e ∨ x ∈ zix_btree_inorder t) ∧
    (e ∈ zix_btree_inorder t → zix_btree_insert t e a = (ZIX_STATUS_EXISTS, t, a)) ∧
    (e ∉ zix_btree_inorder t → (zix_btree_insert t e a).1 = ZIX_STATUS_SUCCESS ∧
      (zix_btree_insert t e a).2.1.size = t.size + 1 ∧
      zix_btree_inserted cmp0 e (zix_btree_inorder t)
        (zix_btree_inorder (zix_btree_insert t e a).2.1)) := by
  obtain ⟨s1, s2⟩ := zix_btree_insert_spec hc t e a hv hag
  by_cases hmem : e ∈ zix_btree_inorder t
  · rw [s1 hmem]
    refine ⟨hv, rfl, rfl, ha, ?_, fun _ => rfl, fun hnot => absurd hmem hnot⟩
    intro x
    simp only
    constructor
    · intro hx; exact Or.inr hx
    · rintro (hx | hx)
      · subst hx; exact hmem
      · exact hx
  · have hres := (zix_btree_reserve_true_iff (zix_btree_insert_requests t e) a).2
      (fun j _ => ha _)
    obtain ⟨t1, e1, e2, e3, e4, e5, e6⟩ := (s2 hmem).1 hres
    rw [e1]
    refine ⟨e2, e3, e4, ?_, ?_, fun h => absurd h hmem, fun _ => ⟨rfl, e5, e6⟩⟩
    · intro n
      simp only
      rw [zix_btree_reserve_grants]
      exact ha n
    · intro x
      exact zix_btree_inserted_mem e6 x

theorem zix_btree_insert_all_spec {cmp0 : Nat → Nat → Int} (hc : ZixTotalOrder cmp0) :
    ∀ (keys : List Nat) (t : ZixBTree) (a : ZixAllocator), zix_btree_valid_for cmp0 t →
    (∀ e ∈ keys, ∀ x, (x ∈ zix_btree_inorder t ∨ x ∈ keys) → t.cmp e x = cmp0 e x) →
    (∀ n, a.grants n = true) →
    zix_btree_valid_for cmp0 (zix_btree_insert_all t a keys).2.1 ∧
    (zix_btree_insert_all t a keys).2.1.cmp = t.cmp ∧
    (zix_btree_insert_all t a keys).2.1.fanout = t.fanout ∧
    (∀ x, x ∈ zix_btree_inorder (zix_btree_insert_all t a keys).2.1 ↔
      x ∈ zix_btree_inorder t ∨ x ∈ keys) ∧
    (zix_btree_insert_all t a keys).1.length = keys.length ∧
    (keys.Nodup → (∀ k ∈ keys, k ∉ zix_btree_inorder t) →
      (∀ s ∈ (zix_btree_insert_all t a keys).1, s = ZIX_STATUS_SUCCESS) ∧
      (zix_btree_insert_all t a keys).2.1.size = t.size + keys.length) := by
  intro keys
  induction keys with
  | nil =>
    intro t a hv _ _
    simp [zix_btree_insert_all, hv]
  | cons e es ih =>
    intro t a hv hag ha
    obtain ⟨i1, i2, i3, i4, i5, i6, i7⟩ := zix_btree_insert_never_fails hc t e a hv
      (fun x hx => hag e (by simp) x (Or.inl hx)) ha
    obtain ⟨j1, j2, j3, j4, j5, j6⟩ := ih (zix_btree_insert t e a).2.1
      (zix_btree_insert t e a).2.2 i1
      (by
        intro e1 he1 x hx
        rw [i2]
        apply hag e1 (by simp [he1]) x
        rcases hx with hx | hx
        · rcases (i5 x).1 hx with hx | hx
          · right; simp [hx]
          · left; exact hx
        · right; simp [hx]) i4
    simp only [zix_btree_insert_all]
    refine ⟨j1, by rw [j2, i2], by rw [j3, i3], ?_, by simp [j5], ?_⟩
    · intro x
      rw [j4 x, i5 x]
      simp only [List.mem_cons]
      tauto
    · intro hnd hnot
      rw [List.nodup_cons] at hnd
      have he : e ∉ zix_btree_inorder t := hnot e (by simp)
      obtain ⟨k1, k2, _⟩ := i7 he
      obtain ⟨l1, l2⟩ := j6 hnd.2 (by
        intro k hk hmem
        rcases (i5 k).1 hmem with h1 | h1
        · subst h1; exact hnd.1 hk
        · exact hnot k (by simp [hk]) h1)
      constructor
      · intro s hs
        simp only [List.mem_cons] at hs
        rcases hs with hs | hs
        · rw [hs]; exact k1
        · exact l1 s hs
      · rw [l2, k2]
        simp only [List.length_cons]
        omega

/-! ## Sequences of removals -/

theorem zix_btree_remove_all_spec : ∀ (order : List Nat) (t : ZixBTree),
    ZixTotalOrder t.cmp → zix_btree_valid t → order.Nodup →
    (∀ k ∈ order, k ∈ zix_btree_inorder t) →
    zix_btree_valid (zix_btree_remove_all t order).2 ∧
    (zix_btree_remove_all t order).2.size + order.length = t.size ∧
    (zix_btree_remove_all t order).1 = order.map (fun k => (ZIX_STATUS_SUCCESS, some k)) ∧
    (∀ x, x ∈ zix_btree_inorder (zix_btree_remove_all t order).2 ↔
      x ∈ zix_btree_inorder t ∧ x ∉ order) := by
  intro order
  induction order with
  | nil =>
    intro t _ hv _ _
    simp [zix_btree_remove_all, hv]
  | cons e es ih =>
    intro t hc hv hnd hmem
    rw [List.nodup_cons] at hnd
    obtain ⟨t1, e1, e2, e3, e4, e5, e6⟩ := (zix_btree_remove_spec t e hc hv).2 (hmem e (by simp))
    have hs : zix_btree_sorted t.cmp (zix_btree_inorder t) := by
      obtain ⟨M, cmp, root, sz⟩ := t
      cases root with
      | none => simp [zix_btree_inorder, zix_btree_sorted]
      | some n => exact (zix_btree_valid_for_root hv rfl).2.2.1
    have hm := zix_btree_removed_mem hc e6 hs
    obtain ⟨j1, j2, j3, j4⟩ := ih t1 (by rw [e3]; exact hc) e2 hnd.2 (by
      intro k hk
      rw [hm k]
      refine ⟨hmem k (by simp [hk]), ?_⟩
      intro e; subst e; exact hnd.1 hk)
    simp only [zix_btree_remove_all, e1]
    refine ⟨j1, ?_, by simp [j3], ?_⟩
    · simp only [List.length_cons]; omega
    · intro x
      rw [j4 x, hm x]
      simp only [List.mem_cons]
      tauto

theorem zix_btree_valid_sorted {cmp0 : Nat → Nat → Int} (t : ZixBTree)
    (hv : zix_btree_valid_for cmp0 t) : zix_btree_sorted cmp0 (zix_btree_inorder t) := by
  obtain ⟨M, cmp, root, sz⟩ := t
  cases root with
  | none => simp [zix_btree_inorder, zix_btree_sorted]
  | some n => exact (zix_btree_valid_for_root hv rfl).2.2.1

theorem zix_btree_valid_size {cmp0 : Nat → Nat → Int} (t : ZixBTree)
    (hv : zix_btree_valid_for cmp0 t) : t.size = (zix_btree_inorder t).length := by
  obtain ⟨M, cmp, root, sz⟩ := t
  cases root with
  | none => simpa [zix_btree_inorder] using hv.2
  | some n => exact (zix_btree_valid_for_root hv rfl).2.2.2

theorem zix_le_antisymm {cmp : Nat → Nat → Int} (hc : ZixTotalOrder cmp) {a b : Nat}
    (h1 : cmp a b ≤ 0) (h2 : cmp b a ≤ 0) : a = b := by
  rcases zix_le_cases hc h1 with h | h
  · exact h
  · exact absurd h2 (zix_lt_asymm hc h)

/-! ## The structural invariant, node by node -/

theorem zix_btree_mem_subnodes_list (cs : List ZixBTreeNode) (m : ZixBTreeNode) :
    m ∈ zix_btree_subnodes_list cs ↔ ∃ c ∈ cs, m ∈ zix_btree_subnodes c := by
  induction cs with
  | nil => simp [zix_btree_subnodes_list]
  | cons c cs ih => simp [zix_btree_subnodes_list, ih]

theorem zix_btree_mem_leaf_depths_list (cs : List ZixBTreeNode) (d : Nat) :
    d ∈ zix_btree_leaf_depths_list cs ↔ ∃ c ∈ cs, d ∈ zix_btree_leaf_depths c := by
  induction cs with
  | nil => simp [zix_btree_leaf_depths_list]
  | cons c cs ih => simp [zix_btree_leaf_depths_list, ih]

theorem zix_btree_leaf_depths_eq (M : Nat) : ∀ (h lo : Nat) (n : ZixBTreeNode),
    zix_btree_node_inv M h lo n → ∀ d ∈ zix_btree_leaf_depths n, d = h := by
  intro h
  induction h with
  | zero =>
    intro lo n hn d hd
    cases n with
    | internal ks cs => simp [zix_btree_node_inv] at hn
    | leaf ks => simpa [zix_btree_leaf_depths] using hd
  | succ h ih =>
    intro lo n hn d hd
    cases n with
    | leaf ks => simp [zix_btree_node_inv] at hn
    | internal ks cs =>
      simp only [zix_btree_node_inv] at hn
      obtain ⟨_, _, _, hcs⟩ := hn
      simp only [zix_btree_leaf_depths, List.mem_map] at hd
      obtain ⟨d1, hd1, e⟩ := hd
      rw [zix_btree_mem_leaf_depths_list] at hd1
      obtain ⟨c, hc, hdc⟩ := hd1
      have := ih _ c (hcs c hc) d1 hdc
      omega

theorem zix_btree_mem_subnodes_self (n : ZixBTreeNode) : n ∈ zix_btree_subnodes n := by
  cases n <;> simp [zix_btree_subnodes]

/-- Every node of a well-shaped subtree with increasing keys is itself
well-shaped with increasing keys, and holds the minimum number of keys unless
it is the top node. -/
theorem zix_btree_subnodes_inv (M : Nat) (cmp : Nat → Nat → Int) : ∀ (h lo : Nat)
    (n : ZixBTreeNode), zix_btree_node_inv M h lo n →
    zix_btree_sorted cmp (zix_btree_node_inorder n) →
    ∀ m ∈ zix_btree_subnodes n, ∃ h1 lo1, zix_btree_node_inv M h1 lo1 m ∧
      zix_btree_sorted cmp (zix_btree_node_inorder m) ∧
      (m = n ∨ lo1 = zix_btree_min_keys M) := by
  intro h
  induction h with
  | zero =>
    intro lo n hn hs m hm
    cases n with
    | internal ks cs => simp [zix_btree_node_inv] at hn
    | leaf ks =>
      simp only [zix_btree_subnodes, List.mem_singleton] at hm
      subst hm
      exact ⟨0, lo, hn, hs, Or.inl rfl⟩
  | succ h ih =>
    intro lo n hn hs m hm
    cases n with
    | leaf ks => simp [zix_btree_node_inv] at hn
    | internal ks cs =>
      simp only [zix_btree_subnodes, List.mem_cons] at hm
      rcases hm with hm | hm
      · subst hm
        exact ⟨h + 1, lo, hn, hs, Or.inl rfl⟩
      · simp only [zix_btree_node_inv] at hn
        obtain ⟨_, _, hlen, hcs⟩ := hn
        rw [zix_btree_mem_subnodes_list] at hm
        obtain ⟨c, hc, hmc⟩ := hm
        have hsc : zix_btree_sorted cmp (zix_btree_node_inorder c) := by
          obtain ⟨i, hi, e⟩ := List.getElem_of_mem hc
          obtain ⟨c1, hc1, _, hview⟩ := zix_btree_view ks cs hlen i (by omega)
          rw [List.getElem?_eq_getElem hi, e] at hc1
          cases hc1
          simp only [zix_btree_node_inorder] at hs
          rw [hview] at hs
          exact (zix_btree_sorted_append (zix_btree_sorted_append hs).2).1
        obtain ⟨h1, lo1, a1, a2, a3⟩ := ih _ c (hcs c hc) hsc m hmc
        rcases a3 with a3 | a3
        · subst a3
          exact ⟨h, _, hcs m hc, a2, Or.inr rfl⟩
        · exact ⟨h1, lo1, a1, a2, Or.inr a3⟩

theorem zix_btree_keys_sublist (ks : List Nat) (cs : List ZixBTreeNode)
    (hlen : cs.length = ks.length + 1) : ks.Sublist (zix_btree_children_inorder ks cs) := by
  induction ks generalizing cs with
  | nil => simp
  | cons k ks ih =>
    cases cs with
    | nil => simp at hlen
    | cons c cs =>
      simp at hlen
      simp only [zix_btree_children_inorder]
      exact List.Sublist.trans (List.Sublist.cons₂ k (ih cs hlen))
        (List.sublist_append_right _ _)

theorem zix_btree_node_keys_sorted (M : Nat) (cmp : Nat → Nat → Int) (h lo : Nat)
    (m : ZixBTreeNode) (hm : zix_btree_node_inv M h lo m)
    (hs : zix_btree_sorted cmp (zix_btree_node_inorder m)) : zix_btree_sorted cmp m.keys := by
  cases m with
  | leaf ks => exact hs
  | internal ks cs =>
    rw [zix_btree_node_inv_internal] at hm
    obtain ⟨_, _, _, _, hlen, _⟩ := hm
    exact List.Pairwise.sublist (zix_btree_keys_sublist ks cs hlen) hs

theorem zix_btree_valid_structural (t : ZixBTree) (hv : zix_btree_valid t) :
    zix_btree_structural_invariant t := by
  obtain ⟨M, cmp, root, sz⟩ := t
  cases root with
  | none => simp [zix_btree_structural_invariant]
  | some n =>
    obtain ⟨hM, hn, hs, hsz⟩ := zix_btree_valid_for_root hv rfl
    simp only at hM hn hsz hs
    simp only [zix_btree_structural_invariant]
    have hsub := zix_btree_subnodes_inv M cmp _ 1 n hn hs
    refine ⟨?_, (zix_btree_node_inv_keys M hn).2, ?_, ?_, ?_, ?_⟩
    · intro d1 hd1 d2 hd2
      rw [zix_btree_leaf_depths_eq M _ 1 n hn d1 hd1, zix_btree_leaf_depths_eq M _ 1 n hn d2 hd2]
    · intro c hc m hm
      cases n with
      | leaf ks => simp [ZixBTreeNode.children] at hc
      | internal ks cs =>
        simp only [ZixBTreeNode.children] at hc
        rw [zix_btree_node_inv_internal] at hn
        obtain ⟨h1, _, _, _, hlen, hcs⟩ := hn
        have hcm : c ∈ zix_btree_subnodes (.internal ks cs) := by
          simp only [zix_btree_subnodes, List.mem_cons]
          right
          rw [zix_btree_mem_subnodes_list]
          exact ⟨c, hc, zix_btree_mem_subnodes_self c⟩
        obtain ⟨hc1, lc1, b1, b2, _⟩ := hsub c hcm
        obtain ⟨h2, lo2, a1, _, a3⟩ := zix_btree_subnodes_inv M cmp _ _ c (hcs c hc) b2 m hm
        have key : zix_btree_min_keys M ≤ m.keys.length ∧ m.keys.length ≤ M - 1 := by
          rcases a3 with a3 | a3
          · subst a3
            exact zix_btree_node_inv_keys M (hcs m hc)
          · subst a3
            exact zix_btree_node_inv_keys M a1
        simpa [zix_btree_min_keys] using key
    · intro m hm ks cs e
      obtain ⟨h1, lo1, a1, _, _⟩ := hsub m hm
      subst e
      rw [zix_btree_node_inv_internal] at a1
      obtain ⟨_, _, _, _, hlen, _⟩ := a1
      exact hlen
    · intro m hm
      obtain ⟨h1, lo1, a1, a2, _⟩ := hsub m hm
      exact zix_btree_node_keys_sorted M cmp h1 lo1 m a1 a2
    · intro m hm i k hk
      obtain ⟨h1, lo1, a1, a2, _⟩ := hsub m hm
      obtain ⟨s1, s2⟩ := zix_btree_node_separates M cmp h1 lo1 m a1 a2 i k hk
      exact ⟨fun c hc x hx => Int.le_of_lt (s1 c hc x hx), s2⟩

/-! ## The pre-flight count is the number of nodes an insertion creates -/

theorem zix_btree_subnodes_list_append (A B : List ZixBTreeNode) :
    zix_btree_subnodes_list (A ++ B) =
      zix_btree_subnodes_list A ++ zix_btree_subnodes_list B := by
  induction A with
  | nil => simp [zix_btree_subnodes_list]
  | cons a A ih => simp [zix_btree_subnodes_list, ih]

theorem zix_btree_subnodes_list_cons (c : ZixBTreeNode) (B : List ZixBTreeNode) :
    zix_btree_subnodes_list (c :: B) = zix_btree_subnodes c ++ zix_btree_subnodes_list B := by
  simp [zix_btree_subnodes_list]

theorem zix_btree_subnodes_list_split (cs : List ZixBTreeNode) (i : Nat) (c : ZixBTreeNode)
    (h : cs[i]? = some c) :
    (zix_btree_subnodes_list cs).length =
      (zix_btree_subnodes_list (cs.take i)).length + (zix_btree_subnodes c).length +
        (zix_btree_subnodes_list (cs.drop (i + 1))).length := by
  conv_lhs => rw [zix_split_at cs i c h]
  rw [zix_btree_subnodes_list_append, zix_btree_subnodes_list_cons]
  simp only [List.length_append]
  omega

theorem zix_btree_subnodes_list_take_drop (cs : List ZixBTreeNode) (i : Nat) :
    (zix_btree_subnodes_list (cs.take i)).length + (zix_btree_subnodes_list (cs.drop i)).length =
      (zix_btree_subnodes_list cs).length := by
  conv_rhs => rw [← List.take_append_drop i cs]
  rw [zix_btree_subnodes_list_append, List.length_append]

/-- Below a well-shaped node, an insertion of a new key creates exactly as many
nodes as the pre-flight descent counts, and the node splits exactly when the
descent says so. -/
theorem zix_btree_insert_splits_spec {cmp : Nat → Nat → Int} (hc : ZixTotalOrder cmp) (M : Nat)
    (key : Nat) : ∀ (h lo : Nat) (n : ZixBTreeNode),
    zix_btree_node_inv M h lo n →
    zix_btree_sorted cmp (zix_btree_node_inorder n) →
    (∀ n1, zix_btree_insert_node M cmp key n = .fits n1 →
      (zix_btree_insert_splits M cmp key n).2 = false ∧
      (zix_btree_subnodes n1).length =
        (zix_btree_subnodes n).length + (zix_btree_insert_splits M cmp key n).1) ∧
    (∀ l m r, zix_btree_insert_node M cmp key n = .overflow l m r →
      (zix_btree_insert_splits M cmp key n).2 = true ∧
      (zix_btree_subnodes l).length + (zix_btree_subnodes r).length =
        (zix_btree_subnodes n).length + (zix_btree_insert_splits M cmp key n).1) := by
  intro h
  induction h with
  | zero =>
    intro lo n hn hs
    cases n with
    | internal ks cs => simp [zix_btree_node_inv] at hn
    | leaf ks =>
      simp only [zix_btree_insert_node, zix_btree_insert_splits]
      by_cases hm : zix_btree_node_match cmp key ks (zix_btree_node_find cmp key ks) = true
      · simp [hm]
      · simp only [hm]
        simp only [Bool.false_eq_true, if_false, zix_btree_finish_leaf]
        have hl : (zix_btree_ainsert ks (zix_btree_node_find cmp key ks) key).length =
            ks.length + 1 := by
          have := zix_btree_node_find_le cmp key ks
          simp [zix_btree_ainsert]; omega
        rw [hl]
        by_cases hlt : ks.length + 1 < M
        · have h2 : ¬ M ≤ ks.length + 1 := by omega
          simp only [hlt, h2, if_true, if_false]
          constructor
          · intro n1 e
            cases e
            simp [zix_btree_subnodes]
          · intro l m r e
            cases e
        · have h2 : M ≤ ks.length + 1 := by omega
          simp only [hlt, h2, if_true, if_false]
          constructor
          · intro n1 e
            split at e <;> cases e
          · intro l m r e
            split at e
            · cases e
              simp [zix_btree_subnodes]
            · cases e
  | succ h ih =>
    intro lo n hn hs
    cases n with
    | leaf ks => simp [zix_btree_node_inv] at hn
    | internal ks cs =>
      simp only [zix_btree_node_inv] at hn
      obtain ⟨hlo, hmax, hlen, hcs⟩ := hn
      simp only [zix_btree_node_inorder] at hs
      simp only [zix_btree_insert_node, zix_btree_insert_splits]
      by_cases hm : zix_btree_node_match cmp key ks (zix_btree_node_find cmp key ks) = true
      · simp [hm]
      · simp only [hm]
        simp only [Bool.not_eq_true] at hm
        obtain ⟨c, hci, hcmem, hsC, _, _, _⟩ := zix_btree_descend hc key ks cs hlen hs hm
        rw [zix_btree_insert_child_eq, zix_btree_insert_splits_child_eq, hci]
        simp only [Bool.false_eq_true, if_false]
        obtain ⟨ih1, ih2⟩ := ih _ c (hcs c hcmem) hsC
        have hile := zix_btree_node_find_le cmp key ks
        have hsplit := zix_btree_subnodes_list_split cs _ c hci
        cases hins : zix_btree_insert_node M cmp key c with
        | found => simp
        | invalid => simp
        | fits c1 =>
          obtain ⟨a1, a2⟩ := ih1 c1 hins
          cases hsp : zix_btree_insert_splits M cmp key c with
          | mk k b =>
            rw [hsp] at a1 a2
            simp only at a1 a2
            subst a1
            simp only
            constructor
            · intro n1 e
              cases e
              refine ⟨trivial, ?_⟩
              simp only [zix_btree_subnodes, List.length_cons, zix_btree_aset,
                zix_btree_subnodes_list_append, zix_btree_subnodes_list_cons, List.length_append]
              omega
            · intro l m r e
              cases e
        | overflow l m r =>
          obtain ⟨a1, a2⟩ := ih2 l m r hins
          cases hsp : zix_btree_insert_splits M cmp key c with
          | mk k b =>
            rw [hsp] at a1 a2
            simp only at a1 a2
            subst a1
            simp only [zix_btree_finish_internal]
            have hl : (zix_btree_ainsert ks (zix_btree_node_find cmp key ks) m).length =
                ks.length + 1 := by
              simp [zix_btree_ainsert]; omega
            rw [hl]
            have hcount : (zix_btree_subnodes_list
                (cs.take (zix_btree_node_find cmp key ks) ++
                  l :: r :: cs.drop (zix_btree_node_find cmp key ks + 1))).length =
                (zix_btree_subnodes_list cs).length + k := by
              simp only [zix_btree_subnodes_list_append, zix_btree_subnodes_list_cons,
                List.length_append]
              omega
            by_cases hlt : ks.length + 1 < M
            · have h2 : ¬ M ≤ ks.length + 1 := by omega
              simp only [hlt, h2, if_true, if_false]
              constructor
              · intro n1 e
                cases e
                refine ⟨trivial, ?_⟩
                simp only [zix_btree_subnodes, List.length_cons, hcount]
                omega
              · intro l1 m1 r1 e
                cases e
            · have h2 : M ≤ ks.length + 1 := by omega
              simp only [hlt, h2, if_true, if_false]
              constructor
              · intro n1 e
                split at e <;> cases e
              · intro l1 m1 r1 e
                split at e
                · cases e
                  refine ⟨trivial, ?_⟩
                  have := zix_btree_subnodes_list_take_drop
                    (cs.take (zix_btree_node_find cmp key ks) ++
                      l :: r :: cs.drop (zix_btree_node_find cmp key ks + 1)) (M / 2 + 1)
                  simp only [zix_btree_subnodes, List.length_cons]
                  omega
                · cases e

/-- With an allocator that grants the requests, a successful insertion into a
valid tree leaves exactly one outstanding block more per node created: the
pre-flight count is the number of new nodes. -/
theorem zix_btree_insert_allocs_exact (t : ZixBTree) (e : Nat) (a : ZixAllocator)
    (hv : zix_btree_valid t) (hc : ZixTotalOrder t.cmp)
    (hs : (zix_btree_insert t e a).1 = ZIX_STATUS_SUCCESS) :
    zix_btree_node_count (zix_btree_insert t e a).2.1 =
      zix_btree_node_count t + zix_btree_insert_requests t e ∧
    (zix_btree_insert t e a).2.2.n_live = a.n_live + zix_btree_insert_requests t e := by
  have hok : ∀ n, (zix_btree_reserve n a).1 = true →
      (zix_btree_reserve n a).2.n_live = a.n_live + n := by
    intro n hn
    rw [zix_btree_reserve_ok n a ((zix_btree_reserve_true_iff n a).1 hn)]
  obtain ⟨M, cmp, root, sz⟩ := t
  simp only at hc
  cases root with
  | none =>
    simp only [zix_btree_insert, zix_btree_insert_requests] at hs ⊢
    have := hok 1
    cases hr : zix_btree_reserve 1 a with
    | mk b a1 =>
      rw [hr] at hs this
      cases b
      · simp at hs
      · simp only at this ⊢
        exact ⟨by simp [zix_btree_node_count, zix_btree_subnodes], this trivial⟩
  | some n =>
    obtain ⟨hM, hn, hso, hsz⟩ := zix_btree_valid_for_root hv rfl
    simp only at hM hn hsz hso
    obtain ⟨s1, s2⟩ := zix_btree_insert_splits_spec hc M e _ 1 n hn hso
    simp only [zix_btree_insert, zix_btree_insert_requests] at hs ⊢
    cases hins : zix_btree_insert_node M cmp e n with
    | found => rw [hins] at hs; simp at hs
    | invalid => rw [hins] at hs; simp at hs
    | fits n1 =>
      rw [hins] at hs
      simp only at hs ⊢
      obtain ⟨a1, a2⟩ := s1 n1 hins
      have := hok (zix_btree_insert_allocs M cmp e n)
      cases hr : zix_btree_reserve (zix_btree_insert_allocs M cmp e n) a with
      | mk b al =>
        rw [hr] at hs this
        cases b
        · simp at hs
        · simp only at this ⊢
          refine ⟨?_, this trivial⟩
          simp only [zix_btree_node_count, zix_btree_insert_allocs]
          cases hsp : zix_btree_insert_splits M cmp e n with
          | mk k b =>
            rw [hsp] at a1 a2
            simp only at a1 a2
            subst a1
            simp only
            omega
    | overflow l m r =>
      rw [hins] at hs
      simp only at hs ⊢
      obtain ⟨a1, a2⟩ := s2 l m r hins
      have := hok (zix_btree_insert_allocs M cmp e n)
      cases hr : zix_btree_reserve (zix_btree_insert_allocs M cmp e n) a with
      | mk b al =>
        rw [hr] at hs this
        cases b
        · simp at hs
        · simp only at this ⊢
          refine ⟨?_, this trivial⟩
          simp only [zix_btree_node_count, zix_btree_insert_allocs, zix_btree_subnodes,
            zix_btree_subnodes_list, List.length_cons, List.length_append, List.append_nil]
          cases hsp : zix_btree_insert_splits M cmp e n with
          | mk k b =>
            rw [hsp] at a1 a2
            simp only at a1 a2
            subst a1
            simp only
            omega

/-! ## Witness objects -/

theorem zix_btree_example_valid : zix_btree_valid zix_btree_example := by
  simp [zix_btree_valid, zix_btree_valid_for, zix_btree_example, zix_btree_node_inv,
    zix_btree_node_height, zix_btree_children_height, zix_btree_min_keys,
    zix_btree_node_inorder, zix_btree_children_inorder, zix_btree_sorted, int_cmp]

theorem zix_btree_example_built :
    (zix_btree_insert_all (zix_btree_new 4 int_cmp) zix_default_allocator
      [1, 2, 3, 4, 5]).2.1 = zix_btree_example := by
  rfl

theorem zix_btree_insert_all_valid (M : Nat) (hM : 3 ≤ M) (cmp : Nat → Nat → Int)
    (hc : ZixTotalOrder cmp) (keys : List Nat) (a : ZixAllocator)
    (ha : ∀ n, a.grants n = true) :
    zix_btree_valid (zix_btree_insert_all (zix_btree_new M cmp) a keys).2.1 ∧
    (zix_btree_insert_all (zix_btree_new M cmp) a keys).2.1.cmp = cmp ∧
    ∀ x, x ∈ zix_btree_inorder (zix_btree_insert_all (zix_btree_new M cmp) a keys).2.1 ↔
      x ∈ keys := by
  obtain ⟨h1, h2, _, h4, _, _⟩ := zix_btree_insert_all_spec hc keys
    (zix_btree_new M cmp) a (zix_btree_valid_for_new cmp M cmp hM)
    (fun _ _ _ _ => rfl) ha
  refine ⟨?_, h2, ?_⟩
  · unfold zix_btree_valid
    rw [h2]; exact h1
  · intro x
    rw [h4 x]
    simp [zix_btree_inorder, zix_btree_new]

/-! ## The contract of the container -/

/-- C1: for every finite sequence of pairwise distinct non-zero keys inserted
into a new tree with comparator `int_cmp` and an allocator that never fails,
every insertion returns SUCCESS, the size equals the number of keys, every
inserted key is found with an iterator whose `get` yields it, and no other
(non-zero) key is found. -/
theorem zix_btree_insert_then_find (M : Nat) (hM : 3 ≤ M) (keys : List Nat)
    (a : ZixAllocator) (hnd : keys.Nodup) (_hnz : ∀ k ∈ keys, k ≠ 0)
    (ha : ∀ n, a.grants n = true) :
    (∀ s ∈ (zix_btree_insert_all (zix_btree_new M int_cmp) a keys).1,
      s = ZIX_STATUS_SUCCESS) ∧
    (zix_btree_insert_all (zix_btree_new M int_cmp) a keys).1.length = keys.length ∧
    zix_btree_size (zix_btree_insert_all (zix_btree_new M int_cmp) a keys).2.1 = keys.length ∧
    (∀ k ∈ keys, ∃ it,
      zix_btree_find (zix_btree_insert_all (zix_btree_new M int_cmp) a keys).2.1 k =
        (ZIX_STATUS_SUCCESS, it) ∧ zix_btree_get it = some k) ∧
    (∀ k, k ≠ 0 → k ∉ keys →
      (zix_btree_find (zix_btree_insert_all (zix_btree_new M int_cmp) a keys).2.1 k).1 =
        ZIX_STATUS_NOT_FOUND) := by
  obtain ⟨h1, h2, _, h4, h5, h6⟩ := zix_btree_insert_all_spec int_cmp_total keys
    (zix_btree_new M int_cmp) a (zix_btree_valid_for_new int_cmp M int_cmp hM)
    (fun _ _ _ _ => rfl) ha
  obtain ⟨h7, h8⟩ := h6 hnd (by simp [zix_btree_inorder, zix_btree_new])
  have hc : ZixTotalOrder (zix_btree_insert_all (zix_btree_new M int_cmp) a keys).2.1.cmp := by
    rw [h2]; exact int_cmp_total
  have hv : zix_btree_valid (zix_btree_insert_all (zix_btree_new M int_cmp) a keys).2.1 := by
    unfold zix_btree_valid
    rw [h2]; exact h1
  refine ⟨h7, h5, ?_, ?_, ?_⟩
  · rw [zix_btree_size, h8]; simp [zix_btree_new]
  · intro k hk
    exact (zix_btree_find_spec _ k hc hv).1 ((h4 k).2 (Or.inr hk))
  · intro k _ hk
    rw [(zix_btree_find_spec _ k hc hv).2 (by
      intro hmem
      rcases (h4 k).1 hmem with h | h
      · simp [zix_btree_inorder, zix_btree_new] at h
      · exact hk h)]

theorem zix_btree_insert_then_find_witness :
    (∀ s ∈ (zix_btree_insert_all (zix_btree_new 4 int_cmp) zix_default_allocator
        [3, 1, 4, 5, 9, 2, 6]).1, s = ZIX_STATUS_SUCCESS) ∧
    (zix_btree_insert_all (zix_btree_new 4 int_cmp) zix_default_allocator
        [3, 1, 4, 5, 9, 2, 6]).1.length = [3, 1, 4, 5, 9, 2, 6].length ∧
    zix_btree_size (zix_btree_insert_all (zix_btree_new 4 int_cmp) zix_default_allocator
        [3, 1, 4, 5, 9, 2, 6]).2.1 = [3, 1, 4, 5, 9, 2, 6].length ∧
    (∀ k ∈ [3, 1, 4, 5, 9, 2, 6], ∃ it,
      zix_btree_find (zix_btree_insert_all (zix_btree_new 4 int_cmp) zix_default_allocator
        [3, 1, 4, 5, 9, 2, 6]).2.1 k = (ZIX_STATUS_SUCCESS, it) ∧ zix_btree_get it = some k) ∧
    (∀ k, k ≠ 0 → k ∉ [3, 1, 4, 5, 9, 2, 6] →
      (zix_btree_find (zix_btree_insert_all (zix_btree_new 4 int_cmp) zix_default_allocator
        [3, 1, 4, 5, 9, 2, 6]).2.1 k).1 = ZIX_STATUS_NOT_FOUND) :=
  zix_btree_insert_then_find 4 (by decide) [3, 1, 4, 5, 9, 2, 6] zix_default_allocator
    (by decide) (by decide) (fun _ => rfl)

/-- C2: for every tree built by inserting distinct keys, the loop from `begin`
with `increment` until `is_end` runs exactly `size` times, `get` yields a key
in every round, the keys visited are strictly increasing under the tree's
comparator, and they are the keys inserted. -/
theorem zix_btree_iterate_increasing (M : Nat) (hM : 3 ≤ M) (cmp : Nat → Nat → Int)
    (hc : ZixTotalOrder cmp) (keys : List Nat) (a : ZixAllocator) (_hnd : keys.Nodup)
    (ha : ∀ n, a.grants n = true) (fuel : Nat)
    (hf : zix_btree_size (zix_btree_insert_all (zix_btree_new M cmp) a keys).2.1 ≤ fuel) :
    (zix_btree_iter_walk fuel
        (zix_btree_begin (zix_btree_insert_all (zix_btree_new M cmp) a keys).2.1)).length =
      zix_btree_size (zix_btree_insert_all (zix_btree_new M cmp) a keys).2.1 ∧
    ∃ visited,
      (zix_btree_iter_walk fuel
          (zix_btree_begin (zix_btree_insert_all (zix_btree_new M cmp) a keys).2.1)).map
        zix_btree_get = visited.map some ∧
      zix_btree_sorted cmp visited ∧ ∀ k, k ∈ visited ↔ k ∈ keys := by
  obtain ⟨h1, _, _, h4, _, _⟩ := zix_btree_insert_all_spec hc keys
    (zix_btree_new M cmp) a (zix_btree_valid_for_new cmp M cmp hM)
    (fun _ _ _ _ => rfl) ha
  have hw := zix_btree_walk_spec _ h1 fuel hf
  refine ⟨?_, zix_btree_inorder _, hw, zix_btree_valid_sorted _ h1, ?_⟩
  · have := congrArg List.length hw
    simp only [List.length_map] at this
    rw [this, zix_btree_size, zix_btree_valid_size _ h1]
  · intro k
    rw [h4 k]
    simp [zix_btree_inorder, zix_btree_new]

theorem zix_btree_iterate_increasing_witness :
    (zix_btree_iter_walk 10
        (zix_btree_begin (zix_btree_insert_all (zix_btree_new 4 int_cmp)
          zix_default_allocator [3, 1, 4, 5, 9, 2, 6]).2.1)).length =
      zix_btree_size (zix_btree_insert_all (zix_btree_new 4 int_cmp)
          zix_default_allocator [3, 1, 4, 5, 9, 2, 6]).2.1 ∧
    ∃ visited,
      (zix_btree_iter_walk 10
          (zix_btree_begin (zix_btree_insert_all (zix_btree_new 4 int_cmp)
            zix_default_allocator [3, 1, 4, 5, 9, 2, 6]).2.1)).map
        zix_btree_get = visited.map some ∧
      zix_btree_sorted int_cmp visited ∧ ∀ k, k ∈ visited ↔ k ∈ [3, 1, 4, 5, 9, 2, 6] :=
  zix_btree_iterate_increasing 4 (by decide) int_cmp int_cmp_total [3, 1, 4, 5, 9, 2, 6]
    zix_default_allocator (by decide) (fun _ => rfl) 10 (by decide)

/-- C3: for every valid tree and every key that compares equal to a stored key,
in a leaf or in an internal node, `insert` returns EXISTS and leaves the tree
(its size, its keys, its nodes) and the allocator as they were. -/
theorem zix_btree_insert_existing (t : ZixBTree) (e : Nat) (a : ZixAllocator)
    (hv : zix_btree_valid t) (hc : ZixTotalOrder t.cmp)
    (h : ∃ k ∈ zix_btree_inorder t, t.cmp e k = 0) :
    zix_btree_insert t e a = (ZIX_STATUS_EXISTS, t, a) := by
  obtain ⟨k, hk, hk0⟩ := h
  have e1 : e = k := hc.eq_of_zero _ _ hk0
  subst e1
  exact (zix_btree_insert_spec hc t e a hv (fun _ _ => rfl)).1 hk

theorem zix_btree_insert_existing_witness :
    zix_btree_insert
        (zix_btree_insert_all (zix_btree_new 510 int_cmp) zix_default_allocator
          (List.range' 1 766)).2.1 512 zix_default_allocator =
      (ZIX_STATUS_EXISTS,
        (zix_btree_insert_all (zix_btree_new 510 int_cmp) zix_default_allocator
          (List.range' 1 766)).2.1, zix_default_allocator) :=
  zix_btree_insert_existing _ 512 zix_default_allocator
    (zix_btree_insert_all_valid 510 (by decide) int_cmp int_cmp_total _ _ (fun _ => rfl)).1
    (by
      rw [(zix_btree_insert_all_valid 510 (by decide) int_cmp int_cmp_total _ _
        (fun _ => rfl)).2.1]
      exact int_cmp_total)
    ⟨512,
      ((zix_btree_insert_all_valid 510 (by decide) int_cmp int_cmp_total _ _
        (fun _ => rfl)).2.2 512).2 (by simp),
      by
        rw [(zix_btree_insert_all_valid 510 (by decide) int_cmp int_cmp_total _ _
          (fun _ => rfl)).2.1]
        decide⟩

/-- C4: for every valid tree and every stored key `k`, `remove` returns SUCCESS,
the value handed out is `k`, the size decreases by exactly one, `k` is no
longer found, every other stored key is still found; and removing all stored
keys in any order succeeds each time and leaves size 0. -/
theorem zix_btree_remove_stored (t : ZixBTree) (k : Nat)
    (hv : zix_btree_valid t) (hc : ZixTotalOrder t.cmp) (hk : k ∈ zix_btree_inorder t) :
    (zix_btree_remove t k).1 = ZIX_STATUS_SUCCESS ∧
    (zix_btree_remove t k).2.1 = some k ∧
    zix_btree_size (zix_btree_remove t k).2.2.2 + 1 = zix_btree_size t ∧
    (zix_btree_find (zix_btree_remove t k).2.2.2 k).1 = ZIX_STATUS_NOT_FOUND ∧
    (∀ x ∈ zix_btree_inorder t, x ≠ k → ∃ it,
      zix_btree_find (zix_btree_remove t k).2.2.2 x = (ZIX_STATUS_SUCCESS, it) ∧
        zix_btree_get it = some x) ∧
    (∀ order : List Nat, order.Perm (zix_btree_inorder t) →
      (zix_btree_remove_all t order).1 = order.map (fun x => (ZIX_STATUS_SUCCESS, some x)) ∧
      zix_btree_size (zix_btree_remove_all t order).2 = 0) := by
  obtain ⟨t1, e1, e2, e3, e4, e5, e6⟩ := (zix_btree_remove_spec t k hc hv).2 hk
  have hs := zix_btree_valid_sorted t hv
  have hm := zix_btree_removed_mem hc e6 hs
  have hc1 : ZixTotalOrder t1.cmp := by rw [e3]; exact hc
  rw [e1]
  refine ⟨rfl, rfl, e5, ?_, ?_, ?_⟩
  · simp only
    rw [(zix_btree_find_spec t1 k hc1 e2).2 (fun h => ((hm k).1 h).2 rfl)]
  · intro x hx hne
    exact (zix_btree_find_spec t1 x hc1 e2).1 ((hm x).2 ⟨hx, hne⟩)
  · intro order hp
    have hnd : order.Nodup := by
      rw [List.Perm.nodup_iff hp]
      exact List.Pairwise.imp (fun h => zix_lt_ne hc h) hs
    obtain ⟨_, r2, r3, _⟩ := zix_btree_remove_all_spec order t hc hv hnd
      (fun x hx => (List.Perm.mem_iff hp).1 hx)
    refine ⟨r3, ?_⟩
    have hl := List.Perm.length_eq hp
    have hsz := zix_btree_valid_size t hv
    simp only [zix_btree_size]
    omega

theorem zix_btree_remove_stored_witness :
    3 ∈ zix_btree_inorder zix_btree_example ∧
    (zix_btree_remove zix_btree_example 3).1 = ZIX_STATUS_SUCCESS ∧
    (zix_btree_remove zix_btree_example 3).2.1 = some 3 ∧
    zix_btree_size (zix_btree_remove zix_btree_example 3).2.2.2 + 1 =
      zix_btree_size zix_btree_example ∧
    (zix_btree_find (zix_btree_remove zix_btree_example 3).2.2.2 3).1 = ZIX_STATUS_NOT_FOUND ∧
    (∀ x ∈ zix_btree_inorder zix_btree_example, x ≠ 3 → ∃ it,
      zix_btree_find (zix_btree_remove zix_btree_example 3).2.2.2 x =
        (ZIX_STATUS_SUCCESS, it) ∧ zix_btree_get it = some x) ∧
    (∀ order : List Nat, order.Perm (zix_btree_inorder zix_btree_example) →
      (zix_btree_remove_all zix_btree_example order).1 =
        order.map (fun x => (ZIX_STATUS_SUCCESS, some x)) ∧
      zix_btree_size (zix_btree_remove_all zix_btree_example order).2 = 0) :=
  ⟨by decide,
    zix_btree_remove_stored zix_btree_example 3 zix_btree_example_valid int_cmp_total
      (by decide)⟩

/-- C5: for every valid tree and every key that compares equal to no stored
key, `remove` returns NOT_FOUND and leaves the tree as it was. -/
theorem zix_btree_remove_absent (t : ZixBTree) (e : Nat)
    (hv : zix_btree_valid t) (hc : ZixTotalOrder t.cmp)
    (h : ∀ k ∈ zix_btree_inorder t, t.cmp e k ≠ 0) :
    zix_btree_remove t e = (ZIX_STATUS_NOT_FOUND, none, zix_btree_end_iter, t) :=
  (zix_btree_remove_spec t e hc hv).1 (fun hmem => h e hmem (hc.refl e))

theorem zix_btree_remove_absent_witness :
    (∀ k ∈ zix_btree_inorder zix_btree_example, zix_btree_example.cmp 7 k ≠ 0) ∧
    zix_btree_remove zix_btree_example 7 =
      (ZIX_STATUS_NOT_FOUND, none, zix_btree_end_iter, zix_btree_example) :=
  ⟨by decide,
    zix_btree_remove_absent zix_btree_example 7 zix_btree_example_valid int_cmp_total
      (by decide)⟩

theorem zix_btree_iter_is_end_of_get {it : ZixBTreeIter} {k : Nat}
    (h : zix_btree_get it = some k) : zix_btree_iter_is_end it = false := by
  cases it with
  | nil => simp [zix_btree_get] at h
  | cons f rest => rfl

/-- C6: for every valid tree under a total-order comparator and every query key
`k`, `lower_bound` returns SUCCESS with an iterator to the smallest stored key
that is not below `k`, or the `end` iterator when every stored key is below
`k`; the lower bound of a stored key is that key itself. -/
theorem zix_btree_lower_bound_smallest (t : ZixBTree) (k : Nat)
    (hv : zix_btree_valid t) (hc : ZixTotalOrder t.cmp) :
    ∃ it, zix_btree_lower_bound t t.cmp k = (ZIX_STATUS_SUCCESS, it) ∧
      ((zix_btree_iter_is_end it = true ∧ ∀ x ∈ zix_btree_inorder t, t.cmp x k < 0) ∨
        (∃ ki, zix_btree_iter_is_end it = false ∧ zix_btree_get it = some ki ∧
          ki ∈ zix_btree_inorder t ∧ t.cmp k ki ≤ 0 ∧
          ∀ y ∈ zix_btree_inorder t, t.cmp k y ≤ 0 → t.cmp ki y ≤ 0)) ∧
      ((∀ x ∈ zix_btree_inorder t, t.cmp x k < 0) → it = zix_btree_end t) ∧
      (k ∈ zix_btree_inorder t → zix_btree_get it = some k) := by
  have hs := zix_btree_valid_sorted t hv
  obtain ⟨it, h1, A, h2, h3, h4⟩ := zix_btree_lower_bound_spec t hv t.cmp k
    (zix_btree_sorted_monotone hc k _ hs)
  have hA : ∀ a ∈ A, t.cmp a k < 0 := fun a ha => (zix_not_le_iff hc).1 (h3 a ha)
  have hcase : (zix_btree_iter_is_end it = true ∧ ∀ x ∈ zix_btree_inorder t, t.cmp x k < 0) ∨
        (∃ ki, zix_btree_iter_is_end it = false ∧ zix_btree_get it = some ki ∧
          ki ∈ zix_btree_inorder t ∧ t.cmp k ki ≤ 0 ∧
          ∀ y ∈ zix_btree_inorder t, t.cmp k y ≤ 0 → t.cmp ki y ≤ 0) := by
    rcases h4 with ⟨e1, e2⟩ | ⟨ki, rest, g1, g2, g3, _⟩
    · left
      subst e1
      refine ⟨rfl, ?_⟩
      intro x hx
      rw [h2, e2, List.append_nil] at hx
      exact hA x hx
    · right
      refine ⟨ki, zix_btree_iter_is_end_of_get g1, g1, by rw [h2, g3]; simp, g2, ?_⟩
      intro y hy hky
      rw [h2, g3, List.mem_append, List.mem_cons] at hy
      rcases hy with hy | hy | hy
      · exact absurd hky (h3 y hy)
      · subst hy; rw [hc.refl]
      · rw [h2, g3] at hs
        have := (zix_btree_sorted_append hs).2
        unfold zix_btree_sorted at this
        rw [List.pairwise_cons] at this
        exact Int.le_of_lt (this.1 y hy)
  refine ⟨it, h1, hcase, ?_, ?_⟩
  · intro hall
    rcases hcase with ⟨c1, _⟩ | ⟨ki, _, _, c3, c4, _⟩
    · cases it with
      | nil => rfl
      | cons f rest => simp [zix_btree_iter_is_end] at c1
    · exact absurd c4 (zix_lt_asymm hc (hall ki c3))
  · intro hk
    rcases hcase with ⟨_, c2⟩ | ⟨ki, _, c2, _, c4, c5⟩
    · exact absurd (c2 k hk) (zix_lt_irrefl hc k)
    · have e : k = ki := zix_le_antisymm hc c4 (c5 k hk (by rw [hc.refl]))
      rw [c2, e]

theorem zix_btree_lower_bound_smallest_witness :
    ∃ it, zix_btree_lower_bound zix_btree_example zix_btree_example.cmp 3 =
        (ZIX_STATUS_SUCCESS, it) ∧
      ((zix_btree_iter_is_end it = true ∧
          ∀ x ∈ zix_btree_inorder zix_btree_example, zix_btree_example.cmp x 3 < 0) ∨
        (∃ ki, zix_btree_iter_is_end it = false ∧ zix_btree_get it = some ki ∧
          ki ∈ zix_btree_inorder zix_btree_example ∧ zix_btree_example.cmp 3 ki ≤ 0 ∧
          ∀ y ∈ zix_btree_inorder zix_btree_example,
            zix_btree_example.cmp 3 y ≤ 0 → zix_btree_example.cmp ki y ≤ 0)) ∧
      ((∀ x ∈ zix_btree_inorder zix_btree_example, zix_btree_example.cmp x 3 < 0) →
        it = zix_btree_end zix_btree_example) ∧
      (3 ∈ zix_btree_inorder zix_btree_example → zix_btree_get it = some 3) :=
  zix_btree_lower_bound_smallest zix_btree_example 3 zix_btree_example_valid int_cmp_total

/-- C7: for every valid tree and every stored key `k`, the next iterator handed
back by `remove` equals `lower_bound(k)` on the tree after the removal; it is
the `end` iterator when no remaining key is greater than `k`, and otherwise
refers to the smallest remaining key greater than `k`; walking on from it
visits exactly the remaining keys greater than `k`, in order. -/
theorem zix_btree_remove_next (t : ZixBTree) (k : Nat)
    (hv : zix_btree_valid t) (hc : ZixTotalOrder t.cmp) (hk : k ∈ zix_btree_inorder t) :
    (zix_btree_remove t k).2.2.1 =
      (zix_btree_lower_bound (zix_btree_remove t k).2.2.2 t.cmp k).2 ∧
    ((zix_btree_iter_is_end (zix_btree_remove t k).2.2.1 = true ∧
        ∀ x ∈ zix_btree_inorder (zix_btree_remove t k).2.2.2, t.cmp x k < 0) ∨
      (∃ s, zix_btree_get (zix_btree_remove t k).2.2.1 = some s ∧
        s ∈ zix_btree_inorder (zix_btree_remove t k).2.2.2 ∧ t.cmp k s < 0 ∧
        ∀ y ∈ zix_btree_inorder (zix_btree_remove t k).2.2.2, t.cmp k y < 0 → t.cmp s y ≤ 0)) ∧
    (∃ A B, zix_btree_inorder (zix_btree_remove t k).2.2.2 = A ++ B ∧
      (∀ a ∈ A, t.cmp a k < 0) ∧ (∀ b ∈ B, t.cmp k b < 0) ∧
      ∀ fuel, B.length ≤ fuel →
        (zix_btree_iter_walk fuel (zix_btree_remove t k).2.2.1).map zix_btree_get =
          B.map some) := by
  obtain ⟨t1, e1, e2, e3, e4, e5, e6⟩ := (zix_btree_remove_spec t k hc hv).2 hk
  have hs := zix_btree_valid_sorted t hv
  have hm := zix_btree_removed_mem hc e6 hs
  have hs1 : zix_btree_sorted t.cmp (zix_btree_inorder t1) := zix_btree_removed_sorted e6 hs
  have hv1 : zix_btree_valid_for t.cmp t1 := by
    have := e2
    unfold zix_btree_valid at this
    rw [e3] at this
    exact this
  obtain ⟨it, h1, A, h2, h3, h4⟩ := zix_btree_lower_bound_spec t1 hv1 t.cmp k
    (zix_btree_sorted_monotone hc k _ hs1)
  have hA : ∀ a ∈ A, t.cmp a k < 0 := fun a ha => (zix_not_le_iff hc).1 (h3 a ha)
  have hlt : ∀ y ∈ zix_btree_inorder t1, t.cmp k y ≤ 0 → t.cmp k y < 0 := by
    intro y hy hle
    rcases zix_le_cases hc hle with h | h
    · subst h; exact absurd rfl ((hm k).1 hy).2
    · exact h
  have hB : ∀ b ∈ zix_btree_iter_rest it, t.cmp k b < 0 := by
    intro b hb
    rcases h4 with ⟨_, e8⟩ | ⟨ki, rest, g1, g2, g3, _⟩
    · rw [e8] at hb; cases hb
    · have hsr : zix_btree_sorted t.cmp (ki :: rest) := by
        rw [h2, g3] at hs1
        exact (zix_btree_sorted_append hs1).2
      have hki : t.cmp k ki < 0 := hlt ki (by rw [h2, g3]; simp) g2
      rw [g3, List.mem_cons] at hb
      rcases hb with hb | hb
      · subst hb; exact hki
      · unfold zix_btree_sorted at hsr
        rw [List.pairwise_cons] at hsr
        exact hc.trans _ _ _ hki (hsr.1 b hb)
  rw [e1]
  simp only [h1]
  refine ⟨trivial, ?_, ⟨A, zix_btree_iter_rest it, h2, hA, hB, ?_⟩⟩
  · rcases h4 with ⟨e7, e8⟩ | ⟨ki, rest, g1, g2, g3, _⟩
    · left
      subst e7
      refine ⟨rfl, ?_⟩
      intro x hx
      rw [h2, e8, List.append_nil] at hx
      exact hA x hx
    · right
      refine ⟨ki, g1, by rw [h2, g3]; simp, hB ki (by rw [g3]; simp), ?_⟩
      intro y hy hky
      rw [h2, g3, List.mem_append, List.mem_cons] at hy
      rcases hy with hy | hy | hy
      · exact absurd (Int.le_of_lt hky) (h3 y hy)
      · subst hy; rw [hc.refl]
      · rw [h2, g3] at hs1
        have := (zix_btree_sorted_append hs1).2
        unfold zix_btree_sorted at this
        rw [List.pairwise_cons] at this
        exact Int.le_of_lt (this.1 y hy)
  · intro fuel hf
    refine zix_btree_iter_spec t1 hv1 fuel it ?_ hf
    rcases h4 with ⟨e7, _⟩ | ⟨_, _, _, _, _, g4⟩
    · exact Or.inl e7
    · exact Or.inr g4

theorem zix_btree_remove_next_witness :
    3 ∈ zix_btree_inorder zix_btree_example ∧
    (zix_btree_remove zix_btree_example 3).2.2.1 =
      (zix_btree_lower_bound (zix_btree_remove zix_btree_example 3).2.2.2
        zix_btree_example.cmp 3).2 ∧
    ((zix_btree_iter_is_end (zix_btree_remove zix_btree_example 3).2.2.1 = true ∧
        ∀ x ∈ zix_btree_inorder (zix_btree_remove zix_btree_example 3).2.2.2,
          zix_btree_example.cmp x 3 < 0) ∨
      (∃ s, zix_btree_get (zix_btree_remove zix_btree_example 3).2.2.1 = some s ∧
        s ∈ zix_btree_inorder (zix_btree_remove zix_btree_example 3).2.2.2 ∧
        zix_btree_example.cmp 3 s < 0 ∧
        ∀ y ∈ zix_btree_inorder (zix_btree_remove zix_btree_example 3).2.2.2,
          zix_btree_example.cmp 3 y < 0 → zix_btree_example.cmp s y ≤ 0)) ∧
    (∃ A B, zix_btree_inorder (zix_btree_remove zix_btree_example 3).2.2.2 = A ++ B ∧
      (∀ a ∈ A, zix_btree_example.cmp a 3 < 0) ∧ (∀ b ∈ B, zix_btree_example.cmp 3 b < 0) ∧
      ∀ fuel, B.length ≤ fuel →
        (zix_btree_iter_walk fuel (zix_btree_remove zix_btree_example 3).2.2.1).map
          zix_btree_get = B.map some) :=
  ⟨by decide,
    zix_btree_remove_next zix_btree_example 3 zix_btree_example_valid int_cmp_total
      (by decide)⟩

theorem zix_btree_reserve_false_iff (n : Nat) (a : ZixAllocator) :
    (zix_btree_reserve n a).1 = false ↔
      ∃ j, j < n ∧ a.grants (a.n_allocations + j) = false := by
  constructor
  · intro h
    by_contra hne
    have hall : ∀ j, j < n → a.grants (a.n_allocations + j) = true := by
      intro j hj
      by_contra hg
      exact hne ⟨j, hj, by simpa using hg⟩
    rw [(zix_btree_reserve_true_iff n a).2 hall] at h
    cases h
  · intro h
    exact (zix_btree_reserve_fail n a h).1

/-- The outcome of `insert` once the pure insertion below the root did not find
the key: the nodes are reserved first. -/
theorem zix_btree_insert_reserve (n : Nat) (a : ZixAllocator) (t t1 : ZixBTree) :
    ((match zix_btree_reserve n a with
      | (false, a1) => (ZIX_STATUS_NO_MEM, t, a1)
      | (true, a1) => (ZIX_STATUS_SUCCESS, t1, a1)).1 = ZIX_STATUS_NO_MEM ↔
        ∃ j, j < n ∧ a.grants (a.n_allocations + j) = false) ∧
    ((∃ j, j < n ∧ a.grants (a.n_allocations + j) = false) →
      (match zix_btree_reserve n a with
        | (false, a1) => (ZIX_STATUS_NO_MEM, t, a1)
        | (true, a1) => (ZIX_STATUS_SUCCESS, t1, a1)).2.1 = t ∧
      (match zix_btree_reserve n a with
        | (false, a1) => (ZIX_STATUS_NO_MEM, t, a1)
        | (true, a1) => (ZIX_STATUS_SUCCESS, t1, a1)).2.2.n_live = a.n_live) := by
  have h1 := zix_btree_reserve_false_iff n a
  have h2 := zix_btree_reserve_fail n a
  cases hr : zix_btree_reserve n a with
  | mk b a1 =>
    rw [hr] at h1 h2
    cases b
    · simp only at h1 h2 ⊢
      refine ⟨⟨fun _ => h1.1 trivial, fun _ => trivial⟩, fun h => ⟨trivial, (h2 h).2⟩⟩
    · simp only at h1 h2 ⊢
      constructor
      · constructor
        · intro h; cases h
        · intro h; have := h1.2 h; cases this
      · intro h; have := h1.2 h; cases this

/-- C8: `insert` returns NO_MEM exactly when the allocator refuses one of the
allocations the insertion requests; the tree afterwards is then identical to
the tree before the call, and every node obtained during the failed call has
been released again (the number of outstanding blocks is as before). -/
theorem zix_btree_insert_no_mem (t : ZixBTree) (e : Nat) (a : ZixAllocator) :
    ((zix_btree_insert t e a).1 = ZIX_STATUS_NO_MEM ↔
      ∃ j, j < zix_btree_insert_requests t e ∧ a.grants (a.n_allocations + j) = false) ∧
    ((∃ j, j < zix_btree_insert_requests t e ∧ a.grants (a.n_allocations + j) = false) →
      (zix_btree_insert t e a).2.1 = t ∧
      (zix_btree_insert t e a).2.2.n_live = a.n_live) := by
  unfold zix_btree_insert zix_btree_insert_requests
  cases hroot : t.root with
  | none =>
    simp only
    exact zix_btree_insert_reserve 1 a t _
  | some n =>
    simp only
    cases hins : zix_btree_insert_node t.fanout t.cmp e n with
    | found => simp
    | invalid => simp
    | fits n1 =>
      simp only
      exact zix_btree_insert_reserve _ a t _
    | overflow l m r =>
      simp only
      exact zix_btree_insert_reserve _ a t _

theorem zix_btree_insert_no_mem_witness :
    (∃ j, j < zix_btree_insert_requests
        { fanout := 4, cmp := int_cmp, root := some (.leaf [1, 2, 3]), size := 3 } 4 ∧
      (zix_failing_allocator 1).grants ((zix_failing_allocator 1).n_allocations + j) = false) ∧
    (zix_btree_insert { fanout := 4, cmp := int_cmp, root := some (.leaf [1, 2, 3]), size := 3 }
      4 (zix_failing_allocator 1)).2.1 =
        { fanout := 4, cmp := int_cmp, root := some (.leaf [1, 2, 3]), size := 3 } ∧
    (zix_btree_insert { fanout := 4, cmp := int_cmp, root := some (.leaf [1, 2, 3]), size := 3 }
      4 (zix_failing_allocator 1)).2.2.n_live = (zix_failing_allocator 1).n_live :=
  ⟨⟨1, by decide, by decide⟩,
    (zix_btree_insert_no_mem
      { fanout := 4, cmp := int_cmp, root := some (.leaf [1, 2, 3]), size := 3 } 4
      (zix_failing_allocator 1)).2 ⟨1, by decide, by decide⟩⟩

/-! ## Reachable trees -/

theorem zix_btree_apply_valid (s : ZixBTree × ZixAllocator) (op : ZixBTreeOp)
    (hv : zix_btree_valid s.1) (hc : ZixTotalOrder s.1.cmp) :
    zix_btree_valid (zix_btree_apply s op).1 ∧ (zix_btree_apply s op).1.cmp = s.1.cmp := by
  obtain ⟨t, a⟩ := s
  simp only at hv hc
  cases op with
  | insert e =>
    simp only [zix_btree_apply]
    obtain ⟨s1, s2⟩ := zix_btree_insert_spec hc t e a hv (fun _ _ => rfl)
    by_cases hmem : e ∈ zix_btree_inorder t
    · rw [s1 hmem]; exact ⟨hv, rfl⟩
    · obtain ⟨s3, s4⟩ := s2 hmem
      cases hr : (zix_btree_reserve (zix_btree_insert_requests t e) a).1 with
      | false => rw [s4 hr]; exact ⟨hv, rfl⟩
      | true =>
        obtain ⟨t1, e1, e2, e3, _⟩ := s3 hr
        rw [e1]
        refine ⟨?_, e3⟩
        unfold zix_btree_valid
        simp only
        rw [e3]; exact e2
  | remove e =>
    simp only [zix_btree_apply]
    obtain ⟨s1, s2⟩ := zix_btree_remove_spec t e hc hv
    by_cases hmem : e ∈ zix_btree_inorder t
    · obtain ⟨t1, e1, e2, e3, _⟩ := s2 hmem
      rw [e1]; exact ⟨e2, e3⟩
    · rw [s1 hmem]; exact ⟨hv, rfl⟩
  | clear =>
    simp only [zix_btree_apply, zix_btree_clear]
    exact ⟨⟨hv.1, rfl⟩, trivial⟩

theorem zix_btree_run_valid : ∀ (ops : List ZixBTreeOp) (s : ZixBTree × ZixAllocator),
    zix_btree_valid s.1 → ZixTotalOrder s.1.cmp →
    zix_btree_valid (zix_btree_run s ops).1 ∧ (zix_btree_run s ops).1.cmp = s.1.cmp := by
  intro ops
  induction ops with
  | nil => intro s hv _; exact ⟨hv, rfl⟩
  | cons op ops ih =>
    intro s hv hc
    obtain ⟨a1, a2⟩ := zix_btree_apply_valid s op hv hc
    obtain ⟨b1, b2⟩ := ih (zix_btree_apply s op) a1 (by rw [a2]; exact hc)
    simp only [zix_btree_run, List.foldl_cons] at b1 b2 ⊢
    exact ⟨b1, by rw [b2, a2]⟩

/-- C9: every tree reachable from the empty tree by any sequence of insert,
remove and clear operations, under any allocator, satisfies the structural
invariant: all leaves at the same depth, every non-root node between
`ceil(M/2) - 1` and `M - 1` keys and the root at most `M - 1`, keys inside
each node strictly increasing, and key `i` of an internal node at or above
every key of child `i` and below every key of child `i + 1`. -/
theorem zix_btree_run_invariant (M : Nat) (hM : 3 ≤ M) (cmp : Nat → Nat → Int)
    (hc : ZixTotalOrder cmp) (ops : List ZixBTreeOp) (a : ZixAllocator) :
    zix_btree_structural_invariant (zix_btree_run (zix_btree_new M cmp, a) ops).1 :=
  zix_btree_valid_structural _
    (zix_btree_run_valid ops (zix_btree_new M cmp, a)
      (zix_btree_valid_for_new cmp M cmp hM) hc).1

theorem zix_btree_run_invariant_witness :
    zix_btree_structural_invariant
      (zix_btree_run (zix_btree_new 4 int_cmp, zix_failing_allocator 5)
        [.insert 5, .insert 1, .insert 3, .insert 2, .insert 4, .remove 3, .insert 6,
          .insert 7, .clear, .insert 2, .remove 9]).1 :=
  zix_btree_run_invariant 4 (by decide) int_cmp int_cmp_total _ _

/-! ## The wildcard comparator -/

theorem wildcard_cmp_nonzero (unique_rand : Nat → Nat) (ctx : TestContext) (a b : Nat)
    (ha : a ≠ 0) (hb : b ≠ 0) : wildcard_cmp unique_rand ctx a b = int_cmp a b := by
  simp [wildcard_cmp, ha, hb]

theorem wildcard_cmp_zero_le (unique_rand : Nat → Nat) (ctx : TestContext) (b : Nat) :
    wildcard_cmp unique_rand ctx 0 b ≤ 0 ↔
      wildcard_cut unique_rand ctx.test_num ctx.n_elems ≤ b := by
  unfold wildcard_cmp
  simp only [if_true]
  split_ifs with h
  · simp [h]
  · simp only [not_le] at h
    constructor
    · intro h1; omega
    · intro h1; omega

/-- C10: for every tree filled with non-zero keys that include the value `cut`,
`lower_bound` with the wildcard comparator and query key `0` returns an
iterator to exactly the key `cut`, which is the lowest key the wildcard
matches. -/
theorem zix_btree_lower_bound_wildcard (unique_rand : Nat → Nat) (ctx : TestContext)
    (M : Nat) (hM : 3 ≤ M) (keys : List Nat) (a : ZixAllocator)
    (hnz : ∀ k ∈ keys, k ≠ 0)
    (hcut : wildcard_cut unique_rand ctx.test_num ctx.n_elems ∈ keys)
    (ha : ∀ n, a.grants n = true) :
    ∃ it,
      zix_btree_lower_bound
          (zix_btree_insert_all (zix_btree_new M (wildcard_cmp unique_rand ctx)) a keys).2.1
          (wildcard_cmp unique_rand ctx) 0 = (ZIX_STATUS_SUCCESS, it) ∧
      zix_btree_get it = some (wildcard_cut unique_rand ctx.test_num ctx.n_elems) ∧
      ∀ x ∈ zix_btree_inorder
          (zix_btree_insert_all (zix_btree_new M (wildcard_cmp unique_rand ctx)) a keys).2.1,
        wildcard_cmp unique_rand ctx 0 x = 0 →
          wildcard_cut unique_rand ctx.test_num ctx.n_elems ≤ x := by
  obtain ⟨h1, _, _, h4, _, _⟩ := zix_btree_insert_all_spec int_cmp_total keys
    (zix_btree_new M (wildcard_cmp unique_rand ctx)) a
    (zix_btree_valid_for_new int_cmp M _ hM)
    (by
      intro e he x hx
      have hx1 : x ∈ keys := by
        rcases hx with hx | hx
        · simp [zix_btree_inorder, zix_btree_new] at hx
        · exact hx
      exact wildcard_cmp_nonzero unique_rand ctx e x (hnz e he) (hnz x hx1)) ha
  have hs := zix_btree_valid_sorted _ h1
  have hmono : (zix_btree_inorder
      (zix_btree_insert_all (zix_btree_new M (wildcard_cmp unique_rand ctx)) a keys).2.1).Pairwise
      (fun x y => wildcard_cmp unique_rand ctx 0 x ≤ 0 →
        wildcard_cmp unique_rand ctx 0 y ≤ 0) := by
    unfold zix_btree_sorted at hs
    refine hs.imp ?_
    intro x y hxy hx
    rw [wildcard_cmp_zero_le] at hx ⊢
    have : x < y := by
      unfold int_cmp at hxy
      split_ifs at hxy <;> omega
    omega
  obtain ⟨it, g1, A, g2, g3, g4⟩ := zix_btree_lower_bound_spec _ h1
    (wildcard_cmp unique_rand ctx) 0 hmono
  have hcm : wildcard_cut unique_rand ctx.test_num ctx.n_elems ∈ zix_btree_inorder
      (zix_btree_insert_all (zix_btree_new M (wildcard_cmp unique_rand ctx)) a keys).2.1 :=
    (h4 _).2 (Or.inr hcut)
  have hcA : wildcard_cut unique_rand ctx.test_num ctx.n_elems ∉ A := by
    intro hmem
    exact g3 _ hmem ((wildcard_cmp_zero_le unique_rand ctx _).2 (le_refl _))
  refine ⟨it, g1, ?_, ?_⟩
  · rw [g2, List.mem_append] at hcm
    rcases hcm with hcm | hcm
    · exact absurd hcm hcA
    · rcases g4 with ⟨_, e2⟩ | ⟨ki, rest, k1, k2, k3, _⟩
      · rw [e2] at hcm; cases hcm
      · rw [k1]
        rw [wildcard_cmp_zero_le] at k2
        rw [k3, List.mem_cons] at hcm
        rcases hcm with hcm | hcm
        · rw [hcm]
        · exfalso
          rw [g2, k3] at hs
          have := (zix_btree_sorted_append hs).2
          unfold zix_btree_sorted at this
          rw [List.pairwise_cons] at this
          have hlt := this.1 _ hcm
          unfold int_cmp at hlt
          split_ifs at hlt <;> omega
  · intro x _ hx
    exact (wildcard_cmp_zero_le unique_rand ctx x).1 (by rw [hx])

theorem zix_btree_lower_bound_wildcard_witness :
    (∀ k ∈ [5, 1, 6, 2, 4, 3], k ≠ 0) ∧
    wildcard_cut (fun _ => 0) 0 6 ∈ [5, 1, 6, 2, 4, 3] ∧
    ∃ it,
      zix_btree_lower_bound
          (zix_btree_insert_all (zix_btree_new 4 (wildcard_cmp (fun _ => 0) ⟨0, 6⟩))
            zix_default_allocator [5, 1, 6, 2, 4, 3]).2.1
          (wildcard_cmp (fun _ => 0) ⟨0, 6⟩) 0 = (ZIX_STATUS_SUCCESS, it) ∧
      zix_btree_get it = some (wildcard_cut (fun _ => 0) 0 6) ∧
      ∀ x ∈ zix_btree_inorder
          (zix_btree_insert_all (zix_btree_new 4 (wildcard_cmp (fun _ => 0) ⟨0, 6⟩))
            zix_default_allocator [5, 1, 6, 2, 4, 3]).2.1,
        wildcard_cmp (fun _ => 0) ⟨0, 6⟩ 0 x = 0 → wildcard_cut (fun _ => 0) 0 6 ≤ x :=
  ⟨by decide, by decide,
    zix_btree_lower_bound_wildcard (fun _ => 0) ⟨0, 6⟩ 4 (by decide) [5, 1, 6, 2, 4, 3]
      zix_default_allocator (by decide) (by decide) (fun _ => rfl)⟩

/-! ## Iterator comparison: from begin to end -/

mutual
theorem zix_btree_node_equals_iff : ∀ (a b : ZixBTreeNode),
    zix_btree_node_equals a b = true ↔ a = b
  | .leaf ks1, .leaf ks2 => by simp [zix_btree_node_equals]
  | .internal ks1 cs1, .internal ks2 cs2 => by
    simp [zix_btree_node_equals, zix_btree_children_equals_iff cs1 cs2]
  | .leaf _, .internal _ _ => by simp [zix_btree_node_equals]
  | .internal _ _, .leaf _ => by simp [zix_btree_node_equals]
theorem zix_btree_children_equals_iff : ∀ (as bs : List ZixBTreeNode),
    zix_btree_children_equals as bs = true ↔ as = bs
  | [], [] => by simp [zix_btree_children_equals]
  | a :: as, b :: bs => by
    simp [zix_btree_children_equals, zix_btree_node_equals_iff a b,
      zix_btree_children_equals_iff as bs]
  | [], _ :: _ => by simp [zix_btree_children_equals]
  | _ :: _, [] => by simp [zix_btree_children_equals]
end

theorem zix_btree_iter_equals_iff : ∀ (p q : ZixBTreeIter),
    zix_btree_iter_equals p q = true ↔ p = q
  | [], [] => by simp [zix_btree_iter_equals]
  | (n1, i1) :: p1, (n2, i2) :: p2 => by
    simp [zix_btree_iter_equals, zix_btree_node_equals_iff n1 n2,
      zix_btree_iter_equals_iff p1 p2, and_assoc]
  | [], _ :: _ => by simp [zix_btree_iter_equals]
  | _ :: _, [] => by simp [zix_btree_iter_equals]

theorem zix_btree_iter_increment_nil : zix_btree_iter_increment [] = [] := rfl

theorem zix_btree_iter_rest_pos (M : Nat) (hM : 3 ≤ M) (h lo : Nat) (n : ZixBTreeNode)
    (hn : zix_btree_node_inv M h lo n) (p : ZixBTreeIter) (hp : zix_btree_path_in n p) :
    zix_btree_iter_rest p ≠ [] := by
  obtain ⟨k, _, k2, _⟩ := zix_btree_iter_step_spec M hM h lo n p hn hp
  rw [k2]
  exact List.cons_ne_nil _ _

/-- After `j` increments the iterator is the `end` sentinel or a path of the
tree, and the keys still ahead of it are those of the start without the first
`j`. -/
theorem zix_btree_iter_advance_spec (M : Nat) (hM : 3 ≤ M) (h lo : Nat) (n : ZixBTreeNode)
    (hn : zix_btree_node_inv M h lo n) : ∀ (j : Nat) (p : ZixBTreeIter),
    (p = [] ∨ zix_btree_path_in n p) →
    (zix_btree_iter_advance j p = [] ∨ zix_btree_path_in n (zix_btree_iter_advance j p)) ∧
      zix_btree_iter_rest (zix_btree_iter_advance j p) = (zix_btree_iter_rest p).drop j := by
  intro j
  induction j with
  | zero =>
    intro p hp
    exact ⟨hp, by simp [zix_btree_iter_advance]⟩
  | succ j ih =>
    intro p hp
    simp only [zix_btree_iter_advance]
    rcases hp with hp | hp
    · subst hp
      rw [zix_btree_iter_increment_nil]
      obtain ⟨i1, i2⟩ := ih [] (Or.inl rfl)
      refine ⟨i1, ?_⟩
      rw [i2]
      simp [zix_btree_iter_rest]
    · obtain ⟨k, _, k2, k3⟩ := zix_btree_iter_step_spec M hM h lo n p hn hp
      cases hs : zix_btree_iter_step p with
      | none =>
        have e : zix_btree_iter_increment p = [] := by
          simp [zix_btree_iter_increment, hs, zix_btree_end_iter]
        rw [hs] at k2
        obtain ⟨i1, i2⟩ := ih [] (Or.inl rfl)
        rw [e, k2]
        refine ⟨i1, ?_⟩
        rw [i2]
        simp [zix_btree_iter_rest]
      | some q =>
        have e : zix_btree_iter_increment p = q := by
          simp [zix_btree_iter_increment, hs]
        rw [hs] at k2
        obtain ⟨i1, i2⟩ := ih q (Or.inr (k3 q hs))
        rw [e, k2]
        refine ⟨i1, ?_⟩
        rw [i2]
        simp

/-- C11: for every valid tree, `begin` equals `end` exactly when the tree is
empty, `is_end` holds of the `end` iterator, and incrementing `begin` reaches an
iterator equal to `end` after exactly `size` increments: after fewer increments
the iterator is neither equal to `end` nor `is_end`. -/
theorem zix_btree_begin_reaches_end (t : ZixBTree) (hv : zix_btree_valid t) :
    (zix_btree_iter_equals (zix_btree_begin t) (zix_btree_end t) = true ↔
        zix_btree_size t = 0) ∧
      zix_btree_iter_is_end (zix_btree_end t) = true ∧
      zix_btree_iter_equals (zix_btree_iter_advance (zix_btree_size t) (zix_btree_begin t))
        (zix_btree_end t) = true ∧
      (∀ j, j < zix_btree_size t →
        zix_btree_iter_equals (zix_btree_iter_advance j (zix_btree_begin t))
            (zix_btree_end t) = false ∧
          zix_btree_iter_equals (zix_btree_end t)
            (zix_btree_iter_advance j (zix_btree_begin t)) = false ∧
          zix_btree_iter_is_end (zix_btree_iter_advance j (zix_btree_begin t)) = false) := by
  have hsz := zix_btree_valid_size t hv
  obtain ⟨M, cmp, root, sz⟩ := t
  cases root with
  | none =>
    have h0 : sz = 0 := by simpa [zix_btree_inorder] using hsz
    subst h0
    refine ⟨?_, rfl, rfl, ?_⟩
    · simp [zix_btree_begin, zix_btree_end, zix_btree_end_iter, zix_btree_iter_equals,
        zix_btree_size]
    · intro j hj
      simp [zix_btree_size] at hj
  | some n =>
    obtain ⟨hM, hn, _, _⟩ := zix_btree_valid_for_root hv rfl
    simp only at hM hn
    simp only [zix_btree_inorder] at hsz
    obtain ⟨b1, b2⟩ := zix_btree_begin_node_spec M hM _ 1 n hn (le_refl _)
    have hadv := fun j => zix_btree_iter_advance_spec M hM _ 1 n hn j
      (zix_btree_begin_node n) (Or.inr b1)
    have hne : ∀ j, j < sz → zix_btree_iter_advance j (zix_btree_begin_node n) ≠ [] := by
      intro j hj e
      have h2 := (hadv j).2
      rw [e, b2] at h2
      have h3 := congrArg List.length h2
      simp [zix_btree_iter_rest] at h3
      omega
    have hpos : 0 < sz := by
      have h1 := zix_btree_iter_rest_pos M hM _ 1 n hn _ b1
      rw [b2] at h1
      rw [hsz]
      exact List.length_pos.mpr h1
    simp only [zix_btree_begin, zix_btree_end, zix_btree_end_iter, zix_btree_size]
    refine ⟨?_, rfl, ?_, ?_⟩
    · constructor
      · intro he
        exact absurd ((zix_btree_iter_equals_iff _ _).mp he) (hne 0 hpos)
      · intro he
        omega
    · rw [zix_btree_iter_equals_iff]
      rcases (hadv sz).1 with h1 | h1
      · exact h1
      · exfalso
        apply zix_btree_iter_rest_pos M hM _ 1 n hn _ h1
        rw [(hadv sz).2, b2, hsz]
        simp
    · intro j hj
      have h1 := hne j hj
      refine ⟨?_, ?_, ?_⟩
      · cases he : zix_btree_iter_equals (zix_btree_iter_advance j (zix_btree_begin_node n)) []
        · rfl
        · exact absurd ((zix_btree_iter_equals_iff _ _).mp he) h1
      · cases he : zix_btree_iter_equals [] (zix_btree_iter_advance j (zix_btree_begin_node n))
        · rfl
        · exact absurd ((zix_btree_iter_equals_iff _ _).mp he).symm h1
      · cases hq : zix_btree_iter_advance j (zix_btree_begin_node n) with
        | nil => exact absurd hq h1
        | cons f r => rfl

theorem zix_btree_begin_reaches_end_witness :
    (zix_btree_iter_equals (zix_btree_begin zix_btree_example)
          (zix_btree_end zix_btree_example) = true ↔
        zix_btree_size zix_btree_example = 0) ∧
      zix_btree_iter_is_end (zix_btree_end zix_btree_example) = true ∧
      zix_btree_iter_equals
        (zix_btree_iter_advance (zix_btree_size zix_btree_example)
          (zix_btree_begin zix_btree_example))
        (zix_btree_end zix_btree_example) = true ∧
      (∀ j, j < zix_btree_size zix_btree_example →
        zix_btree_iter_equals (zix_btree_iter_advance j (zix_btree_begin zix_btree_example))
            (zix_btree_end zix_btree_example) = false ∧
          zix_btree_iter_equals (zix_btree_end zix_btree_example)
            (zix_btree_iter_advance j (zix_btree_begin zix_btree_example)) = false ∧
          zix_btree_iter_is_end
            (zix_btree_iter_advance j (zix_btree_begin zix_btree_example)) = false) :=
  zix_btree_begin_reaches_end zix_btree_example zix_btree_example_valid

/-! ## Ring buffer: index arithmetic -/

theorem zix_mod_of_eq {x y m size : Nat} (h : x = y + size * m) (hy : y < size) :
    x % size = y := by
  rw [h, Nat.add_mul_mod_self_left, Nat.mod_eq_of_lt hy]

theorem zix_mod_wrap {a size : Nat} (h : a < 2 * size) :
    a % size = if a < size then a else a - size := by
  split_ifs with h1
  · exact Nat.mod_eq_of_lt h1
  · exact zix_mod_of_eq (m := 1) (by omega) (by omega)

/-- The quotient of `2 ^ 32` by a power of two that fits `uint32_t`. -/
theorem zix_ring_size_quot {size : Nat} (hs : ∃ k, k ≤ 31 ∧ size = 2 ^ k) :
    0 < size ∧ size ≤ 2 ^ 31 ∧ ∃ q, 2 ^ 32 = size * q + size := by
  obtain ⟨k, hk, e⟩ := hs
  subst e
  have h1 : 0 < 2 ^ k := Nat.two_pow_pos _
  have h2 : 2 ^ k ≤ 2 ^ 31 := Nat.pow_le_pow_right (by decide) hk
  refine ⟨h1, h2, 2 ^ (32 - k) - 1, ?_⟩
  have h3 : 2 ^ 32 = 2 ^ k * 2 ^ (32 - k) := by
    rw [← Nat.pow_add]
    congr 1
    omega
  have h4 : 0 < 2 ^ (32 - k) := Nat.two_pow_pos _
  rw [h3, Nat.mul_sub, Nat.mul_one]
  have h5 : 2 ^ k * 1 ≤ 2 ^ k * 2 ^ (32 - k) := Nat.mul_le_mul_left _ h4
  omega

theorem zix_ring_valid_size {ring : ZixRing} (hv : zix_ring_valid ring) :
    0 < ring.size ∧ ring.size ≤ 2 ^ 31 ∧ ∃ q, 2 ^ 32 = ring.size * q + ring.size :=
  zix_ring_size_quot hv.1

/-- On a valid ring, masking with `size_mask` is reduction modulo `size`. -/
theorem zix_ring_mask {ring : ZixRing} (hv : zix_ring_valid ring) (x : Nat) :
    x &&& ring.size_mask = x % ring.size := by
  obtain ⟨⟨k, _, e⟩, hm, _⟩ := hv
  rw [hm, e]
  exact Nat.and_pow_two_sub_one_eq_mod x k

/-- The read space of a valid ring, without wrapping arithmetic. -/
theorem read_space_internal_eq {ring : ZixRing} (hv : zix_ring_valid ring) (r w : Nat)
    (hr : r < ring.size) (hw : w < ring.size) :
    read_space_internal ring r w = if r ≤ w then w - r else w + ring.size - r := by
  obtain ⟨h0, h31, q, hq⟩ := zix_ring_valid_size hv
  unfold read_space_internal
  rw [zix_ring_mask hv]
  split_ifs with h
  · have e : (w + 2 ^ 32 - r) % 2 ^ 32 = w - r := by omega
    rw [e]
    exact Nat.mod_eq_of_lt (by omega)
  · have e : (w + 2 ^ 32 - r) % 2 ^ 32 = w + 2 ^ 32 - r := by omega
    rw [e]
    exact zix_mod_of_eq (m := q) (by omega) (by omega)

/-- The write space of a valid ring, without wrapping arithmetic. -/
theorem write_space_internal_eq {ring : ZixRing} (hv : zix_ring_valid ring) (r w : Nat)
    (hr : r < ring.size) (hw : w < ring.size) :
    write_space_internal ring r w =
      if w < r then r - w - 1 else r + ring.size - w - 1 := by
  obtain ⟨h0, h31, q, hq⟩ := zix_ring_valid_size hv
  unfold write_space_internal
  rw [zix_ring_mask hv]
  split_ifs with h
  · have e : ((r + 2 ^ 32 - w) % 2 ^ 32 + 2 ^ 32 - 1) % 2 ^ 32 = r - w - 1 := by omega
    rw [e]
    exact Nat.mod_eq_of_lt (by omega)
  · have e : ((r + 2 ^ 32 - w) % 2 ^ 32 + 2 ^ 32 - 1) % 2 ^ 32 = r + 2 ^ 32 - w - 1 := by
      omega
    rw [e]
    exact zix_mod_of_eq (m := q) (by omega) (by omega)

theorem zix_ring_capacity_eq {ring : ZixRing} (hv : zix_ring_valid ring) :
    zix_ring_capacity ring = ring.size - 1 := by
  obtain ⟨h0, h31, _⟩ := zix_ring_valid_size hv
  unfold zix_ring_capacity
  omega

theorem zix_ring_read_space_eq {ring : ZixRing} (hv : zix_ring_valid ring) :
    zix_ring_read_space ring =
      if ring.read_head ≤ ring.write_head then ring.write_head - ring.read_head
      else ring.write_head + ring.size - ring.read_head :=
  read_space_internal_eq hv _ _ hv.2.2.1 hv.2.2.2.1

theorem zix_ring_write_space_eq {ring : ZixRing} (hv : zix_ring_valid ring) :
    zix_ring_write_space ring =
      if ring.write_head < ring.read_head then ring.read_head - ring.write_head - 1
      else ring.read_head + ring.size - ring.write_head - 1 :=
  write_space_internal_eq hv _ _ hv.2.2.1 hv.2.2.2.1

/-! ## Ring buffer: block copies -/

theorem memcpy_length (dst : List ZixByte) (d : Nat) (src : List ZixByte) (s : Nat) :
    ∀ n, (memcpy dst d src s n).length = dst.length := by
  intro n
  induction n with
  | zero => rfl
  | succ n ih => simp [memcpy, ih]

/-- Byte `i` of the destination after a copy: a byte of the source inside the
copied range, the old byte outside. -/
theorem memcpy_getD (dst : List ZixByte) (d : Nat) (src : List ZixByte) (s : Nat) :
    ∀ (n i : Nat), (memcpy dst d src s n).getD i 0 =
      if d ≤ i ∧ i < d + n ∧ i < dst.length then src.getD (s + (i - d)) 0
      else dst.getD i 0 := by
  intro n
  induction n with
  | zero =>
    intro i
    have h0 : ¬ (d ≤ i ∧ i < d + 0 ∧ i < dst.length) := by omega
    rw [if_neg h0]
    rfl
  | succ n ih =>
    intro i
    have hlen := memcpy_length dst d src s n
    simp only [memcpy, List.getD_eq_getElem?_getD, List.getElem?_set, hlen]
    have ih2 := ih i
    simp only [List.getD_eq_getElem?_getD] at ih2
    by_cases h1 : d + n = i
    · subst h1
      by_cases h2 : d + n < dst.length
      · have h3 : d ≤ d + n ∧ d + n < d + (n + 1) ∧ d + n < dst.length := by omega
        simp [h2, h3]
      · have h3 : ¬ (d ≤ d + n ∧ d + n < d + (n + 1) ∧ d + n < dst.length) := by omega
        have h4 : dst.length ≤ d + n := by omega
        simp [h2, h3, List.getElem?_eq_none h4]
    · rw [if_neg h1, ih2]
      by_cases h2 : d ≤ i ∧ i < d + n ∧ i < dst.length
      · have h3 : d ≤ i ∧ i < d + (n + 1) ∧ i < dst.length := by omega
        rw [if_pos h2, if_pos h3]
      · have h3 : ¬ (d ≤ i ∧ i < d + (n + 1) ∧ i < dst.length) := by omega
        rw [if_neg h2, if_neg h3]

/-- Position `(r + i) mod size` of the buffer, seen from the write head. -/
theorem zix_ring_offset {size r w i : Nat} (hr : r < size) (hw : w < size) (hi : i < size) :
    ((r + i) % size + size - w) % size =
      if (if r ≤ w then w - r else w + size - r) ≤ i then
        i - (if r ≤ w then w - r else w + size - r)
      else i + size - (if r ≤ w then w - r else w + size - r) := by
  rw [zix_mod_wrap (a := r + i) (by omega)]
  by_cases h1 : r + i < size
  · rw [if_pos h1, zix_mod_wrap (by omega)]
    split_ifs <;> omega
  · rw [if_neg h1, zix_mod_wrap (by omega)]
    split_ifs <;> omega

/-! ## Ring buffer: the write side -/

/-- The effect of a write that the space check accepts: the result, the heads,
and every byte of the buffer afterwards. -/
theorem zix_ring_write_spec {ring : ZixRing} (hv : zix_ring_valid ring) (src : List ZixByte)
    (n : Nat) (hn : n ≤ zix_ring_write_space ring) :
    (zix_ring_write ring src n).1 = n ∧
      (zix_ring_write ring src n).2.read_head = ring.read_head ∧
      (zix_ring_write ring src n).2.size = ring.size ∧
      (zix_ring_write ring src n).2.size_mask = ring.size_mask ∧
      (zix_ring_write ring src n).2.write_head = (ring.write_head + n) % ring.size ∧
      (zix_ring_write ring src n).2.buf.length = ring.size ∧
      ∀ i, i < ring.size → (zix_ring_write ring src n).2.buf.getD i 0 =
        if (i + ring.size - ring.write_head) % ring.size < n then
          src.getD ((i + ring.size - ring.write_head) % ring.size) 0
        else ring.buf.getD i 0 := by
  obtain ⟨h0, h31, q, hq⟩ := zix_ring_valid_size hv
  have hws := zix_ring_write_space_eq hv
  obtain ⟨_, hm, hr, hw, hb⟩ := hv
  have hn2 : n ≤ ring.size - 1 := by
    rw [hws] at hn
    split_ifs at hn <;> omega
  have hnot : ¬ write_space_internal ring ring.read_head ring.write_head < n := by
    unfold zix_ring_write_space at hn
    omega
  have hend : (ring.write_head + n) % 2 ^ 32 = ring.write_head + n := by omega
  unfold zix_ring_write
  simp only [hnot, if_false, hend]
  by_cases hwrap : ring.write_head + n ≤ ring.size
  · simp only [hwrap, if_true, memcpy_length]
    refine ⟨trivial, trivial, trivial, trivial, ?_, hb, ?_⟩
    · exact zix_ring_mask ⟨‹_›, hm, hr, hw, hb⟩ _
    · intro i hi
      rw [memcpy_getD, zix_mod_wrap (by omega), hb]
      split_ifs <;> first | rfl | omega | (congr 1; omega)
  · have e1 : (ring.size + 2 ^ 32 - ring.write_head) % 2 ^ 32 = ring.size - ring.write_head := by
      omega
    have e2 : (n + 2 ^ 32 - (ring.size - ring.write_head)) % 2 ^ 32 =
        ring.write_head + n - ring.size := by omega
    simp only [hwrap, if_false, e1, e2, memcpy_length]
    refine ⟨trivial, trivial, trivial, trivial, ?_, hb, ?_⟩
    · rw [zix_mod_wrap (by omega)]
      split_ifs <;> omega
    · intro i hi
      rw [memcpy_getD, memcpy_getD, memcpy_length, zix_mod_wrap (by omega), hb]
      split_ifs <;> first | rfl | omega | (congr 1; omega)

/-- An accepted write keeps the ring valid. -/
theorem zix_ring_write_valid {ring : ZixRing} (hv : zix_ring_valid ring) (src : List ZixByte)
    (n : Nat) (hn : n ≤ zix_ring_write_space ring) :
    zix_ring_valid (zix_ring_write ring src n).2 := by
  obtain ⟨_, s2, s3, s4, s5, s6, _⟩ := zix_ring_write_spec hv src n hn
  obtain ⟨h0, _, _⟩ := zix_ring_valid_size hv
  obtain ⟨hk, hm, hr, hw, hb⟩ := hv
  refine ⟨?_, ?_, ?_, ?_, ?_⟩
  · rw [s3]; exact hk
  · rw [s4, s3]; exact hm
  · rw [s2, s3]; exact hr
  · rw [s5, s3]; exact Nat.mod_lt _ h0
  · rw [s6, s3]

/-- An accepted write of `n` bytes adds `n` to the read space. -/
theorem zix_ring_write_read_space {ring : ZixRing} (hv : zix_ring_valid ring)
    (src : List ZixByte) (n : Nat) (hn : n ≤ zix_ring_write_space ring) :
    zix_ring_read_space (zix_ring_write ring src n).2 = zix_ring_read_space ring + n := by
  obtain ⟨_, s2, s3, s4, s5, s6, _⟩ := zix_ring_write_spec hv src n hn
  have hv2 := zix_ring_write_valid hv src n hn
  rw [zix_ring_read_space_eq hv2, zix_ring_read_space_eq hv, s2, s3, s5]
  rw [zix_ring_write_space_eq hv] at hn
  obtain ⟨_, _, hr, hw, _⟩ := hv
  rw [zix_mod_wrap (by split_ifs at hn <;> omega)]
  split_ifs at hn ⊢ <;> omega

/-- An accepted write appends its bytes to the queue. -/
theorem zix_ring_write_contents {ring : ZixRing} (hv : zix_ring_valid ring)
    (src : List ZixByte) (hn : src.length ≤ zix_ring_write_space ring) :
    zix_ring_contents (zix_ring_write ring src src.length).2 =
      zix_ring_contents ring ++ src := by
  obtain ⟨_, s2, s3, s4, s5, s6, s7⟩ := zix_ring_write_spec hv src src.length hn
  have hrs := zix_ring_write_read_space hv src src.length hn
  have hrs0 := zix_ring_read_space_eq hv
  have hws0 := zix_ring_write_space_eq hv
  obtain ⟨h0, _, _⟩ := zix_ring_valid_size hv
  obtain ⟨_, _, hr, hw, _⟩ := hv
  have hsum : zix_ring_read_space ring + src.length ≤ ring.size - 1 := by
    rw [hrs0]
    rw [hws0] at hn
    split_ifs at hn ⊢ <;> omega
  unfold zix_ring_contents
  rw [hrs, s2, s3, List.range_add, List.map_append]
  congr 1
  · apply List.map_congr_left
    intro i hi
    rw [List.mem_range] at hi
    rw [s7 _ (Nat.mod_lt _ h0), zix_ring_offset hr hw (by omega), ← hrs0]
    have h1 : ¬ zix_ring_read_space ring ≤ i := by omega
    rw [if_neg h1]
    have h2 : ¬ i + ring.size - zix_ring_read_space ring < src.length := by omega
    rw [if_neg h2]
  · apply List.ext_getElem
    · simp
    · intro j h1 h2
      simp only [List.getElem_map, List.getElem_range]
      rw [s7 _ (Nat.mod_lt _ h0), zix_ring_offset hr hw (by omega), ← hrs0]
      have h3 : zix_ring_read_space ring ≤ zix_ring_read_space ring + j := by omega
      rw [if_pos h3]
      have h4 : zix_ring_read_space ring + j - zix_ring_read_space ring = j := by omega
      rw [h4, if_pos h2]
      simp [List.getD_eq_getElem?_getD, List.getElem?_eq_getElem h2]

/-! ## Ring buffer: the read side -/

/-- The effect of `peek_internal` when the space check accepts: the result and
every byte of the destination afterwards. -/
theorem peek_internal_spec {ring : ZixRing} (hv : zix_ring_valid ring) (dst : List ZixByte)
    (n : Nat) (hn : n ≤ zix_ring_read_space ring) (hd : n ≤ dst.length) :
    (peek_internal ring ring.read_head ring.write_head n dst).1 = n ∧
      (peek_internal ring ring.read_head ring.write_head n dst).2.length = dst.length ∧
      ∀ i, (peek_internal ring ring.read_head ring.write_head n dst).2.getD i 0 =
        if i < n then ring.buf.getD ((ring.read_head + i) % ring.size) 0
        else dst.getD i 0 := by
  obtain ⟨h0, h31, q, hq⟩ := zix_ring_valid_size hv
  have hrs := zix_ring_read_space_eq hv
  obtain ⟨_, hm, hr, hw, hb⟩ := hv
  have hn2 : n ≤ ring.size - 1 := by
    rw [hrs] at hn
    split_ifs at hn <;> omega
  have hnot : ¬ read_space_internal ring ring.read_head ring.write_head < n := by
    unfold zix_ring_read_space at hn
    omega
  have hend : (ring.read_head + n) % 2 ^ 32 = ring.read_head + n := by omega
  unfold peek_internal
  simp only [hnot, if_false, hend]
  by_cases hwrap : ring.read_head + n < ring.size
  · simp only [hwrap, if_true, memcpy_length]
    refine ⟨trivial, trivial, ?_⟩
    intro i
    rw [memcpy_getD]
    by_cases hi : i < n
    · have h1 : 0 ≤ i ∧ i < 0 + n ∧ i < dst.length := by omega
      rw [if_pos h1, if_pos hi, Nat.mod_eq_of_lt (by omega)]
      congr 1
    · have h1 : ¬ (0 ≤ i ∧ i < 0 + n ∧ i < dst.length) := by omega
      rw [if_neg h1, if_neg hi]
  · have e1 : (ring.size + 2 ^ 32 - ring.read_head) % 2 ^ 32 = ring.size - ring.read_head := by
      omega
    have e2 : (n + 2 ^ 32 - (ring.size - ring.read_head)) % 2 ^ 32 =
        ring.read_head + n - ring.size := by omega
    simp only [hwrap, if_false, e1, e2, memcpy_length]
    refine ⟨trivial, trivial, ?_⟩
    intro i
    rw [memcpy_getD, memcpy_getD, memcpy_length]
    by_cases hi : i < n
    · rw [if_pos hi, zix_mod_wrap (by omega)]
      split_ifs <;> first | rfl | omega | (congr 1; omega)
    · rw [if_neg hi]
      split_ifs <;> first | rfl | omega

/-- The effect of a read that the space check accepts on the ring. -/
theorem zix_ring_read_spec {ring : ZixRing} (hv : zix_ring_valid ring) (dst : List ZixByte)
    (n : Nat) (hn : n ≤ zix_ring_read_space ring) (hd : n ≤ dst.length) :
    (zix_ring_read ring dst n).1 = n ∧
      (zix_ring_read ring dst n).2.1.write_head = ring.write_head ∧
      (zix_ring_read ring dst n).2.1.size = ring.size ∧
      (zix_ring_read ring dst n).2.1.size_mask = ring.size_mask ∧
      (zix_ring_read ring dst n).2.1.buf = ring.buf ∧
      (zix_ring_read ring dst n).2.1.read_head = (ring.read_head + n) % ring.size ∧
      (zix_ring_read ring dst n).2.2 =
        (peek_internal ring ring.read_head ring.write_head n dst).2 := by
  have p1 := (peek_internal_spec hv dst n hn hd).1
  obtain ⟨h0, h31, q, hq⟩ := zix_ring_valid_size hv
  have hrs := zix_ring_read_space_eq hv
  have hr := hv.2.2.1
  have hw := hv.2.2.2.1
  have hn2 : n ≤ ring.size - 1 := by
    rw [hrs] at hn
    split_ifs at hn <;> omega
  unfold zix_ring_read
  simp only [p1]
  by_cases h : n = 0
  · subst h
    simp only [if_true]
    refine ⟨trivial, trivial, trivial, trivial, trivial, ?_, trivial⟩
    rw [Nat.add_zero, Nat.mod_eq_of_lt hr]
  · simp only [h, if_false]
    refine ⟨trivial, trivial, trivial, trivial, trivial, ?_, trivial⟩
    rw [zix_ring_mask hv]
    have e : (ring.read_head + n) % 2 ^ 32 = ring.read_head + n := by omega
    rw [e]

/-- An accepted read keeps the ring valid. -/
theorem zix_ring_read_valid {ring : ZixRing} (hv : zix_ring_valid ring) (dst : List ZixByte)
    (n : Nat) (hn : n ≤ zix_ring_read_space ring) (hd : n ≤ dst.length) :
    zix_ring_valid (zix_ring_read ring dst n).2.1 := by
  obtain ⟨_, s2, s3, s4, s5, s6, _⟩ := zix_ring_read_spec hv dst n hn hd
  obtain ⟨h0, _, _⟩ := zix_ring_valid_size hv
  obtain ⟨hk, hm, hr, hw, hb⟩ := hv
  refine ⟨?_, ?_, ?_, ?_, ?_⟩
  · rw [s3]; exact hk
  · rw [s4, s3]; exact hm
  · rw [s6, s3]; exact Nat.mod_lt _ h0
  · rw [s2, s3]; exact hw
  · rw [s5, s3]; exact hb

/-- An accepted read of `n` bytes takes `n` from the read space. -/
theorem zix_ring_read_read_space {ring : ZixRing} (hv : zix_ring_valid ring)
    (dst : List ZixByte) (n : Nat) (hn : n ≤ zix_ring_read_space ring) (hd : n ≤ dst.length) :
    zix_ring_read_space (zix_ring_read ring dst n).2.1 = zix_ring_read_space ring - n := by
  obtain ⟨_, s2, s3, s4, s5, s6, _⟩ := zix_ring_read_spec hv dst n hn hd
  have hv2 := zix_ring_read_valid hv dst n hn hd
  rw [zix_ring_read_space_eq hv2, zix_ring_read_space_eq hv, s2, s3, s6]
  rw [zix_ring_read_space_eq hv] at hn
  obtain ⟨_, _, hr, hw, _⟩ := hv
  rw [zix_mod_wrap (by split_ifs at hn <;> omega)]
  split_ifs at hn ⊢ <;> omega

/-- An accepted read removes its bytes from the front of the queue. -/
theorem zix_ring_read_contents {ring : ZixRing} (hv : zix_ring_valid ring)
    (dst : List ZixByte) (n : Nat) (hn : n ≤ zix_ring_read_space ring) (hd : n ≤ dst.length) :
    zix_ring_contents (zix_ring_read ring dst n).2.1 = (zix_ring_contents ring).drop n := by
  obtain ⟨_, s2, s3, s4, s5, s6, _⟩ := zix_ring_read_spec hv dst n hn hd
  have hrs := zix_ring_read_read_space hv dst n hn hd
  unfold zix_ring_contents
  rw [hrs, s3, s5, s6]
  apply List.ext_getElem
  · simp
  · intro j h1 h2
    simp only [List.getElem_map, List.getElem_range, List.getElem_drop, Nat.mod_add_mod]
    congr 2
    omega

/-- An accepted read delivers the first `n` bytes of the queue, in order, and
leaves the rest of the destination as it was. -/
theorem zix_ring_read_delivers {ring : ZixRing} (hv : zix_ring_valid ring)
    (dst : List ZixByte) (n : Nat) (hn : n ≤ zix_ring_read_space ring) (hd : n ≤ dst.length) :
    (zix_ring_read ring dst n).2.2.take n = (zix_ring_contents ring).take n ∧
      (zix_ring_read ring dst n).2.2.drop n = dst.drop n ∧
      (zix_ring_read ring dst n).2.2.length = dst.length := by
  obtain ⟨_, _, _, _, _, _, s7⟩ := zix_ring_read_spec hv dst n hn hd
  obtain ⟨_, p2, p3⟩ := peek_internal_spec hv dst n hn hd
  rw [s7]
  refine ⟨?_, ?_, p2⟩
  · apply List.ext_getElem
    · simp [zix_ring_contents, p2]
      omega
    · intro j h1 h2
      have hj : j < n := by
        rw [List.length_take] at h1
        omega
      have h3 := p3 j
      rw [if_pos hj] at h3
      have h4 : j < (peek_internal ring ring.read_head ring.write_head n dst).2.length := by
        rw [p2]; omega
      simp only [List.getD_eq_getElem?_getD, List.getElem?_eq_getElem h4,
        Option.getD_some] at h3
      simp only [List.getElem_take, zix_ring_contents, List.getElem_map, List.getElem_range]
      rw [h3]
      simp
  · apply List.ext_getElem
    · simp [p2]
    · intro j h1 h2
      have h3 := p3 (n + j)
      have hj : ¬ n + j < n := by omega
      rw [if_neg hj] at h3
      have h4 : n + j < (peek_internal ring ring.read_head ring.write_head n dst).2.length := by
        rw [List.length_drop] at h1
        omega
      have h5 : n + j < dst.length := by rw [p2] at h4; exact h4
      simp only [List.getD_eq_getElem?_getD, List.getElem?_eq_getElem h4,
        List.getElem?_eq_getElem h5, Option.getD_some] at h3
      simp only [List.getElem_drop]
      exact h3

/-! ## Ring buffer: rounding the size up to a power of two -/

theorem zix_smear_bits {s d k m : Nat} (hd : d ≤ m)
    (hs : ∀ i, k - m ≤ i → i < k → s.testBit i = true) :
    ∀ i, k - (m + d) ≤ i → i < k → (s ||| (s >>> d)).testBit i = true := by
  intro i h1 h2
  rw [Nat.testBit_or, Nat.testBit_shiftRight]
  by_cases h : k - m ≤ i
  · rw [hs i h h2]
    rfl
  · rw [hs (d + i) (by omega) (by omega)]
    simp

theorem zix_smear_lt {s d k : Nat} (hs : s < 2 ^ k) : s ||| (s >>> d) < 2 ^ k := by
  apply Nat.or_lt_two_pow hs
  rw [Nat.shiftRight_eq_div_pow]
  exact Nat.lt_of_le_of_lt (Nat.div_le_self _ _) hs

/-- For a request between 1 and `2 ^ 31`, `next_power_of_two` yields the least
power of two that is not below the request. -/
theorem next_power_of_two_spec (size : Nat) (h1 : 1 ≤ size) (h2 : size ≤ 2 ^ 31) :
    ∃ k, k ≤ 31 ∧ next_power_of_two size = 2 ^ k ∧ size ≤ 2 ^ k ∧
      (k = 0 ∨ 2 ^ (k - 1) < size) := by
  have e0 : (size + 2 ^ 32 - 1) % 2 ^ 32 = size - 1 := by omega
  unfold next_power_of_two
  simp only [e0]
  by_cases hx : size - 1 = 0
  · refine ⟨0, by omega, ?_, by omega, Or.inl rfl⟩
    rw [hx]
    rfl
  · obtain ⟨i, hi, hj⟩ := Nat.exists_most_significant_bit hx
    have hge : 2 ^ i ≤ size - 1 := Nat.testBit_implies_ge hi
    have hlt : size - 1 < 2 ^ (i + 1) := Nat.lt_pow_two_of_testBit _ (fun j hj2 => hj j hj2)
    have hi31 : i < 31 := by
      by_contra hcon
      have : 2 ^ 31 ≤ 2 ^ i := Nat.pow_le_pow_right (by decide) (by omega)
      omega
    have b0 : ∀ j, (i + 1) - 1 ≤ j → j < i + 1 → (size - 1).testBit j = true := by
      intro j j1 j2
      have : j = i := by omega
      rw [this]
      exact hi
    have b1 := zix_smear_bits (d := 1) (m := 1) (le_refl _) b0
    have b2 := zix_smear_bits (d := 2) (m := 1 + 1) (le_refl _) b1
    have b3 := zix_smear_bits (d := 4) (m := 1 + 1 + 2) (le_refl _) b2
    have b4 := zix_smear_bits (d := 8) (m := 1 + 1 + 2 + 4) (le_refl _) b3
    have b5 := zix_smear_bits (d := 16) (m := 1 + 1 + 2 + 4 + 8) (le_refl _) b4
    have l5 := zix_smear_lt (d := 16) (zix_smear_lt (d := 8) (zix_smear_lt (d := 4)
      (zix_smear_lt (d := 2) (zix_smear_lt (d := 1) hlt))))
    have hall : (size - 1 ||| (size - 1) >>> 1 ||| (size - 1 ||| (size - 1) >>> 1) >>> 2 |||
        (size - 1 ||| (size - 1) >>> 1 ||| (size - 1 ||| (size - 1) >>> 1) >>> 2) >>> 4 |||
        (size - 1 ||| (size - 1) >>> 1 ||| (size - 1 ||| (size - 1) >>> 1) >>> 2 |||
          (size - 1 ||| (size - 1) >>> 1 ||| (size - 1 ||| (size - 1) >>> 1) >>> 2) >>> 4) >>> 8 |||
        (size - 1 ||| (size - 1) >>> 1 ||| (size - 1 ||| (size - 1) >>> 1) >>> 2 |||
          (size - 1 ||| (size - 1) >>> 1 ||| (size - 1 ||| (size - 1) >>> 1) >>> 2) >>> 4 |||
          (size - 1 ||| (size - 1) >>> 1 ||| (size - 1 ||| (size - 1) >>> 1) >>> 2 |||
            (size - 1 ||| (size - 1) >>> 1 ||| (size - 1 ||| (size - 1) >>> 1) >>> 2) >>> 4) >>> 8)
          >>> 16) = 2 ^ (i + 1) - 1 := by
      apply Nat.eq_of_testBit_eq
      intro j
      rw [Nat.testBit_two_pow_sub_one]
      by_cases hjk : j < i + 1
      · rw [b5 j (by omega) hjk]
        simp [hjk]
      · have hp : 2 ^ (i + 1) ≤ 2 ^ j := Nat.pow_le_pow_right (by decide) (by omega)
        rw [Nat.testBit_lt_two_pow (Nat.lt_of_lt_of_le l5 hp)]
        simp [hjk]
    have hk31 : 2 ^ (i + 1) ≤ 2 ^ 31 := Nat.pow_le_pow_right (by decide) (by omega)
    have hpos : 0 < 2 ^ (i + 1) := Nat.two_pow_pos _
    refine ⟨i + 1, by omega, ?_, by omega, Or.inr ?_⟩
    · rw [hall]
      omega
    · simp only [Nat.add_sub_cancel]
      omega

/-! ## Ring buffer: example rings -/

theorem zix_ring_example_valid : zix_ring_valid zix_ring_example :=
  ⟨⟨3, by decide, rfl⟩, rfl, by decide, by decide, rfl⟩

theorem zix_ring_example_wrapped_valid : zix_ring_valid zix_ring_example_wrapped :=
  ⟨⟨3, by decide, rfl⟩, rfl, by decide, by decide, rfl⟩

theorem zix_ring_example_empty_valid : zix_ring_valid zix_ring_example_empty :=
  ⟨⟨3, by decide, rfl⟩, rfl, by decide, by decide, rfl⟩

/-! ## Ring buffer: the queue -/

/-- An accepted write stores no byte at a position that holds unread data. -/
theorem zix_ring_write_keeps_unread {ring : ZixRing} (hv : zix_ring_valid ring)
    (src : List ZixByte) (n : Nat) (hn : n ≤ zix_ring_write_space ring) (i : Nat)
    (hi : i < zix_ring_read_space ring) :
    (zix_ring_write ring src n).2.buf.getD ((ring.read_head + i) % ring.size) 0 =
      ring.buf.getD ((ring.read_head + i) % ring.size) 0 := by
  obtain ⟨_, _, _, _, _, _, s7⟩ := zix_ring_write_spec hv src n hn
  have hrs0 := zix_ring_read_space_eq hv
  have hws0 := zix_ring_write_space_eq hv
  obtain ⟨h0, _, _⟩ := zix_ring_valid_size hv
  obtain ⟨_, _, hr, hw, _⟩ := hv
  have hsum : zix_ring_read_space ring + n ≤ ring.size - 1 := by
    rw [hrs0]
    rw [hws0] at hn
    split_ifs at hn ⊢ <;> omega
  rw [s7 _ (Nat.mod_lt _ h0), zix_ring_offset hr hw (by omega), ← hrs0]
  have h1 : ¬ zix_ring_read_space ring ≤ i := by omega
  rw [if_neg h1]
  have h2 : ¬ i + ring.size - zix_ring_read_space ring < n := by omega
  rw [if_neg h2]

/-- C12: the ring is a FIFO byte queue on the write side. For every valid ring and
every source of `n` bytes with `n` at most the write space, `zix_ring_write`
returns `n`, the contents afterwards are the contents before followed by the
source bytes (whether or not the write wraps past the end of the buffer), the
read head is unchanged and no position holding an unread byte is overwritten. -/
theorem zix_ring_write_fifo (ring : ZixRing) (src : List ZixByte)
    (hv : zix_ring_valid ring) (hn : src.length ≤ zix_ring_write_space ring) :
    (zix_ring_write ring src src.length).1 = src.length ∧
      zix_ring_contents (zix_ring_write ring src src.length).2 =
        zix_ring_contents ring ++ src ∧
      (zix_ring_write ring src src.length).2.read_head = ring.read_head ∧
      ∀ i, i < zix_ring_read_space ring →
        (zix_ring_write ring src src.length).2.buf.getD
            ((ring.read_head + i) % ring.size) 0 =
          ring.buf.getD ((ring.read_head + i) % ring.size) 0 := by
  obtain ⟨s1, s2, _⟩ := zix_ring_write_spec hv src src.length hn
  exact ⟨s1, zix_ring_write_contents hv src hn, s2,
    fun i hi => zix_ring_write_keeps_unread hv src src.length hn i hi⟩

theorem zix_ring_write_fifo_witness :
    (zix_ring_write zix_ring_example [1, 2, 3] 3).1 = 3 ∧
      zix_ring_contents (zix_ring_write zix_ring_example [1, 2, 3] 3).2 =
        zix_ring_contents zix_ring_example ++ [1, 2, 3] ∧
      (zix_ring_write zix_ring_example [1, 2, 3] 3).2.read_head =
        zix_ring_example.read_head ∧
      ∀ i, i < zix_ring_read_space zix_ring_example →
        (zix_ring_write zix_ring_example [1, 2, 3] 3).2.buf.getD
            ((zix_ring_example.read_head + i) % zix_ring_example.size) 0 =
          zix_ring_example.buf.getD
            ((zix_ring_example.read_head + i) % zix_ring_example.size) 0 :=
  zix_ring_write_fifo zix_ring_example [1, 2, 3] zix_ring_example_valid (by decide)

/-- C13: the ring is a FIFO byte queue on the read side. For every valid ring and
every `n` at most the read space (the destination having room for `n` bytes),
`zix_ring_read` returns `n`, byte `i` of the destination is
`buf[(read_head + i) mod size]` for every `i < n`, so the destination receives the
first `n` bytes of the contents in order (whether or not the read wraps), the rest
of the destination is untouched, and the contents afterwards are the contents
before without their first `n` bytes. -/
theorem zix_ring_read_fifo (ring : ZixRing) (dst : List ZixByte) (n : Nat)
    (hv : zix_ring_valid ring) (hn : n ≤ zix_ring_read_space ring) (hd : n ≤ dst.length) :
    (zix_ring_read ring dst n).1 = n ∧
      (∀ i, i < n → (zix_ring_read ring dst n).2.2[i]? =
        some (ring.buf.getD ((ring.read_head + i) % ring.size) 0)) ∧
      (zix_ring_read ring dst n).2.2.take n = (zix_ring_contents ring).take n ∧
      (zix_ring_read ring dst n).2.2.drop n = dst.drop n ∧
      zix_ring_contents (zix_ring_read ring dst n).2.1 = (zix_ring_contents ring).drop n := by
  obtain ⟨s1, _, _, _, _, _, s7⟩ := zix_ring_read_spec hv dst n hn hd
  obtain ⟨_, p2, p3⟩ := peek_internal_spec hv dst n hn hd
  obtain ⟨d1, d2, _⟩ := zix_ring_read_delivers hv dst n hn hd
  refine ⟨s1, ?_, d1, d2, zix_ring_read_contents hv dst n hn hd⟩
  intro i hi
  have h3 := p3 i
  rw [if_pos hi] at h3
  have h4 : i < (peek_internal ring ring.read_head ring.write_head n dst).2.length := by
    rw [p2]; omega
  rw [s7, List.getElem?_eq_getElem h4]
  simp only [List.getD_eq_getElem?_getD, List.getElem?_eq_getElem h4, Option.getD_some] at h3
  rw [h3]
  simp

theorem zix_ring_read_fifo_witness :
    (zix_ring_read zix_ring_example_wrapped [0, 0, 0, 0] 3).1 = 3 ∧
      (∀ i, i < 3 → (zix_ring_read zix_ring_example_wrapped [0, 0, 0, 0] 3).2.2[i]? =
        some (zix_ring_example_wrapped.buf.getD
          ((zix_ring_example_wrapped.read_head + i) % zix_ring_example_wrapped.size) 0)) ∧
      (zix_ring_read zix_ring_example_wrapped [0, 0, 0, 0] 3).2.2.take 3 =
        (zix_ring_contents zix_ring_example_wrapped).take 3 ∧
      (zix_ring_read zix_ring_example_wrapped [0, 0, 0, 0] 3).2.2.drop 3 =
        [0, 0, 0, 0].drop 3 ∧
      zix_ring_contents (zix_ring_read zix_ring_example_wrapped [0, 0, 0, 0] 3).2.1 =
        (zix_ring_contents zix_ring_example_wrapped).drop 3 :=
  zix_ring_read_fifo zix_ring_example_wrapped [0, 0, 0, 0] 3 zix_ring_example_wrapped_valid
    (by decide) (by decide)

/-! ## Ring buffer: round trip and space accounting -/

/-- The two spaces of a valid ring add up to its capacity. -/
theorem zix_ring_spaces {ring : ZixRing} (hv : zix_ring_valid ring) :
    zix_ring_read_space ring + zix_ring_write_space ring = ring.size - 1 := by
  rw [zix_ring_read_space_eq hv, zix_ring_write_space_eq hv]
  obtain ⟨_, _, hr, hw, _⟩ := hv
  split_ifs <;> omega

theorem zix_ring_empty_spaces {ring : ZixRing} (hv : zix_ring_valid ring)
    (he : ring.read_head = ring.write_head) :
    zix_ring_read_space ring = 0 ∧ zix_ring_write_space ring = ring.size - 1 := by
  rw [zix_ring_read_space_eq hv, zix_ring_write_space_eq hv]
  obtain ⟨_, _, hr, hw, _⟩ := hv
  constructor <;> split_ifs <;> omega

/-- C14: round trip. For every valid ring that is empty (`read_head = write_head`,
at any offset) and every byte sequence no longer than the capacity,
`zix_ring_write` of the sequence returns its length, a following `zix_ring_read`
of as many bytes returns that length and delivers exactly the sequence, and the
ring is empty again afterwards. -/
theorem zix_ring_round_trip (ring : ZixRing) (src dst : List ZixByte)
    (hv : zix_ring_valid ring) (he : ring.read_head = ring.write_head)
    (hn : src.length ≤ zix_ring_capacity ring) (hd : src.length ≤ dst.length) :
    (zix_ring_write ring src src.length).1 = src.length ∧
      (zix_ring_read (zix_ring_write ring src src.length).2 dst src.length).1 = src.length ∧
      (zix_ring_read (zix_ring_write ring src src.length).2 dst src.length).2.2.take
        src.length = src ∧
      (zix_ring_read (zix_ring_write ring src src.length).2 dst src.length).2.1.read_head =
        (zix_ring_read (zix_ring_write ring src src.length).2 dst src.length).2.1.write_head ∧
      zix_ring_read_space
        (zix_ring_read (zix_ring_write ring src src.length).2 dst src.length).2.1 = 0 := by
  obtain ⟨e1, e2⟩ := zix_ring_empty_spaces hv he
  have hws : src.length ≤ zix_ring_write_space ring := by
    rw [e2, ← zix_ring_capacity_eq hv]
    exact hn
  obtain ⟨w1, w2, w3, _, w5, _⟩ := zix_ring_write_spec hv src src.length hws
  have hv2 := zix_ring_write_valid hv src src.length hws
  have hrs := zix_ring_write_read_space hv src src.length hws
  have hc := zix_ring_write_contents hv src hws
  have hc0 : zix_ring_contents ring = [] := by
    simp [zix_ring_contents, e1]
  rw [e1, Nat.zero_add] at hrs
  rw [hc0, List.nil_append] at hc
  have hn2 : src.length ≤ zix_ring_read_space (zix_ring_write ring src src.length).2 := by
    rw [hrs]
  obtain ⟨r1, r2, r3, _, _, r6, _⟩ := zix_ring_read_spec hv2 dst src.length hn2 hd
  obtain ⟨d1, _, _⟩ := zix_ring_read_delivers hv2 dst src.length hn2 hd
  have hrs2 := zix_ring_read_read_space hv2 dst src.length hn2 hd
  refine ⟨w1, r1, ?_, ?_, ?_⟩
  · rw [d1, hc, List.take_length]
  · rw [r6, r2, w2, w3, w5, he]
  · rw [hrs2, hrs, Nat.sub_self]

theorem zix_ring_round_trip_witness :
    (zix_ring_write zix_ring_example_empty [1, 2, 3, 4, 5, 6, 7] 7).1 = 7 ∧
      (zix_ring_read (zix_ring_write zix_ring_example_empty [1, 2, 3, 4, 5, 6, 7] 7).2
        [0, 0, 0, 0, 0, 0, 0, 0] 7).1 = 7 ∧
      (zix_ring_read (zix_ring_write zix_ring_example_empty [1, 2, 3, 4, 5, 6, 7] 7).2
        [0, 0, 0, 0, 0, 0, 0, 0] 7).2.2.take 7 = [1, 2, 3, 4, 5, 6, 7] ∧
      (zix_ring_read (zix_ring_write zix_ring_example_empty [1, 2, 3, 4, 5, 6, 7] 7).2
        [0, 0, 0, 0, 0, 0, 0, 0] 7).2.1.read_head =
        (zix_ring_read (zix_ring_write zix_ring_example_empty [1, 2, 3, 4, 5, 6, 7] 7).2
          [0, 0, 0, 0, 0, 0, 0, 0] 7).2.1.write_head ∧
      zix_ring_read_space
        (zix_ring_read (zix_ring_write zix_ring_example_empty [1, 2, 3, 4, 5, 6, 7] 7).2
          [0, 0, 0, 0, 0, 0, 0, 0] 7).2.1 = 0 :=
  zix_ring_round_trip zix_ring_example_empty [1, 2, 3, 4, 5, 6, 7] [0, 0, 0, 0, 0, 0, 0, 0]
    zix_ring_example_empty_valid rfl (by decide) (by decide)

/-- C15: `zix_ring_write` is all-or-nothing. For every ring and every `n` it
returns `n` when `n` is at most the write space and 0 otherwise, and when `n`
exceeds the write space the ring afterwards is the ring before: neither head
nor any buffer byte has changed. -/
theorem zix_ring_write_all_or_nothing (ring : ZixRing) (src : List ZixByte) (n : Nat) :
    (zix_ring_write ring src n).1 = (if n ≤ zix_ring_write_space ring then n else 0) ∧
      (zix_ring_write_space ring < n → (zix_ring_write ring src n).2 = ring) := by
  unfold zix_ring_write zix_ring_write_space
  by_cases h : write_space_internal ring ring.read_head ring.write_head < n
  · have h2 : ¬ n ≤ write_space_internal ring ring.read_head ring.write_head := by omega
    simp only [h, if_true, h2, if_false]
    exact ⟨trivial, fun _ => trivial⟩
  · have h2 : n ≤ write_space_internal ring ring.read_head ring.write_head := by omega
    simp only [h, if_false, h2, if_true]
    refine ⟨?_, fun hh => hh.elim⟩
    split_ifs <;> rfl

theorem zix_ring_write_all_or_nothing_witness :
    (zix_ring_write zix_ring_example [1, 2, 3, 4, 5, 6] 6).1 =
        (if 6 ≤ zix_ring_write_space zix_ring_example then 6 else 0) ∧
      (zix_ring_write_space zix_ring_example < 6 →
        (zix_ring_write zix_ring_example [1, 2, 3, 4, 5, 6] 6).2 = zix_ring_example) :=
  zix_ring_write_all_or_nothing zix_ring_example [1, 2, 3, 4, 5, 6] 6

theorem peek_internal_result (ring : ZixRing) (r w n : Nat) (dst : List ZixByte) :
    (peek_internal ring r w n dst).1 = (if n ≤ read_space_internal ring r w then n else 0) ∧
      (read_space_internal ring r w < n → (peek_internal ring r w n dst).2 = dst) := by
  unfold peek_internal
  by_cases h : read_space_internal ring r w < n
  · have h2 : ¬ n ≤ read_space_internal ring r w := by omega
    simp only [h, if_true, h2, if_false]
    exact ⟨trivial, fun _ => trivial⟩
  · have h2 : n ≤ read_space_internal ring r w := by omega
    simp only [h, if_false, h2, if_true]
    refine ⟨?_, fun hh => hh.elim⟩
    split_ifs <;> rfl

/-- C16: `zix_ring_read` and `zix_ring_peek` are all-or-nothing. For every ring,
destination and `n`, each returns `n` when `n` is at most the read space and 0
otherwise, and when `n` exceeds the read space the ring and the destination
afterwards are those before. -/
theorem zix_ring_read_all_or_nothing (ring : ZixRing) (dst : List ZixByte) (n : Nat) :
    (zix_ring_read ring dst n).1 = (if n ≤ zix_ring_read_space ring then n else 0) ∧
      (zix_ring_peek ring dst n).1 = (if n ≤ zix_ring_read_space ring then n else 0) ∧
      (zix_ring_read_space ring < n →
        zix_ring_read ring dst n = (0, ring, dst) ∧
          zix_ring_peek ring dst n = (0, ring, dst)) := by
  obtain ⟨p1, p2⟩ := peek_internal_result ring ring.read_head ring.write_head n dst
  unfold zix_ring_read zix_ring_peek zix_ring_read_space
  simp only [p1]
  by_cases h : read_space_internal ring ring.read_head ring.write_head < n
  · have h2 : ¬ n ≤ read_space_internal ring ring.read_head ring.write_head := by omega
    simp only [h2, if_false, if_true, p2 h]
    exact ⟨trivial, trivial, fun _ => ⟨trivial, trivial⟩⟩
  · have h2 : n ≤ read_space_internal ring ring.read_head ring.write_head := by omega
    simp only [h2, if_true]
    refine ⟨?_, trivial, fun hh => absurd hh h⟩
    by_cases h0 : n = 0
    · simp [h0]
    · simp [h0]

theorem zix_ring_read_all_or_nothing_witness :
    (zix_ring_read zix_ring_example [0, 0, 0, 0] 3).1 =
        (if 3 ≤ zix_ring_read_space zix_ring_example then 3 else 0) ∧
      (zix_ring_peek zix_ring_example [0, 0, 0, 0] 3).1 =
        (if 3 ≤ zix_ring_read_space zix_ring_example then 3 else 0) ∧
      (zix_ring_read_space zix_ring_example < 3 →
        zix_ring_read zix_ring_example [0, 0, 0, 0] 3 =
            (0, zix_ring_example, [0, 0, 0, 0]) ∧
          zix_ring_peek zix_ring_example [0, 0, 0, 0] 3 =
            (0, zix_ring_example, [0, 0, 0, 0])) :=
  zix_ring_read_all_or_nothing zix_ring_example [0, 0, 0, 0] 3

/-! ## Ring buffer: spaces, creation and reset -/

/-- C17: for every valid ring state, the read space and the write space add up
to the capacity, which is the size minus one; the sum does not wrap in 32-bit
arithmetic, and neither space exceeds the capacity. -/
theorem zix_ring_space_sum (ring : ZixRing) (hv : zix_ring_valid ring) :
    (zix_ring_read_space ring + zix_ring_write_space ring) % 2 ^ 32 =
        zix_ring_capacity ring ∧
      zix_ring_read_space ring + zix_ring_write_space ring = zix_ring_capacity ring ∧
      zix_ring_capacity ring = ring.size - 1 ∧
      zix_ring_read_space ring ≤ zix_ring_capacity ring ∧
      zix_ring_write_space ring ≤ zix_ring_capacity ring := by
  have h1 := zix_ring_spaces hv
  have h2 := zix_ring_capacity_eq hv
  obtain ⟨_, h31, _⟩ := zix_ring_valid_size hv
  refine ⟨?_, ?_, h2, ?_, ?_⟩ <;> omega

theorem zix_ring_space_sum_witness :
    (zix_ring_read_space zix_ring_example_wrapped +
          zix_ring_write_space zix_ring_example_wrapped) % 2 ^ 32 =
        zix_ring_capacity zix_ring_example_wrapped ∧
      zix_ring_read_space zix_ring_example_wrapped +
          zix_ring_write_space zix_ring_example_wrapped =
        zix_ring_capacity zix_ring_example_wrapped ∧
      zix_ring_capacity zix_ring_example_wrapped = zix_ring_example_wrapped.size - 1 ∧
      zix_ring_read_space zix_ring_example_wrapped ≤
        zix_ring_capacity zix_ring_example_wrapped ∧
      zix_ring_write_space zix_ring_example_wrapped ≤
        zix_ring_capacity zix_ring_example_wrapped :=
  zix_ring_space_sum zix_ring_example_wrapped zix_ring_example_wrapped_valid

/-- A ring that `zix_ring_new` returns for a request between 1 and `2 ^ 31` is
valid, both heads are 0, and its size is not below the request. -/
theorem zix_ring_new_valid (a : ZixAllocator) (size : Nat) (fresh : Nat → ZixByte)
    (ring : ZixRing) (h1 : 1 ≤ size) (h2 : size ≤ 2 ^ 31)
    (h : (zix_ring_new a size fresh).1 = some ring) :
    zix_ring_valid ring ∧ size ≤ ring.size ∧ ring.read_head = 0 ∧ ring.write_head = 0 := by
  obtain ⟨k, hk, e, hle, _⟩ := next_power_of_two_spec size h1 h2
  have hpos : 0 < 2 ^ k := Nat.two_pow_pos _
  have h31 : 2 ^ k ≤ 2 ^ 31 := Nat.pow_le_pow_right (by decide) hk
  unfold zix_ring_new zix_malloc at h
  by_cases g1 : a.grants a.n_allocations = true
  · simp only [g1, if_true] at h
    by_cases g2 : a.grants (a.n_allocations + 1) = true
    · simp only [g2, if_true, Option.some.injEq] at h
      subst h
      refine ⟨⟨⟨k, hk, e⟩, ?_, ?_, ?_, ?_⟩, ?_, rfl, rfl⟩
      · show (next_power_of_two size + 2 ^ 32 - 1) % 2 ^ 32 = next_power_of_two size - 1
        rw [e]
        omega
      · show 0 < next_power_of_two size
        rw [e]
        exact hpos
      · show 0 < next_power_of_two size
        rw [e]
        exact hpos
      · simp
      · show size ≤ next_power_of_two size
        rw [e]
        exact hle
    · simp [g2] at h
  · simp [g1] at h

theorem zix_ring_reset_valid {ring : ZixRing} (hv : zix_ring_valid ring) :
    zix_ring_valid (zix_ring_reset ring) := by
  obtain ⟨h0, _, _⟩ := zix_ring_valid_size hv
  obtain ⟨hk, hm, _, _, hb⟩ := hv
  exact ⟨hk, hm, h0, h0, hb⟩

/-- C18: a ring is empty after creation and after reset. For every ring that
`zix_ring_new` returns for a requested size between 1 and `2 ^ 31` (and it returns
one whenever the allocator grants its two requests), and for every valid ring
after `zix_ring_reset`, the read space is 0 and the write space is the
capacity, which is the ring size minus one. -/
theorem zix_ring_new_reset_empty (a : ZixAllocator) (size : Nat) (fresh : Nat → ZixByte)
    (ring0 : ZixRing) (h1 : 1 ≤ size) (h2 : size ≤ 2 ^ 31) (hv : zix_ring_valid ring0) :
    (∀ ring, (zix_ring_new a size fresh).1 = some ring →
        zix_ring_read_space ring = 0 ∧
          zix_ring_write_space ring = zix_ring_capacity ring ∧
          zix_ring_capacity ring = ring.size - 1 ∧
          zix_ring_valid ring ∧ size ≤ ring.size) ∧
      (a.grants a.n_allocations = true → a.grants (a.n_allocations + 1) = true →
        ∃ ring, (zix_ring_new a size fresh).1 = some ring) ∧
      zix_ring_read_space (zix_ring_reset ring0) = 0 ∧
      zix_ring_write_space (zix_ring_reset ring0) = zix_ring_capacity (zix_ring_reset ring0) ∧
      zix_ring_capacity (zix_ring_reset ring0) = ring0.size - 1 := by
  refine ⟨?_, ?_, ?_⟩
  · intro ring h
    obtain ⟨v, hle, r0, w0⟩ := zix_ring_new_valid a size fresh ring h1 h2 h
    obtain ⟨e1, e2⟩ := zix_ring_empty_spaces v (by rw [r0, w0])
    have hc := zix_ring_capacity_eq v
    exact ⟨e1, by rw [e2, hc], hc, v, hle⟩
  · intro g1 g2
    simp [zix_ring_new, zix_malloc, g1, g2]
  · have v := zix_ring_reset_valid hv
    obtain ⟨e1, e2⟩ := zix_ring_empty_spaces v rfl
    have hc := zix_ring_capacity_eq v
    exact ⟨e1, by rw [e2, hc], hc⟩

theorem zix_ring_new_reset_empty_witness :
    (∀ ring, (zix_ring_new zix_default_allocator 5 (fun _ => 0)).1 = some ring →
        zix_ring_read_space ring = 0 ∧
          zix_ring_write_space ring = zix_ring_capacity ring ∧
          zix_ring_capacity ring = ring.size - 1 ∧
          zix_ring_valid ring ∧ 5 ≤ ring.size) ∧
      (zix_default_allocator.grants zix_default_allocator.n_allocations = true →
        zix_default_allocator.grants (zix_default_allocator.n_allocations + 1) = true →
        ∃ ring, (zix_ring_new zix_default_allocator 5 (fun _ => 0)).1 = some ring) ∧
      zix_ring_read_space (zix_ring_reset zix_ring_example) = 0 ∧
      zix_ring_write_space (zix_ring_reset zix_ring_example) =
        zix_ring_capacity (zix_ring_reset zix_ring_example) ∧
      zix_ring_capacity (zix_ring_reset zix_ring_example) = zix_ring_example.size - 1 :=
  zix_ring_new_reset_empty zix_default_allocator 5 (fun _ => 0) zix_ring_example
    (by decide) (by decide) zix_ring_example_valid

/-- C19: `zix_ring_peek` does not consume. For every ring, destination and `n`, the
ring after `zix_ring_peek` is the ring before (both heads and the buffer), and
its result and the destination it leaves are those of `zix_ring_read` of the
same `n` on the same state. -/
theorem zix_ring_peek_does_not_consume (ring : ZixRing) (dst : List ZixByte) (n : Nat) :
    (zix_ring_peek ring dst n).2.1 = ring ∧
      (zix_ring_peek ring dst n).1 = (zix_ring_read ring dst n).1 ∧
      (zix_ring_peek ring dst n).2.2 = (zix_ring_read ring dst n).2.2 := by
  obtain ⟨p1, _⟩ := peek_internal_result ring ring.read_head ring.write_head n dst
  unfold zix_ring_peek zix_ring_read
  simp only [p1]
  refine ⟨trivial, ?_, ?_⟩
  · split_ifs <;> first | rfl | omega
  · split_ifs <;> rfl

/-- C20: `zix_ring_skip` equals a read whose data is discarded. For every valid
ring, every destination and every `n`, `zix_ring_skip` returns what
`zix_ring_read` returns and leaves the ring in the same state. -/
theorem zix_ring_skip_eq_read (ring : ZixRing) (dst : List ZixByte) (n : Nat)
    (hv : zix_ring_valid ring) :
    (zix_ring_skip ring n).1 = (zix_ring_read ring dst n).1 ∧
      (zix_ring_skip ring n).2 = (zix_ring_read ring dst n).2.1 := by
  obtain ⟨p1, _⟩ := peek_internal_result ring ring.read_head ring.write_head n dst
  have hm := zix_ring_mask hv ring.read_head
  have hr := hv.2.2.1
  obtain ⟨_, h31, _⟩ := zix_ring_valid_size hv
  unfold zix_ring_skip zix_ring_read
  simp only [p1]
  by_cases h : read_space_internal ring ring.read_head ring.write_head < n
  · have h2 : ¬ n ≤ read_space_internal ring ring.read_head ring.write_head := by omega
    simp [h, h2]
  · have h2 : n ≤ read_space_internal ring ring.read_head ring.write_head := by omega
    simp only [h, h2, if_false, if_true]
    by_cases h0 : n = 0
    · subst h0
      have e : (ring.read_head + 0) % 2 ^ 32 = ring.read_head := by omega
      simp only [if_true, e, hm, Nat.mod_eq_of_lt hr]
      exact ⟨trivial, trivial⟩
    · simp only [h0, if_false]
      exact ⟨trivial, trivial⟩

theorem zix_ring_skip_eq_read_witness :
    (zix_ring_skip zix_ring_example_wrapped 2).1 =
        (zix_ring_read zix_ring_example_wrapped [0, 0, 0] 2).1 ∧
      (zix_ring_skip zix_ring_example_wrapped 2).2 =
        (zix_ring_read zix_ring_example_wrapped [0, 0, 0] 2).2.1 :=
  zix_ring_skip_eq_read zix_ring_example_wrapped [0, 0, 0] 2 zix_ring_example_wrapped_valid

/-! ## Status messages -/

theorem zix_status_value_range (st : ZixStatus) :
    0 ≤ zix_status_value st ∧ zix_status_value st ≤ 7 := by
  cases st <;> simp [zix_status_value]

theorem zix_status_value_injective (s1 s2 : ZixStatus)
    (h : zix_status_value s1 = zix_status_value s2) : s1 = s2 := by
  cases s1 <;> cases s2 <;> first | rfl | (simp [zix_status_value] at h)

/-- C21: for every integer status value `s`, inside the enumeration or not,
`zix_strerror s` is the string `Success` if and only if `s` is the value of
`ZIX_STATUS_SUCCESS`. -/
theorem zix_strerror_success_iff (s : Int) :
    zix_strerror s = "Success" ↔ s = zix_status_value ZIX_STATUS_SUCCESS := by
  unfold zix_strerror
  split_ifs with h0 h1 h2 h3 h4 h5 h6 h7
  · simp [h0]
  all_goals
    constructor
    · intro h
      exact absurd h (by decide)
    · intro h
      exact absurd h h0

/-- C22: for every integer status value that is not the value of an enumerator
of `ZixStatus`, `zix_strerror` returns the string `Unknown error`. -/
theorem zix_strerror_unknown (s : Int) (h : ∀ st : ZixStatus, s ≠ zix_status_value st) :
    zix_strerror s = "Unknown error" := by
  unfold zix_strerror
  rw [if_neg (h _), if_neg (h _), if_neg (h _), if_neg (h _), if_neg (h _), if_neg (h _),
    if_neg (h _), if_neg (h _)]

theorem zix_strerror_unknown_witness :
    zix_strerror (-1) = "Unknown error" ∧ zix_strerror 1000000 = "Unknown error" :=
  ⟨zix_strerror_unknown (-1) (fun st => by
      have := zix_status_value_range st
      omega),
    zix_strerror_unknown 1000000 (fun st => by
      have := zix_status_value_range st
      omega)⟩

/-- C23: the enumeration `ZixStatus` consists of exactly the eight values
SUCCESS, ERROR, NO_MEM, NOT_FOUND, EXISTS, BAD_ARG, BAD_PERMS, REACHED_END, in
this order with the numeric values 0 to 7; SUCCESS is the only status whose
value is zero; and `zix_strerror` gives different statuses different messages. -/
theorem zix_status_enumeration :
    (∀ st : ZixStatus, st ∈ zix_status_enumerators) ∧
      zix_status_enumerators =
        [ZIX_STATUS_SUCCESS, ZIX_STATUS_ERROR, ZIX_STATUS_NO_MEM, ZIX_STATUS_NOT_FOUND,
          ZIX_STATUS_EXISTS, ZIX_STATUS_BAD_ARG, ZIX_STATUS_BAD_PERMS,
          ZIX_STATUS_REACHED_END] ∧
      zix_status_enumerators.map zix_status_value = [0, 1, 2, 3, 4, 5, 6, 7] ∧
      (∀ st : ZixStatus, zix_status_value st = 0 ↔ st = ZIX_STATUS_SUCCESS) ∧
      (∀ s1 s2 : ZixStatus,
        zix_strerror (zix_status_value s1) = zix_strerror (zix_status_value s2) →
          s1 = s2) ∧
      (zix_status_enumerators.map (fun st => zix_strerror (zix_status_value st))).Nodup := by
  refine ⟨?_, rfl, rfl, ?_, ?_, ?_⟩
  · intro st
    cases st <;> simp [zix_status_enumerators]
  · intro st
    cases st <;> simp [zix_status_value]
  · intro s1 s2 h
    cases s1 <;> cases s2 <;> first | rfl | (exact absurd h (by decide))
  · decide

/-! ## Ring buffer: the indices a copy touches -/

/-- A copy leaves every byte outside the indices it stores at as it was. -/
theorem memcpy_frame (dst : List ZixByte) (d : Nat) (src : List ZixByte) (s n i : Nat)
    (hi : i ∉ memcpy_stores d n) : (memcpy dst d src s n).getD i 0 = dst.getD i 0 := by
  rw [memcpy_getD]
  have h : ¬ (d ≤ i ∧ i < d + n ∧ i < dst.length) := by
    intro hh
    apply hi
    unfold memcpy_stores
    rw [List.mem_range'_1]
    exact ⟨hh.1, hh.2.1⟩
  rw [if_neg h]

/-- A copy depends on the source only through the indices it reads. -/
theorem memcpy_reads_only (dst : List ZixByte) (d : Nat) (src1 src2 : List ZixByte) (s : Nat) :
    ∀ n, (∀ j ∈ memcpy_reads s n, src1.getD j 0 = src2.getD j 0) →
      memcpy dst d src1 s n = memcpy dst d src2 s n := by
  intro n
  induction n with
  | zero => intro _; rfl
  | succ n ih =>
    intro h
    have h1 : ∀ j ∈ memcpy_reads s n, src1.getD j 0 = src2.getD j 0 := by
      intro j hj
      apply h
      unfold memcpy_reads at hj ⊢
      rw [List.mem_range'_1] at hj ⊢
      omega
    have h2 : src1.getD (s + n) 0 = src2.getD (s + n) 0 := by
      apply h
      unfold memcpy_reads
      rw [List.mem_range'_1]
      omega
    simp only [memcpy]
    rw [ih h1, h2]

/-- A write leaves every buffer byte outside `zix_ring_write_stores` as it was. -/
theorem zix_ring_write_frame (ring : ZixRing) (src : List ZixByte) (n i : Nat)
    (hi : i ∉ zix_ring_write_stores ring n) :
    (zix_ring_write ring src n).2.buf.getD i 0 = ring.buf.getD i 0 := by
  unfold zix_ring_write_stores at hi
  unfold zix_ring_write
  by_cases h1 : write_space_internal ring ring.read_head ring.write_head < n
  · simp only [h1, if_true]
  · simp only [h1, if_false] at hi ⊢
    by_cases h2 : (ring.write_head + n) % 2 ^ 32 ≤ ring.size
    · simp only [h2, if_true] at hi ⊢
      exact memcpy_frame _ _ _ _ _ _ hi
    · simp only [h2, if_false] at hi ⊢
      rw [List.mem_append, not_or] at hi
      rw [memcpy_frame _ _ _ _ _ _ hi.2, memcpy_frame _ _ _ _ _ _ hi.1]

/-- The result of `peek_internal` depends on the buffer only through the indices
of `peek_internal_reads`. -/
theorem peek_internal_reads_only (ring : ZixRing) (buf2 : List ZixByte) (r w n : Nat)
    (dst : List ZixByte)
    (h : ∀ i ∈ peek_internal_reads ring r w n, ring.buf.getD i 0 = buf2.getD i 0) :
    peek_internal { ring with buf := buf2 } r w n dst = peek_internal ring r w n dst := by
  unfold peek_internal_reads at h
  unfold peek_internal
  have e : read_space_internal { ring with buf := buf2 } r w = read_space_internal ring r w :=
    rfl
  rw [e]
  by_cases h1 : read_space_internal ring r w < n
  · simp only [h1, if_true]
  · simp only [h1, if_false] at h ⊢
    by_cases h2 : (r + n) % 2 ^ 32 < ring.size
    · simp only [h2, if_true] at h ⊢
      rw [memcpy_reads_only dst 0 ring.buf buf2 r n h]
    · simp only [h2, if_false] at h ⊢
      have ha : ∀ i ∈ memcpy_reads r ((ring.size + 2 ^ 32 - r) % 2 ^ 32),
          ring.buf.getD i 0 = buf2.getD i 0 :=
        fun i hi => h i (List.mem_append.mpr (Or.inl hi))
      have hb : ∀ i ∈ memcpy_reads 0
          ((n + 2 ^ 32 - (ring.size + 2 ^ 32 - r) % 2 ^ 32) % 2 ^ 32),
          ring.buf.getD i 0 = buf2.getD i 0 :=
        fun i hi => h i (List.mem_append.mpr (Or.inr hi))
      rw [memcpy_reads_only dst 0 ring.buf buf2 r _ ha, memcpy_reads_only _ _ ring.buf buf2 0 _ hb]

/-! ## Ring buffer: validity is an invariant -/

/-- The ring after `zix_ring_skip`: only the read head may differ. -/
theorem zix_ring_skip_fields (ring : ZixRing) (n : Nat) :
    (zix_ring_skip ring n).2.write_head = ring.write_head ∧
      (zix_ring_skip ring n).2.size = ring.size ∧
      (zix_ring_skip ring n).2.size_mask = ring.size_mask ∧
      (zix_ring_skip ring n).2.buf = ring.buf := by
  unfold zix_ring_skip
  by_cases h : read_space_internal ring ring.read_head ring.write_head < n
  · simp only [h, if_true]
    exact ⟨trivial, trivial, trivial, trivial⟩
  · simp only [h, if_false]
    exact ⟨trivial, trivial, trivial, trivial⟩

/-- The ring after `zix_ring_read`: only the read head may differ. -/
theorem zix_ring_read_fields (ring : ZixRing) (dst : List ZixByte) (n : Nat) :
    (zix_ring_read ring dst n).2.1.write_head = ring.write_head ∧
      (zix_ring_read ring dst n).2.1.size = ring.size ∧
      (zix_ring_read ring dst n).2.1.size_mask = ring.size_mask ∧
      (zix_ring_read ring dst n).2.1.buf = ring.buf := by
  unfold zix_ring_read
  by_cases h : (peek_internal ring ring.read_head ring.write_head n dst).1 = 0
  · simp only [h, if_true]
    exact ⟨trivial, trivial, trivial, trivial⟩
  · simp only [h, if_false]
    exact ⟨trivial, trivial, trivial, trivial⟩

/-- The ring after `zix_ring_write`: the read head, the size and the mask are
those before. -/
theorem zix_ring_write_fields (ring : ZixRing) (src : List ZixByte) (n : Nat) :
    (zix_ring_write ring src n).2.read_head = ring.read_head ∧
      (zix_ring_write ring src n).2.size = ring.size ∧
      (zix_ring_write ring src n).2.size_mask = ring.size_mask := by
  unfold zix_ring_write
  by_cases h : write_space_internal ring ring.read_head ring.write_head < n
  · simp only [h, if_true]
    exact ⟨trivial, trivial, trivial⟩
  · simp only [h, if_false]
    by_cases h2 : (ring.write_head + n) % 2 ^ 32 ≤ ring.size
    · simp only [h2, if_true]
      exact ⟨trivial, trivial, trivial⟩
    · simp only [h2, if_false]
      exact ⟨trivial, trivial, trivial⟩

/-- A call that the space check refuses leaves the ring as it was. -/
theorem zix_ring_refused (ring : ZixRing) (src dst : List ZixByte) (n : Nat) :
    (zix_ring_read_space ring < n →
        (zix_ring_read ring dst n).2.1 = ring ∧ (zix_ring_skip ring n).2 = ring) ∧
      (zix_ring_write_space ring < n → (zix_ring_write ring src n).2 = ring) := by
  obtain ⟨p1, _⟩ := peek_internal_result ring ring.read_head ring.write_head n dst
  unfold zix_ring_read_space zix_ring_write_space
  constructor
  · intro h
    have h2 : ¬ n ≤ read_space_internal ring ring.read_head ring.write_head := by omega
    unfold zix_ring_read zix_ring_skip
    simp only [p1, h2, h, if_false, if_true]
    exact ⟨trivial, trivial⟩
  · intro h
    unfold zix_ring_write
    simp only [h, if_true]

theorem zix_ring_skip_head {ring : ZixRing} (hv : zix_ring_valid ring) (n : Nat) :
    (zix_ring_skip ring n).2.read_head < ring.size := by
  obtain ⟨h0, _, _⟩ := zix_ring_valid_size hv
  have hr := hv.2.2.1
  unfold zix_ring_skip
  by_cases h : read_space_internal ring ring.read_head ring.write_head < n
  · simp only [h, if_true]
    exact hr
  · simp only [h, if_false]
    rw [zix_ring_mask hv]
    exact Nat.mod_lt _ h0

theorem zix_ring_skip_valid {ring : ZixRing} (hv : zix_ring_valid ring) (n : Nat) :
    zix_ring_valid (zix_ring_skip ring n).2 := by
  obtain ⟨s1, s2, s3, s4⟩ := zix_ring_skip_fields ring n
  have s5 := zix_ring_skip_head hv n
  obtain ⟨hk, hm, hr, hw, hb⟩ := hv
  refine ⟨?_, ?_, ?_, ?_, ?_⟩
  · rw [s2]; exact hk
  · rw [s3, s2]; exact hm
  · rw [s2]; exact s5
  · rw [s1, s2]; exact hw
  · rw [s4, s2]; exact hb

/-- On a valid ring, a read leaves the ring that a skip of as many bytes leaves. -/
theorem zix_ring_read_ring {ring : ZixRing} (hv : zix_ring_valid ring) (dst : List ZixByte)
    (n : Nat) : (zix_ring_read ring dst n).2.1 = (zix_ring_skip ring n).2 := by
  obtain ⟨p1, _⟩ := peek_internal_result ring ring.read_head ring.write_head n dst
  have hm := zix_ring_mask hv ring.read_head
  have hr := hv.2.2.1
  obtain ⟨_, h31, _⟩ := zix_ring_valid_size hv
  unfold zix_ring_skip zix_ring_read
  simp only [p1]
  by_cases h : read_space_internal ring ring.read_head ring.write_head < n
  · have h2 : ¬ n ≤ read_space_internal ring ring.read_head ring.write_head := by omega
    simp [h, h2]
  · have h2 : n ≤ read_space_internal ring ring.read_head ring.write_head := by omega
    simp only [h, h2, if_false, if_true]
    by_cases h0 : n = 0
    · subst h0
      have e : (ring.read_head + 0) % 2 ^ 32 = ring.read_head := by omega
      simp only [if_true, e, hm, Nat.mod_eq_of_lt hr]
    · simp only [h0, if_false]

theorem zix_ring_write_valid_any {ring : ZixRing} (hv : zix_ring_valid ring)
    (src : List ZixByte) (n : Nat) : zix_ring_valid (zix_ring_write ring src n).2 := by
  by_cases h : n ≤ zix_ring_write_space ring
  · exact zix_ring_write_valid hv src n h
  · rw [(zix_ring_refused ring src [] n).2 (by omega)]
    exact hv

theorem zix_ring_valid_iff (ring : ZixRing) :
    zix_ring_valid ring ↔ zix_ring_indices_valid ring ∧ ring.buf.length = ring.size := by
  unfold zix_ring_valid zix_ring_indices_valid
  constructor
  · rintro ⟨a, b, c, d, e⟩
    exact ⟨⟨a, b, c, d⟩, e⟩
  · rintro ⟨⟨a, b, c, d⟩, e⟩
    exact ⟨a, b, c, d, e⟩

/-- The read head after a skip does not depend on the bytes of the buffer. -/
theorem zix_ring_skip_head_indep (ring : ZixRing) (b : List ZixByte) (n : Nat) :
    (zix_ring_skip { ring with buf := b } n).2.read_head =
      (zix_ring_skip ring n).2.read_head := by
  unfold zix_ring_skip
  have e : read_space_internal { ring with buf := b } ring.read_head ring.write_head =
      read_space_internal ring ring.read_head ring.write_head := rfl
  simp only [e]
  by_cases h : read_space_internal ring ring.read_head ring.write_head < n
  · simp only [h, if_true]
  · simp only [h, if_false]

/-- The read head after a read does not depend on the bytes of the buffer. -/
theorem zix_ring_read_head_indep (ring : ZixRing) (b dst : List ZixByte) (n : Nat) :
    (zix_ring_read { ring with buf := b } dst n).2.1.read_head =
      (zix_ring_read ring dst n).2.1.read_head := by
  obtain ⟨p1, _⟩ := peek_internal_result ring ring.read_head ring.write_head n dst
  obtain ⟨q1, _⟩ := peek_internal_result { ring with buf := b } ring.read_head
    ring.write_head n dst
  have e : read_space_internal { ring with buf := b } ring.read_head ring.write_head =
      read_space_internal ring ring.read_head ring.write_head := rfl
  rw [e] at q1
  unfold zix_ring_read
  simp only [p1, q1]
  by_cases h : (if n ≤ read_space_internal ring ring.read_head ring.write_head then n
      else 0) = 0
  · simp only [h, if_true]
  · simp only [h, if_false]

/-- The write head after a write does not depend on the bytes of the buffer. -/
theorem zix_ring_write_head_indep (ring : ZixRing) (b src : List ZixByte) (n : Nat) :
    (zix_ring_write { ring with buf := b } src n).2.write_head =
      (zix_ring_write ring src n).2.write_head := by
  unfold zix_ring_write
  have e : write_space_internal { ring with buf := b } ring.read_head ring.write_head =
      write_space_internal ring ring.read_head ring.write_head := rfl
  simp only [e]
  by_cases h : write_space_internal ring ring.read_head ring.write_head < n
  · simp only [h, if_true]
  · simp only [h, if_false]
    by_cases h2 : (ring.write_head + n) % 2 ^ 32 ≤ ring.size
    · simp only [h2, if_true]
    · simp only [h2, if_false]

theorem zix_ring_write_buf_length (ring : ZixRing) (src : List ZixByte) (n : Nat) :
    (zix_ring_write ring src n).2.buf.length = ring.buf.length := by
  unfold zix_ring_write
  by_cases h : write_space_internal ring ring.read_head ring.write_head < n
  · simp only [h, if_true]
  · simp only [h, if_false]
    by_cases h2 : (ring.write_head + n) % 2 ^ 32 ≤ ring.size
    · simp only [h2, if_true, memcpy_length]
    · simp only [h2, if_false, memcpy_length]

/-- A ring with valid indices, given a buffer of `size` bytes, is a valid ring. -/
theorem zix_ring_indices_valid_fill {ring : ZixRing} (hv : zix_ring_indices_valid ring) :
    zix_ring_valid { ring with buf := List.replicate ring.size 0 } :=
  ⟨hv.1, hv.2.1, hv.2.2.1, hv.2.2.2, List.length_replicate _ _⟩

/-- The heads after each operation on a ring with valid indices are below the
size. -/
theorem zix_ring_indices_heads {ring : ZixRing} (hv : zix_ring_indices_valid ring)
    (src dst : List ZixByte) (n : Nat) :
    (zix_ring_read ring dst n).2.1.read_head < ring.size ∧
      (zix_ring_skip ring n).2.read_head < ring.size ∧
      (zix_ring_write ring src n).2.write_head < ring.size := by
  have v2 := zix_ring_indices_valid_fill hv
  have e : ({ ({ ring with buf := List.replicate ring.size 0 } : ZixRing) with
      buf := ring.buf } : ZixRing) = ring := rfl
  have k1 := zix_ring_read_head_indep { ring with buf := List.replicate ring.size 0 }
    ring.buf dst n
  have k2 := zix_ring_skip_head_indep { ring with buf := List.replicate ring.size 0 }
    ring.buf n
  have k3 := zix_ring_write_head_indep { ring with buf := List.replicate ring.size 0 }
    ring.buf src n
  rw [e] at k1 k2 k3
  rw [k1, k2, k3, zix_ring_read_ring v2 dst n]
  have hw := (zix_ring_write_valid_any v2 src n).2.2.2.1
  rw [(zix_ring_write_fields _ src n).2.1] at hw
  exact ⟨zix_ring_skip_head v2 n, zix_ring_skip_head v2 n, hw⟩

/-- C24: ring validity is an invariant. If the size is a power of two between 1
and `2 ^ 31`, the mask is the size minus one and both heads are below the size,
then the same holds after each of `zix_ring_reset`, `zix_ring_peek`,
`zix_ring_read`, `zix_ring_skip` and `zix_ring_write` with any argument, whether
the call succeeds or returns 0; none of them changes the size, the mask or the
length of the buffer. -/
theorem zix_ring_valid_invariant (ring : ZixRing) (src dst : List ZixByte) (n : Nat)
    (hv : zix_ring_indices_valid ring) :
    (zix_ring_indices_valid (zix_ring_reset ring) ∧
        (zix_ring_reset ring).size = ring.size ∧
        (zix_ring_reset ring).size_mask = ring.size_mask ∧
        (zix_ring_reset ring).buf.length = ring.buf.length) ∧
      (zix_ring_indices_valid (zix_ring_peek ring dst n).2.1 ∧
        (zix_ring_peek ring dst n).2.1.size = ring.size ∧
        (zix_ring_peek ring dst n).2.1.size_mask = ring.size_mask ∧
        (zix_ring_peek ring dst n).2.1.buf.length = ring.buf.length) ∧
      (zix_ring_indices_valid (zix_ring_read ring dst n).2.1 ∧
        (zix_ring_read ring dst n).2.1.size = ring.size ∧
        (zix_ring_read ring dst n).2.1.size_mask = ring.size_mask ∧
        (zix_ring_read ring dst n).2.1.buf.length = ring.buf.length) ∧
      (zix_ring_indices_valid (zix_ring_skip ring n).2 ∧
        (zix_ring_skip ring n).2.size = ring.size ∧
        (zix_ring_skip ring n).2.size_mask = ring.size_mask ∧
        (zix_ring_skip ring n).2.buf.length = ring.buf.length) ∧
      (zix_ring_indices_valid (zix_ring_write ring src n).2 ∧
        (zix_ring_write ring src n).2.size = ring.size ∧
        (zix_ring_write ring src n).2.size_mask = ring.size_mask ∧
        (zix_ring_write ring src n).2.buf.length = ring.buf.length) := by
  obtain ⟨r1, r2, r3, r4⟩ := zix_ring_read_fields ring dst n
  obtain ⟨s1, s2, s3, s4⟩ := zix_ring_skip_fields ring n
  obtain ⟨w1, w2, w3⟩ := zix_ring_write_fields ring src n
  obtain ⟨g1, g2, g3⟩ := zix_ring_indices_heads hv src dst n
  have h0 : 0 < ring.size := (zix_ring_size_quot hv.1).1
  obtain ⟨hk, hm, hr, hw⟩ := hv
  refine ⟨⟨⟨hk, hm, h0, h0⟩, rfl, rfl, rfl⟩, ⟨⟨hk, hm, hr, hw⟩, rfl, rfl, rfl⟩,
    ⟨⟨?_, ?_, ?_, ?_⟩, r2, r3, by rw [r4]⟩, ⟨⟨?_, ?_, ?_, ?_⟩, s2, s3, by rw [s4]⟩,
    ⟨⟨?_, ?_, ?_, ?_⟩, w2, w3, zix_ring_write_buf_length ring src n⟩⟩
  · rw [r2]; exact hk
  · rw [r3, r2]; exact hm
  · rw [r2]; exact g1
  · rw [r1, r2]; exact hw
  · rw [s2]; exact hk
  · rw [s3, s2]; exact hm
  · rw [s2]; exact g2
  · rw [s1, s2]; exact hw
  · rw [w2]; exact hk
  · rw [w3, w2]; exact hm
  · rw [w1, w2]; exact hr
  · rw [w2]; exact g3

theorem zix_ring_example_wrapped_indices_valid :
    zix_ring_indices_valid zix_ring_example_wrapped :=
  ((zix_ring_valid_iff _).mp zix_ring_example_wrapped_valid).1

theorem zix_ring_valid_invariant_witness :
    (zix_ring_indices_valid (zix_ring_reset zix_ring_example_wrapped) ∧
        (zix_ring_reset zix_ring_example_wrapped).size = zix_ring_example_wrapped.size ∧
        (zix_ring_reset zix_ring_example_wrapped).size_mask =
          zix_ring_example_wrapped.size_mask ∧
        (zix_ring_reset zix_ring_example_wrapped).buf.length =
          zix_ring_example_wrapped.buf.length) ∧
      (zix_ring_indices_valid (zix_ring_peek zix_ring_example_wrapped [0, 0, 0] 3).2.1 ∧
        (zix_ring_peek zix_ring_example_wrapped [0, 0, 0] 3).2.1.size =
          zix_ring_example_wrapped.size ∧
        (zix_ring_peek zix_ring_example_wrapped [0, 0, 0] 3).2.1.size_mask =
          zix_ring_example_wrapped.size_mask ∧
        (zix_ring_peek zix_ring_example_wrapped [0, 0, 0] 3).2.1.buf.length =
          zix_ring_example_wrapped.buf.length) ∧
      (zix_ring_indices_valid (zix_ring_read zix_ring_example_wrapped [0, 0, 0] 3).2.1 ∧
        (zix_ring_read zix_ring_example_wrapped [0, 0, 0] 3).2.1.size =
          zix_ring_example_wrapped.size ∧
        (zix_ring_read zix_ring_example_wrapped [0, 0, 0] 3).2.1.size_mask =
          zix_ring_example_wrapped.size_mask ∧
        (zix_ring_read zix_ring_example_wrapped [0, 0, 0] 3).2.1.buf.length =
          zix_ring_example_wrapped.buf.length) ∧
      (zix_ring_indices_valid (zix_ring_skip zix_ring_example_wrapped 3).2 ∧
        (zix_ring_skip zix_ring_example_wrapped 3).2.size = zix_ring_example_wrapped.size ∧
        (zix_ring_skip zix_ring_example_wrapped 3).2.size_mask =
          zix_ring_example_wrapped.size_mask ∧
        (zix_ring_skip zix_ring_example_wrapped 3).2.buf.length =
          zix_ring_example_wrapped.buf.length) ∧
      (zix_ring_indices_valid (zix_ring_write zix_ring_example_wrapped [1, 2, 3] 3).2 ∧
        (zix_ring_write zix_ring_example_wrapped [1, 2, 3] 3).2.size =
          zix_ring_example_wrapped.size ∧
        (zix_ring_write zix_ring_example_wrapped [1, 2, 3] 3).2.size_mask =
          zix_ring_example_wrapped.size_mask ∧
        (zix_ring_write zix_ring_example_wrapped [1, 2, 3] 3).2.buf.length =
          zix_ring_example_wrapped.buf.length) :=
  zix_ring_valid_invariant zix_ring_example_wrapped [1, 2, 3] [0, 0, 0] 3
    zix_ring_example_wrapped_indices_valid

/-! ## Ring buffer: accesses stay in bounds -/

/-- The two spaces of a ring with valid indices, without wrapping arithmetic. -/
theorem zix_ring_indices_spaces {ring : ZixRing} (hv : zix_ring_indices_valid ring) :
    zix_ring_read_space ring =
        (if ring.read_head ≤ ring.write_head then ring.write_head - ring.read_head
          else ring.write_head + ring.size - ring.read_head) ∧
      zix_ring_write_space ring =
        (if ring.write_head < ring.read_head then ring.read_head - ring.write_head - 1
          else ring.read_head + ring.size - ring.write_head - 1) := by
  have v2 := zix_ring_indices_valid_fill hv
  have a := zix_ring_read_space_eq v2
  have b := zix_ring_write_space_eq v2
  exact ⟨a, b⟩

/-- C25: ring accesses stay in bounds. For every ring with valid indices and
every `n` that the space check accepts, every buffer index that `peek_internal`
reads and every buffer index at which `zix_ring_write` stores is below the size
(and there are exactly `n` of them); the sums `read_head + n` and
`write_head + n` stay below `2 ^ 32`; and in the wrap-around branches the
subtractions `size - read_head`, `n - first_size`, `size - write_head` and
`n - size1` do not underflow. -/
theorem zix_ring_accesses_in_bounds (ring : ZixRing) (n : Nat)
    (hv : zix_ring_indices_valid ring) :
    (n ≤ zix_ring_read_space ring →
        (∀ i ∈ peek_internal_reads ring ring.read_head ring.write_head n, i < ring.size) ∧
          (peek_internal_reads ring ring.read_head ring.write_head n).length = n ∧
          ring.read_head + n < 2 ^ 32 ∧
          ring.read_head ≤ ring.size ∧
          (¬ ring.read_head + n < ring.size → ring.size - ring.read_head ≤ n)) ∧
      (n ≤ zix_ring_write_space ring →
        (∀ i ∈ zix_ring_write_stores ring n, i < ring.size) ∧
          (zix_ring_write_stores ring n).length = n ∧
          ring.write_head + n < 2 ^ 32 ∧
          ring.write_head ≤ ring.size ∧
          (¬ ring.write_head + n ≤ ring.size → ring.size - ring.write_head ≤ n)) := by
  obtain ⟨hrs, hws⟩ := zix_ring_indices_spaces hv
  obtain ⟨h0, h31, _⟩ := zix_ring_size_quot hv.1
  obtain ⟨_, _, hr, hw⟩ := hv
  constructor
  · intro hn
    have hn2 : n ≤ ring.size - 1 := by
      rw [hrs] at hn
      split_ifs at hn <;> omega
    have hnot : ¬ read_space_internal ring ring.read_head ring.write_head < n := by
      unfold zix_ring_read_space at hn
      omega
    have hend : (ring.read_head + n) % 2 ^ 32 = ring.read_head + n := by omega
    refine ⟨?_, ?_, by omega, by omega, by omega⟩
    · intro i hi
      unfold peek_internal_reads at hi
      simp only [hnot, if_false, hend] at hi
      by_cases hwrap : ring.read_head + n < ring.size
      · simp only [hwrap, if_true, memcpy_reads, List.mem_range'_1] at hi
        omega
      · have e1 : (ring.size + 2 ^ 32 - ring.read_head) % 2 ^ 32 =
            ring.size - ring.read_head := by omega
        have e2 : (n + 2 ^ 32 - (ring.size - ring.read_head)) % 2 ^ 32 =
            ring.read_head + n - ring.size := by omega
        simp only [hwrap, if_false, e1, e2, memcpy_reads, List.mem_append,
          List.mem_range'_1] at hi
        omega
    · unfold peek_internal_reads
      simp only [hnot, if_false, hend]
      by_cases hwrap : ring.read_head + n < ring.size
      · simp only [hwrap, if_true, memcpy_reads, List.length_range']
      · have e1 : (ring.size + 2 ^ 32 - ring.read_head) % 2 ^ 32 =
            ring.size - ring.read_head := by omega
        have e2 : (n + 2 ^ 32 - (ring.size - ring.read_head)) % 2 ^ 32 =
            ring.read_head + n - ring.size := by omega
        simp only [hwrap, if_false, e1, e2, memcpy_reads, List.length_append,
          List.length_range']
        omega
  · intro hn
    have hn2 : n ≤ ring.size - 1 := by
      rw [hws] at hn
      split_ifs at hn <;> omega
    have hnot : ¬ write_space_internal ring ring.read_head ring.write_head < n := by
      unfold zix_ring_write_space at hn
      omega
    have hend : (ring.write_head + n) % 2 ^ 32 = ring.write_head + n := by omega
    refine ⟨?_, ?_, by omega, by omega, by omega⟩
    · intro i hi
      unfold zix_ring_write_stores at hi
      simp only [hnot, if_false, hend] at hi
      by_cases hwrap : ring.write_head + n ≤ ring.size
      · simp only [hwrap, if_true, memcpy_stores, List.mem_range'_1] at hi
        omega
      · have e1 : (ring.size + 2 ^ 32 - ring.write_head) % 2 ^ 32 =
            ring.size - ring.write_head := by omega
        have e2 : (n + 2 ^ 32 - (ring.size - ring.write_head)) % 2 ^ 32 =
            ring.write_head + n - ring.size := by omega
        simp only [hwrap, if_false, e1, e2, memcpy_stores, List.mem_append,
          List.mem_range'_1] at hi
        omega
    · unfold zix_ring_write_stores
      simp only [hnot, if_false, hend]
      by_cases hwrap : ring.write_head + n ≤ ring.size
      · simp only [hwrap, if_true, memcpy_stores, List.length_range']
      · have e1 : (ring.size + 2 ^ 32 - ring.write_head) % 2 ^ 32 =
            ring.size - ring.write_head := by omega
        have e2 : (n + 2 ^ 32 - (ring.size - ring.write_head)) % 2 ^ 32 =
            ring.write_head + n - ring.size := by omega
        simp only [hwrap, if_false, e1, e2, memcpy_stores, List.length_append,
          List.length_range']
        omega

theorem zix_ring_accesses_in_bounds_witness :
    (3 ≤ zix_ring_read_space zix_ring_example_wrapped →
        (∀ i ∈ peek_internal_reads zix_ring_example_wrapped
            zix_ring_example_wrapped.read_head zix_ring_example_wrapped.write_head 3,
          i < zix_ring_example_wrapped.size) ∧
          (peek_internal_reads zix_ring_example_wrapped
            zix_ring_example_wrapped.read_head zix_ring_example_wrapped.write_head
            3).length = 3 ∧
          zix_ring_example_wrapped.read_head + 3 < 2 ^ 32 ∧
          zix_ring_example_wrapped.read_head ≤ zix_ring_example_wrapped.size ∧
          (¬ zix_ring_example_wrapped.read_head + 3 < zix_ring_example_wrapped.size →
            zix_ring_example_wrapped.size - zix_ring_example_wrapped.read_head ≤ 3)) ∧
      (3 ≤ zix_ring_write_space zix_ring_example_wrapped →
        (∀ i ∈ zix_ring_write_stores zix_ring_example_wrapped 3,
          i < zix_ring_example_wrapped.size) ∧
          (zix_ring_write_stores zix_ring_example_wrapped 3).length = 3 ∧
          zix_ring_example_wrapped.write_head + 3 < 2 ^ 32 ∧
          zix_ring_example_wrapped.write_head ≤ zix_ring_example_wrapped.size ∧
          (¬ zix_ring_example_wrapped.write_head + 3 ≤ zix_ring_example_wrapped.size →
            zix_ring_example_wrapped.size - zix_ring_example_wrapped.write_head ≤ 3)) :=
  zix_ring_accesses_in_bounds zix_ring_example_wrapped 3
    zix_ring_example_wrapped_indices_valid

/-! ## Ring buffer: what each side may change -/

/-- A call that returns 0 on a ring with valid indices leaves its own head as it
was: either the space check refused it, or it was a call for no bytes. -/
theorem zix_ring_zero_result {ring : ZixRing} (hv : zix_ring_indices_valid ring)
    (src dst : List ZixByte) (n : Nat) :
    ((zix_ring_read ring dst n).1 = 0 → (zix_ring_read ring dst n).2.1.read_head =
        ring.read_head) ∧
      ((zix_ring_skip ring n).1 = 0 → (zix_ring_skip ring n).2.read_head = ring.read_head) ∧
      ((zix_ring_write ring src n).1 = 0 →
        (zix_ring_write ring src n).2.write_head = ring.write_head) := by
  have v2 := zix_ring_indices_valid_fill hv
  have hmr := zix_ring_mask v2 ring.read_head
  have hmw := zix_ring_mask v2 ring.write_head
  obtain ⟨h0, h31, _⟩ := zix_ring_size_quot hv.1
  obtain ⟨_, _, hr, hw⟩ := hv
  simp only at hmr hmw
  refine ⟨?_, ?_, ?_⟩
  · unfold zix_ring_read
    by_cases h : (peek_internal ring ring.read_head ring.write_head n dst).1 = 0
    · simp only [h, if_true]
      intro _
      trivial
    · simp only [h, if_false]
      intro hn
      subst hn
      have e : (ring.read_head + 0) % 2 ^ 32 = ring.read_head := by omega
      rw [e, hmr, Nat.mod_eq_of_lt hr]
  · unfold zix_ring_skip
    by_cases h : read_space_internal ring ring.read_head ring.write_head < n
    · simp only [h, if_true]
      intro _
      trivial
    · simp only [h, if_false]
      intro hn
      subst hn
      have e : (ring.read_head + 0) % 2 ^ 32 = ring.read_head := by omega
      rw [e, hmr, Nat.mod_eq_of_lt hr]
  · unfold zix_ring_write
    by_cases h : write_space_internal ring ring.read_head ring.write_head < n
    · simp only [h, if_true]
      intro _
      trivial
    · simp only [h, if_false]
      by_cases h2 : (ring.write_head + n) % 2 ^ 32 ≤ ring.size
      · simp only [h2, if_true]
        intro hn
        subst hn
        have e : (ring.write_head + 0) % 2 ^ 32 = ring.write_head := by omega
        rw [e, hmw, Nat.mod_eq_of_lt hw]
      · simp only [h2, if_false]
        intro hn
        subst hn
        omega

/-- C26: single-producer/single-consumer frame. For every ring and every
argument, `zix_ring_peek` changes nothing in the ring; `zix_ring_read` and
`zix_ring_skip` change neither the write head, nor a buffer byte, nor the size
or mask, and leave the read head as it was when the space check refuses the
call; `zix_ring_write` changes neither the read head nor the size or mask, and
leaves the write head and the buffer as they were when the space check refuses
the call.  On a ring with valid indices a call that returns 0 leaves its own
head as it was. -/
theorem zix_ring_spsc_frame (ring : ZixRing) (src dst : List ZixByte) (n : Nat) :
    (zix_ring_peek ring dst n).2.1 = ring ∧
      ((zix_ring_read ring dst n).2.1.write_head = ring.write_head ∧
        (zix_ring_read ring dst n).2.1.buf = ring.buf ∧
        (zix_ring_read ring dst n).2.1.size = ring.size ∧
        (zix_ring_read ring dst n).2.1.size_mask = ring.size_mask ∧
        (zix_ring_read_space ring < n →
          (zix_ring_read ring dst n).2.1.read_head = ring.read_head)) ∧
      ((zix_ring_skip ring n).2.write_head = ring.write_head ∧
        (zix_ring_skip ring n).2.buf = ring.buf ∧
        (zix_ring_skip ring n).2.size = ring.size ∧
        (zix_ring_skip ring n).2.size_mask = ring.size_mask ∧
        (zix_ring_read_space ring < n →
          (zix_ring_skip ring n).2.read_head = ring.read_head)) ∧
      ((zix_ring_write ring src n).2.read_head = ring.read_head ∧
        (zix_ring_write ring src n).2.size = ring.size ∧
        (zix_ring_write ring src n).2.size_mask = ring.size_mask ∧
        (zix_ring_write_space ring < n →
          (zix_ring_write ring src n).2.write_head = ring.write_head ∧
            (zix_ring_write ring src n).2.buf = ring.buf)) ∧
      (zix_ring_indices_valid ring →
        ((zix_ring_read ring dst n).1 = 0 →
          (zix_ring_read ring dst n).2.1.read_head = ring.read_head) ∧
        ((zix_ring_skip ring n).1 = 0 →
          (zix_ring_skip ring n).2.read_head = ring.read_head) ∧
        ((zix_ring_write ring src n).1 = 0 →
          (zix_ring_write ring src n).2.write_head = ring.write_head)) := by
  obtain ⟨r1, r2, r3, r4⟩ := zix_ring_read_fields ring dst n
  obtain ⟨s1, s2, s3, s4⟩ := zix_ring_skip_fields ring n
  obtain ⟨w1, w2, w3⟩ := zix_ring_write_fields ring src n
  obtain ⟨f1, f2⟩ := zix_ring_refused ring src dst n
  refine ⟨rfl, ⟨r1, r4, r2, r3, ?_⟩, ⟨s1, s4, s2, s3, ?_⟩, ⟨w1, w2, w3, ?_⟩,
    fun hv => zix_ring_zero_result hv src dst n⟩
  · intro h
    rw [(f1 h).1]
  · intro h
    rw [(f1 h).2]
  · intro h
    rw [f2 h]
    exact ⟨rfl, rfl⟩

theorem zix_ring_spsc_frame_witness :
    (zix_ring_peek zix_ring_example [0, 0, 0] 3).2.1 = zix_ring_example ∧
      ((zix_ring_read zix_ring_example [0, 0, 0] 3).2.1.write_head =
          zix_ring_example.write_head ∧
        (zix_ring_read zix_ring_example [0, 0, 0] 3).2.1.buf = zix_ring_example.buf ∧
        (zix_ring_read zix_ring_example [0, 0, 0] 3).2.1.size = zix_ring_example.size ∧
        (zix_ring_read zix_ring_example [0, 0, 0] 3).2.1.size_mask =
          zix_ring_example.size_mask ∧
        (zix_ring_read_space zix_ring_example < 3 →
          (zix_ring_read zix_ring_example [0, 0, 0] 3).2.1.read_head =
            zix_ring_example.read_head)) ∧
      ((zix_ring_skip zix_ring_example 3).2.write_head = zix_ring_example.write_head ∧
        (zix_ring_skip zix_ring_example 3).2.buf = zix_ring_example.buf ∧
        (zix_ring_skip zix_ring_example 3).2.size = zix_ring_example.size ∧
        (zix_ring_skip zix_ring_example 3).2.size_mask = zix_ring_example.size_mask ∧
        (zix_ring_read_space zix_ring_example < 3 →
          (zix_ring_skip zix_ring_example 3).2.read_head = zix_ring_example.read_head)) ∧
      ((zix_ring_write zix_ring_example [1, 2, 3] 3).2.read_head =
          zix_ring_example.read_head ∧
        (zix_ring_write zix_ring_example [1, 2, 3] 3).2.size = zix_ring_example.size ∧
        (zix_ring_write zix_ring_example [1, 2, 3] 3).2.size_mask =
          zix_ring_example.size_mask ∧
        (zix_ring_write_space zix_ring_example < 3 →
          (zix_ring_write zix_ring_example [1, 2, 3] 3).2.write_head =
              zix_ring_example.write_head ∧
            (zix_ring_write zix_ring_example [1, 2, 3] 3).2.buf = zix_ring_example.buf)) ∧
      (zix_ring_indices_valid zix_ring_example →
        ((zix_ring_read zix_ring_example [0, 0, 0] 3).1 = 0 →
          (zix_ring_read zix_ring_example [0, 0, 0] 3).2.1.read_head =
            zix_ring_example.read_head) ∧
        ((zix_ring_skip zix_ring_example 3).1 = 0 →
          (zix_ring_skip zix_ring_example 3).2.read_head = zix_ring_example.read_head) ∧
        ((zix_ring_write zix_ring_example [1, 2, 3] 3).1 = 0 →
          (zix_ring_write zix_ring_example [1, 2, 3] 3).2.write_head =
            zix_ring_example.write_head)) :=
  zix_ring_spsc_frame zix_ring_example [1, 2, 3] [0, 0, 0] 3

/-! ## Ring buffer: creation under a failing allocator -/

/-- C27: `zix_ring_new` reports allocation failure only through a null result
and leaks nothing. The result is null if and only if the allocation of the
record fails, or the allocation of the record succeeds and that of the buffer
fails; when the first request fails only one request has been made; when the
second fails the record has been released; a failed call leaves as many blocks
outstanding as before, and a successful call two more. -/
theorem zix_ring_new_failure (a : ZixAllocator) (size : Nat) (fresh : Nat → ZixByte) :
    ((zix_ring_new a size fresh).1 = none ↔
        (a.grants a.n_allocations = false ∨
          (a.grants a.n_allocations = true ∧ a.grants (a.n_allocations + 1) = false))) ∧
      (a.grants a.n_allocations = false →
        (zix_ring_new a size fresh).2.n_allocations = a.n_allocations + 1 ∧
          (zix_ring_new a size fresh).2.n_live = a.n_live) ∧
      (a.grants a.n_allocations = true → a.grants (a.n_allocations + 1) = false →
        (zix_ring_new a size fresh).2.n_allocations = a.n_allocations + 2 ∧
          (zix_ring_new a size fresh).2.n_live = a.n_live) ∧
      ((zix_ring_new a size fresh).1 = none →
        (zix_ring_new a size fresh).2.n_live = a.n_live) ∧
      ((zix_ring_new a size fresh).1 ≠ none →
        (zix_ring_new a size fresh).2.n_allocations = a.n_allocations + 2 ∧
          (zix_ring_new a size fresh).2.n_live = a.n_live + 2) := by
  unfold zix_ring_new zix_malloc zix_free
  by_cases g1 : a.grants a.n_allocations = true
  · by_cases g2 : a.grants (a.n_allocations + 1) = true
    · simp [g1, g2]
    · simp [g1, g2]
  · simp [g1]

theorem zix_ring_new_failure_witness :
    ((zix_ring_new (zix_failing_allocator 1) 8 (fun _ => 0)).1 = none ↔
        ((zix_failing_allocator 1).grants (zix_failing_allocator 1).n_allocations = false ∨
          ((zix_failing_allocator 1).grants (zix_failing_allocator 1).n_allocations = true ∧
            (zix_failing_allocator 1).grants ((zix_failing_allocator 1).n_allocations + 1) =
              false))) ∧
      ((zix_failing_allocator 1).grants (zix_failing_allocator 1).n_allocations = false →
        (zix_ring_new (zix_failing_allocator 1) 8 (fun _ => 0)).2.n_allocations =
            (zix_failing_allocator 1).n_allocations + 1 ∧
          (zix_ring_new (zix_failing_allocator 1) 8 (fun _ => 0)).2.n_live =
            (zix_failing_allocator 1).n_live) ∧
      ((zix_failing_allocator 1).grants (zix_failing_allocator 1).n_allocations = true →
        (zix_failing_allocator 1).grants ((zix_failing_allocator 1).n_allocations + 1) =
          false →
        (zix_ring_new (zix_failing_allocator 1) 8 (fun _ => 0)).2.n_allocations =
            (zix_failing_allocator 1).n_allocations + 2 ∧
          (zix_ring_new (zix_failing_allocator 1) 8 (fun _ => 0)).2.n_live =
            (zix_failing_allocator 1).n_live) ∧
      ((zix_ring_new (zix_failing_allocator 1) 8 (fun _ => 0)).1 = none →
        (zix_ring_new (zix_failing_allocator 1) 8 (fun _ => 0)).2.n_live =
          (zix_failing_allocator 1).n_live) ∧
      ((zix_ring_new (zix_failing_allocator 1) 8 (fun _ => 0)).1 ≠ none →
        (zix_ring_new (zix_failing_allocator 1) 8 (fun _ => 0)).2.n_allocations =
            (zix_failing_allocator 1).n_allocations + 2 ∧
          (zix_ring_new (zix_failing_allocator 1) 8 (fun _ => 0)).2.n_live =
            (zix_failing_allocator 1).n_live + 2) :=
  zix_ring_new_failure (zix_failing_allocator 1) 8 (fun _ => 0)

/-! ## The test comparators -/

/-- C28: the wildcard comparator of the tests. For every context whose cut is at
least 1 and all keys `a`, `b`: `wildcard_cmp` agrees with `int_cmp` when both keys
are non-zero; `wildcard_cmp 0 b` is 0 exactly when `b` is at or above the cut and
is 1 otherwise; for non-zero `a`, `wildcard_cmp a 0` is 0 exactly when `a` is at or
above the cut and is -1 otherwise. Hence the non-zero keys that key 0 matches are
exactly the keys at or above the cut, and key 0 compares greater than every
non-zero key below the cut. -/
theorem wildcard_cmp_matches_upper_range (unique_rand : Nat → Nat) (ctx : TestContext)
    (a b : Nat) (hcut : 1 ≤ wildcard_cut unique_rand ctx.test_num ctx.n_elems) :
    (a ≠ 0 → b ≠ 0 → wildcard_cmp unique_rand ctx a b = int_cmp a b) ∧
      (wildcard_cmp unique_rand ctx 0 b =
        if wildcard_cut unique_rand ctx.test_num ctx.n_elems ≤ b then 0 else 1) ∧
      (wildcard_cmp unique_rand ctx 0 b = 0 ↔
        wildcard_cut unique_rand ctx.test_num ctx.n_elems ≤ b) ∧
      (a ≠ 0 → wildcard_cmp unique_rand ctx a 0 =
        if wildcard_cut unique_rand ctx.test_num ctx.n_elems ≤ a then 0 else -1) ∧
      (a ≠ 0 → (wildcard_cmp unique_rand ctx a 0 = 0 ↔
        wildcard_cut unique_rand ctx.test_num ctx.n_elems ≤ a)) ∧
      ((b ≠ 0 ∧ wildcard_cmp unique_rand ctx 0 b = 0) ↔
        wildcard_cut unique_rand ctx.test_num ctx.n_elems ≤ b) ∧
      (b ≠ 0 → b < wildcard_cut unique_rand ctx.test_num ctx.n_elems →
        0 < wildcard_cmp unique_rand ctx 0 b) := by
  refine ⟨?_, ?_, ?_, ?_, ?_, ?_, ?_⟩
  · intro ha hb
    simp [wildcard_cmp, ha, hb]
  · simp [wildcard_cmp]
  · unfold wildcard_cmp
    simp only [if_true]
    split_ifs with h
    · simp [h]
    · simp [h]
  · intro ha
    simp [wildcard_cmp, ha]
  · intro ha
    unfold wildcard_cmp
    simp only [ha, if_false, if_true]
    split_ifs with h
    · simp [h]
    · simp [h]
  · unfold wildcard_cmp
    simp only [if_true]
    constructor
    · rintro ⟨_, h⟩
      by_contra hc
      simp [hc] at h
    · intro h
      refine ⟨by omega, ?_⟩
      simp [h]
  · intro _ hlt
    unfold wildcard_cmp
    have h : ¬ wildcard_cut unique_rand ctx.test_num ctx.n_elems ≤ b := by omega
    simp [h]

theorem wildcard_cmp_matches_upper_range_witness :
    (5 ≠ 0 → 2 ≠ 0 → wildcard_cmp (fun _ => 0) ⟨0, 6⟩ 5 2 = int_cmp 5 2) ∧
      (wildcard_cmp (fun _ => 0) ⟨0, 6⟩ 0 2 =
        if wildcard_cut (fun _ => 0) (TestContext.mk 0 6).test_num
          (TestContext.mk 0 6).n_elems ≤ 2 then 0 else 1) ∧
      (wildcard_cmp (fun _ => 0) ⟨0, 6⟩ 0 2 = 0 ↔
        wildcard_cut (fun _ => 0) (TestContext.mk 0 6).test_num
          (TestContext.mk 0 6).n_elems ≤ 2) ∧
      (5 ≠ 0 → wildcard_cmp (fun _ => 0) ⟨0, 6⟩ 5 0 =
        if wildcard_cut (fun _ => 0) (TestContext.mk 0 6).test_num
          (TestContext.mk 0 6).n_elems ≤ 5 then 0 else -1) ∧
      (5 ≠ 0 → (wildcard_cmp (fun _ => 0) ⟨0, 6⟩ 5 0 = 0 ↔
        wildcard_cut (fun _ => 0) (TestContext.mk 0 6).test_num
          (TestContext.mk 0 6).n_elems ≤ 5)) ∧
      ((2 ≠ 0 ∧ wildcard_cmp (fun _ => 0) ⟨0, 6⟩ 0 2 = 0) ↔
        wildcard_cut (fun _ => 0) (TestContext.mk 0 6).test_num
          (TestContext.mk 0 6).n_elems ≤ 2) ∧
      (2 ≠ 0 → 2 < wildcard_cut (fun _ => 0) (TestContext.mk 0 6).test_num
          (TestContext.mk 0 6).n_elems →
        0 < wildcard_cmp (fun _ => 0) ⟨0, 6⟩ 0 2) :=
  wildcard_cmp_matches_upper_range (fun _ => 0) ⟨0, 6⟩ 5 2 (by decide)

/-- C29: the test comparator `int_cmp` is a strict total order on non-zero keys.
For all non-zero `a`, `b`, `c` it returns -1, 0 or 1, returns 0 if and only if
`a = b`, satisfies `int_cmp a b = - int_cmp b a`, and is transitive. -/
theorem int_cmp_strict_total_order (a b c : Nat) (_ha : a ≠ 0) (_hb : b ≠ 0) (_hc : c ≠ 0) :
    (int_cmp a b = -1 ∨ int_cmp a b = 0 ∨ int_cmp a b = 1) ∧
      (int_cmp a b = 0 ↔ a = b) ∧
      int_cmp a b = - int_cmp b a ∧
      (int_cmp a b < 0 → int_cmp b c < 0 → int_cmp a c < 0) := by
  unfold int_cmp
  refine ⟨?_, ?_, ?_, ?_⟩
  · split_ifs <;> simp
  · split_ifs with h1 h2
    · simp; omega
    · simp; omega
    · simp; omega
  · split_ifs <;> omega
  · split_ifs <;> omega

theorem int_cmp_strict_total_order_witness :
    (int_cmp 1 2 = -1 ∨ int_cmp 1 2 = 0 ∨ int_cmp 1 2 = 1) ∧
      (int_cmp 1 2 = 0 ↔ 1 = 2) ∧
      int_cmp 1 2 = - int_cmp 2 1 ∧
      (int_cmp 1 2 < 0 → int_cmp 2 3 < 0 → int_cmp 1 3 < 0) :=
  int_cmp_strict_total_order 1 2 3 (by decide) (by decide) (by decide)
